import Mathlib

/-!
# SM3 / SM4 / Merkle tree / length extension: a shallow embedding

Machine words are natural numbers reduced modulo `2 ^ 32` (or `2 ^ 64`) at every
place where the C code truncates.  Byte buffers are lists of natural numbers.
C arrays that are written in place are lists updated with `List.set`; `for`
loops over a fixed range are folds over `List.range`; `while` loops are
recursions on an explicit iteration budget which the callers set high enough
for the loop to leave through its own condition.
-/

set_option maxRecDepth 100000

/-! ## Shared helpers -/

namespace Bits

/-- Big-endian read of the `i`-th 32-bit word of a byte array, the idiom
`((uint32_t)b[4*i] << 24) | ((uint32_t)b[4*i+1] << 16) | ((uint32_t)b[4*i+2] << 8) |
(uint32_t)b[4*i+3]` of all three projects. -/
def load_be32 (b : List Nat) (i : Nat) : Nat :=
  ((b.getD (4 * i) 0 <<< 24) ||| (b.getD (4 * i + 1) 0 <<< 16) |||
    (b.getD (4 * i + 2) 0 <<< 8) ||| b.getD (4 * i + 3) 0) % 2 ^ 32

end Bits

/-! ## Project4/sm3.c -/

namespace Project4

/-- The macro `ROTL32(x,n)`: `(uint32_t)((x << n) | (x >> (32 - n)))`, with the
shift count read modulo 32 (a rotation of the 32-bit word `x`). -/
def ROTL32 (x n : Nat) : Nat :=
  ((x <<< (n % 32)) ||| (x >>> (32 - n % 32))) % 2 ^ 32

/-- The macro `P0(x)`. -/
def P0 (x : Nat) : Nat := x ^^^ ROTL32 x 9 ^^^ ROTL32 x 17

/-- The macro `P1(x)`. -/
def P1 (x : Nat) : Nat := x ^^^ ROTL32 x 15 ^^^ ROTL32 x 23

/-- The constant table `T[64]`: sixteen times `0x79cc4519`, then forty-eight
times `0x7a879d8a`. -/
def T : List Nat := List.replicate 16 0x79cc4519 ++ List.replicate 48 0x7a879d8a

/-- Bitwise complement `~x` of a `uint32_t`. -/
def not32 (x : Nat) : Nat := 2 ^ 32 - 1 - x % 2 ^ 32

/-- The function `FF(x,y,z,j)`. -/
def FF (x y z j : Nat) : Nat :=
  if j ≤ 15 then x ^^^ y ^^^ z else (x &&& y) ||| (x &&& z) ||| (y &&& z)

/-- The function `GG(x,y,z,j)`. -/
def GG (x y z j : Nat) : Nat :=
  if j ≤ 15 then x ^^^ y ^^^ z else (x &&& y) ||| (not32 x &&& z)

/-- Big-endian write of a 32-bit word as four bytes:
`(uint8_t)(w >> 24), (uint8_t)(w >> 16), (uint8_t)(w >> 8), (uint8_t)w`. -/
def store_be32 (w : Nat) : List Nat :=
  [(w >>> 24) % 256, (w >>> 16) % 256, (w >>> 8) % 256, w % 256]

/-- Body of the message expansion loop of `sm3_compress` (`j = 16 .. 67`). -/
def expand_step (W : List Nat) (j : Nat) : List Nat :=
  let x := W.getD (j - 16) 0 ^^^ W.getD (j - 9) 0 ^^^ ROTL32 (W.getD (j - 3) 0) 15
  W.set j (P1 x ^^^ ROTL32 (W.getD (j - 13) 0) 7 ^^^ W.getD (j - 6) 0)

/-- The eight working variables `A .. H` of `sm3_compress`. -/
structure regs where
  A : Nat
  B : Nat
  C : Nat
  D : Nat
  E : Nat
  F : Nat
  G : Nat
  H : Nat
deriving DecidableEq, Repr

/-- Body of the 64-round loop of `sm3_compress`. -/
def sm3_round (W Wp : List Nat) (r : regs) (j : Nat) : regs :=
  let Tj := ROTL32 (T.getD j 0) j
  let SS1 := ROTL32 ((ROTL32 r.A 12 + r.E + Tj) % 2 ^ 32) 7
  let SS2 := SS1 ^^^ ROTL32 r.A 12
  let TT1 := (FF r.A r.B r.C j + r.D + SS2 + Wp.getD j 0) % 2 ^ 32
  let TT2 := (GG r.E r.F r.G j + r.H + SS1 + W.getD j 0) % 2 ^ 32
  { A := TT1, B := r.A, C := ROTL32 r.B 9, D := r.C,
    E := P0 TT2, F := r.E, G := ROTL32 r.F 19, H := r.G }

/-- The function `sm3_compress(st, block)`; the result is the new `st`. -/
def sm3_compress (st : List Nat) (block : List Nat) : List Nat :=
  let W0 := (List.range 16).map (Bits.load_be32 block) ++ List.replicate 52 0
  let W := (List.range' 16 52).foldl expand_step W0
  let Wp := (List.range 64).map (fun j => W.getD j 0 ^^^ W.getD (j + 4) 0)
  let r0 : regs := ⟨st.getD 0 0, st.getD 1 0, st.getD 2 0, st.getD 3 0,
                    st.getD 4 0, st.getD 5 0, st.getD 6 0, st.getD 7 0⟩
  let r := (List.range 64).foldl (sm3_round W Wp) r0
  [st.getD 0 0 ^^^ r.A, st.getD 1 0 ^^^ r.B, st.getD 2 0 ^^^ r.C, st.getD 3 0 ^^^ r.D,
   st.getD 4 0 ^^^ r.E, st.getD 5 0 ^^^ r.F, st.getD 6 0 ^^^ r.G, st.getD 7 0 ^^^ r.H]

/-- The struct `sm3_ctx` of `sm3.h`.  `buffer` holds all 64 bytes of the C
array, of which only the first `buffer_len` are pending input. -/
structure sm3_ctx where
  state : List Nat
  bitlen : Nat
  buffer : List Nat
  buffer_len : Nat
deriving DecidableEq, Repr

/-- The initial value `IV` of `sm3_init`. -/
def IV : List Nat :=
  [0x7380166F, 0x4914B2B9, 0x172442D7, 0xDA8A0600,
   0xA96F30BC, 0x163138AA, 0xE38DEE4D, 0xB0FB0E4E]

/-- The function `sm3_init(ctx)`: it writes `state`, `bitlen` and `buffer_len`
and leaves the bytes of `buffer` as they were. -/
def sm3_init (ctx : sm3_ctx) : sm3_ctx :=
  { ctx with state := IV, bitlen := 0, buffer_len := 0 }

/-- The call `memcpy(dst + off, src, |src|)` on a byte array `dst`. -/
def memcpy (dst : List Nat) (off : Nat) (src : List Nat) : List Nat :=
  dst.take off ++ src ++ dst.drop (off + src.length)

/-- The loop `while(len>=64){ sm3_compress(state, p); p+=64; len-=64; }` of
`sm3_update`, with an iteration budget; it returns the state and the unread
input. -/
def update_loop : Nat → List Nat → List Nat → List Nat × List Nat
  | 0, st, p => (st, p)
  | fuel + 1, st, p =>
    if 64 ≤ p.length then update_loop fuel (sm3_compress st (p.take 64)) (p.drop 64)
    else (st, p)

/-- The function `sm3_update(ctx, data, len)` with `len = |data|`.  The loop
budget `len` is never exhausted (`update_loop_spec`). -/
def sm3_update (ctx : sm3_ctx) (data : List Nat) : sm3_ctx :=
  let bitlen := (ctx.bitlen + (data.length * 8) % 2 ^ 64) % 2 ^ 64
  let c1 : sm3_ctx :=
    if ctx.buffer_len ≠ 0 then
      let need := if 64 - ctx.buffer_len > data.length then data.length
                  else 64 - ctx.buffer_len
      let buffer := memcpy ctx.buffer ctx.buffer_len (data.take need)
      let buffer_len := ctx.buffer_len + need
      if buffer_len = 64 then
        { state := sm3_compress ctx.state buffer, bitlen := bitlen,
          buffer := buffer, buffer_len := 0 }
      else
        { state := ctx.state, bitlen := bitlen, buffer := buffer, buffer_len := buffer_len }
    else { ctx with bitlen := bitlen }
  let p := if ctx.buffer_len ≠ 0 then
      data.drop (if 64 - ctx.buffer_len > data.length then data.length
                 else 64 - ctx.buffer_len)
    else data
  let r := update_loop p.length c1.state p
  if r.2.length ≠ 0 then
    { c1 with state := r.1, buffer := memcpy c1.buffer 0 r.2, buffer_len := r.2.length }
  else { c1 with state := r.1 }

/-- The loop `for(i=0;i<8;i++) lenbuf[7-i] = (uint8_t)((be_bits>>(8*i))&0xFF)`:
the eight bytes of `be_bits`, most significant first. -/
def lenbuf (be_bits : Nat) : List Nat :=
  (List.range 8).map (fun k => (be_bits >>> (8 * (7 - k))) &&& 0xFF)

/-- The output loop of `sm3_final`: the eight state words, big-endian. -/
def state_bytes (st : List Nat) : List Nat :=
  store_be32 (st.getD 0 0) ++ store_be32 (st.getD 1 0) ++
  store_be32 (st.getD 2 0) ++ store_be32 (st.getD 3 0) ++
  store_be32 (st.getD 4 0) ++ store_be32 (st.getD 5 0) ++
  store_be32 (st.getD 6 0) ++ store_be32 (st.getD 7 0)

/-- The function `sm3_final(ctx, out)`; it returns the context it leaves
behind and the 32 bytes written to `out`. -/
def sm3_final (ctx : sm3_ctx) : sm3_ctx × List Nat :=
  let pad := [0x80] ++ List.replicate 63 0
  let nzero := if ctx.buffer_len ≤ 55 then 55 - ctx.buffer_len else 119 - ctx.buffer_len
  let be_bits := ctx.bitlen &&& 0xFFFFFFFFFFFFFFFF
  let c1 := sm3_update ctx (pad.take 1)
  let c2 := if nzero ≠ 0 then sm3_update c1 ((List.replicate 64 0).take nzero) else c1
  let c3 := sm3_update c2 (lenbuf be_bits)
  (c3, state_bytes c3.state)

/-- The contents of a freshly declared, not yet initialised `sm3_ctx c;`.  Any
other contents give the same digests (`sm3_hash_any_ctx`). -/
def fresh_ctx : sm3_ctx :=
  { state := List.replicate 8 0, bitlen := 0, buffer := List.replicate 64 0, buffer_len := 0 }

/-- The function `sm3_hash(data, len, out)` with `len = |data|`; the result is
`out`. -/
def sm3_hash (data : List Nat) : List Nat :=
  (sm3_final (sm3_update (sm3_init fresh_ctx) data)).2


/-! ## Project4/lenext_demo.c -/

/-- The function `digest_to_state_be(digest, state_out)`; the result is `state_out`. -/
def digest_to_state_be (digest : List Nat) : List Nat :=
  (List.range 8).map (Bits.load_be32 digest)

/-- The function `md_pad(msg_len, pad_len)` on a `uint64_t msg_len`: the returned
buffer and `*pad_len`. -/
def md_pad (msg_len : Nat) : List Nat × Nat :=
  let bit_len := (msg_len * 8) % 2 ^ 64
  let rem := (msg_len + 1) % 2 ^ 64 % 64
  let zeros := if rem ≤ 56 then 56 - rem else 56 + (64 - rem)
  let pad_len := 1 + zeros + 8
  ([0x80] ++ List.replicate zeros 0 ++
    (List.range 8).map (fun k => (bit_len >>> (8 * (7 - k))) &&& 0xFF), pad_len)

/-- The function `server_mac(svr, msg, msg_len, out)` for a server holding
`secret`; the result is `out`. -/
def server_mac (secret msg : List Nat) : List Nat :=
  (sm3_final (sm3_update (sm3_update (sm3_init fresh_ctx) secret) msg)).2

/-- The function `server_verify(svr, forged, forged_len, tag)`:
`memcmp(calc, tag, HASHLEN) == 0`. -/
def server_verify (secret forged tag : List Nat) : Int :=
  if server_mac secret forged = tag then 1 else 0

/-- The struct `attack_result_t`. -/
structure attack_result_t where
  forged_msg : List Nat
  forged_len : Nat
  forged_tag : List Nat
  secret_len_guess : Nat
  glue_len : Nat
deriving DecidableEq, Repr

/-- The context `do_lenext_attack` writes by hand before it resumes hashing:
`state` from the known tag, `bitlen = (secret_len_guess + m_len + glue_len) * 8`,
`buffer_len = 0`, and a buffer that was never initialised. -/
def resumed_ctx (known_tag : List Nat) (total_len : Nat) : sm3_ctx :=
  { fresh_ctx with state := digest_to_state_be known_tag,
                   bitlen := (total_len % 2 ^ 64 * 8) % 2 ^ 64,
                   buffer_len := 0 }

/-- The function `do_lenext_attack(known_tag, m, m_len, suffix, suffix_len,
secret_len_guess)`, with 64-bit `size_t`. -/
def do_lenext_attack (known_tag m suffix : List Nat) (secret_len_guess : Nat) :
    attack_result_t :=
  let g := md_pad ((secret_len_guess + m.length) % 2 ^ 64)
  let glue := g.1
  let glue_len := g.2
  let c := resumed_ctx known_tag (secret_len_guess + m.length + glue_len)
  let c1 := sm3_update c suffix
  { forged_msg := m ++ glue.take glue_len ++ suffix,
    forged_len := (m.length + glue_len + suffix.length) % 2 ^ 64,
    forged_tag := (sm3_final c1).2,
    secret_len_guess := secret_len_guess,
    glue_len := glue_len }

/-- The search loop of `main`: the first guess in `1 .. 64` whose forgery
`server_verify` accepts, or `none` when the loop ends without success. -/
def lenext_search (secret tag m suffix : List Nat) : Option attack_result_t :=
  (List.range' 1 64).findSome? (fun guess =>
    let attempt := do_lenext_attack tag m suffix guess
    if server_verify secret (attempt.forged_msg.take attempt.forged_len) attempt.forged_tag ≠ 0
    then some attempt else none)

end Project4

/-! ## Project1/AVX2_T-Table优化版.cpp -/

namespace Project1

/-- The macro `ROL32(x,n)` on a `uint32_t` operand. -/
def ROL32 (x n : Nat) : Nat := ((x <<< n) ||| (x >>> (32 - n))) % 2 ^ 32

/-- The table `SM4_SBOX[256]`. -/
def SM4_SBOX : List Nat := [
    0xd6,0x90,0xe9,0xfe,0xcc,0xe1,0x3d,0xb7,0x16,0xb6,0x14,0xc2,0x28,0xfb,0x2c,0x05,
    0x2b,0x67,0x9a,0x76,0x2a,0xbe,0x04,0xc3,0xaa,0x44,0x13,0x26,0x49,0x86,0x06,0x99,
    0x9c,0x42,0x50,0xf4,0x91,0xef,0x98,0x7a,0x33,0x54,0x0b,0x43,0xed,0xcf,0xac,0x62,
    0xe4,0xb3,0x1c,0xa9,0xc9,0x08,0xe8,0x95,0x80,0xdf,0x94,0xfa,0x75,0x8f,0x3f,0xa6,
    0x47,0x07,0xa7,0xfc,0xf3,0x73,0x17,0xba,0x83,0x59,0x3c,0x19,0xe6,0x85,0x4f,0xa8,
    0x68,0x6b,0x81,0xb2,0x71,0x64,0xda,0x8b,0xf8,0xeb,0x0f,0x4b,0x70,0x56,0x9d,0x35,
    0x1e,0x24,0x0e,0x5e,0x63,0x58,0xd1,0xa2,0x25,0x22,0x7c,0x3b,0x01,0x21,0x78,0x87,
    0xd4,0x00,0x46,0x57,0x9f,0xd3,0x27,0x52,0x4c,0x36,0x02,0xe7,0xa0,0xc4,0xc8,0x9e,
    0xea,0xbf,0x8a,0xd2,0x40,0xc7,0x38,0xb5,0xa3,0xf7,0xf2,0xce,0xf9,0x61,0x15,0xa1,
    0xe0,0xae,0x5d,0xa4,0x9b,0x34,0x1a,0x55,0xad,0x93,0x32,0x30,0xf5,0x8c,0xb1,0xe3,
    0x1d,0xf6,0xe2,0x2e,0x82,0x66,0xca,0x60,0xc0,0x29,0x23,0xab,0x0d,0x53,0x4e,0x6f,
    0xd5,0xdb,0x37,0x45,0xde,0xfd,0x8e,0x2f,0x03,0xff,0x6a,0x72,0x6d,0x6c,0x5b,0x51,
    0x8d,0x1b,0xaf,0x92,0xbb,0xdd,0xbc,0x7f,0x11,0xd9,0x5c,0x41,0x1f,0x10,0x5a,0xd8,
    0x0a,0xc1,0x31,0x88,0xa5,0xcd,0x7b,0xbd,0x2d,0x74,0xd0,0x12,0xb8,0xe5,0xb4,0xb0,
    0x89,0x69,0x97,0x4a,0x0c,0x96,0x77,0x7e,0x65,0xb9,0xf1,0x09,0xc5,0x6e,0xc6,0x84,
    0x18,0xf0,0x7d,0xec,0x3a,0xdc,0x4d,0x20,0x79,0xee,0x5f,0x3e,0xd7,0xcb,0x39,0x48]

/-- The four static tables `T0, T1, T2, T3` (zero until `build_t_tables` runs). -/
structure ttables where
  T0 : List Nat
  T1 : List Nat
  T2 : List Nat
  T3 : List Nat
deriving DecidableEq, Repr

/-- The tables at program start: static storage is zero-initialised. -/
def ttables.zero : ttables :=
  ⟨List.replicate 256 0, List.replicate 256 0, List.replicate 256 0, List.replicate 256 0⟩

/-- The function `sm4_L(B)`. -/
def sm4_L (B : Nat) : Nat := B ^^^ ROL32 B 2 ^^^ ROL32 B 10 ^^^ ROL32 B 18 ^^^ ROL32 B 24

/-- The function `build_t_tables()`, as a transformer of the static tables.  The
entries are `t << 24`, `t << 16`, `t << 8` and `t`, shifts of a `uint32_t`. -/
def build_t_tables (tt : ttables) : ttables :=
  (List.range 256).foldl (fun tt i =>
    let b := SM4_SBOX.getD i 0
    let t := sm4_L b
    { T0 := tt.T0.set i ((t <<< 24) % 2 ^ 32),
      T1 := tt.T1.set i ((t <<< 16) % 2 ^ 32),
      T2 := tt.T2.set i ((t <<< 8) % 2 ^ 32),
      T3 := tt.T3.set i t }) tt

/-- The constants `FK[4]`. -/
def FK : List Nat := [0xa3b1bac6, 0x56aa3350, 0x677d9197, 0xb27022dc]

/-- The constants `CK[32]`. -/
def CK : List Nat := [
    0x00070e15,0x1c232a31,0x383f464d,0x545b6269,
    0x70777e85,0x8c939aa1,0xa8afb6bd,0xc4cbd2d9,
    0xe0e7eef5,0xfc030a11,0x181f262d,0x343b4249,
    0x50575e65,0x6c737a81,0x888f969d,0xa4abb2b9,
    0xc0c7ced5,0xdce3eaf1,0xf8ff060d,0x141b2229,
    0x30373e45,0x4c535a61,0x686f767d,0x848b9299,
    0xa0a7aeb5,0xbcc3cad1,0xd8dfe6ed,0xf4fb0209,
    0x10171e25,0x2c333a41,0x484f565d,0x646b7279]

/-- The function `sm4_tau(A)`. -/
def sm4_tau (A : Nat) : Nat :=
  let a0 := SM4_SBOX.getD ((A >>> 24) &&& 0xFF) 0
  let a1 := SM4_SBOX.getD ((A >>> 16) &&& 0xFF) 0
  let a2 := SM4_SBOX.getD ((A >>> 8) &&& 0xFF) 0
  let a3 := SM4_SBOX.getD (A &&& 0xFF) 0
  ((a0 <<< 24) ||| (a1 <<< 16) ||| (a2 <<< 8) ||| a3) % 2 ^ 32

/-- Big-endian write of a word: `(B >> 24) & 0xFF, (B >> 16) & 0xFF, (B >> 8) & 0xFF,
B & 0xFF`. -/
def store_be32 (B : Nat) : List Nat :=
  [(B >>> 24) &&& 0xFF, (B >>> 16) &&& 0xFF, (B >>> 8) &&& 0xFF, B &&& 0xFF]

/-- The function `sm4_key_schedule(mk, rk)`; the result is `rk[32]`. -/
def sm4_key_schedule (mk : List Nat) : List Nat :=
  let K0 := (List.range 4).foldl (fun K i => K.set i (Bits.load_be32 mk i ^^^ FK.getD i 0))
    (List.replicate 36 0)
  ((List.range 32).foldl (fun (s : List Nat × List Nat) i =>
    let K := s.1
    let t := K.getD (i + 1) 0 ^^^ K.getD (i + 2) 0 ^^^ K.getD (i + 3) 0 ^^^ CK.getD i 0
    let b := sm4_tau t
    let Lp := b ^^^ ROL32 b 13 ^^^ ROL32 b 23
    let K' := K.set (i + 4) (K.getD i 0 ^^^ Lp)
    (K', s.2.set i (K'.getD (i + 4) 0))) (K0, List.replicate 32 0)).2

/-- The T-table lookup `T0[(tmp >> 24) & 0xFF] ^ T1[(tmp >> 16) & 0xFF] ^
T2[(tmp >> 8) & 0xFF] ^ T3[tmp & 0xFF]`. -/
def ttable_lookup (tt : ttables) (tmp : Nat) : Nat :=
  tt.T0.getD ((tmp >>> 24) &&& 0xFF) 0 ^^^ tt.T1.getD ((tmp >>> 16) &&& 0xFF) 0 ^^^
    tt.T2.getD ((tmp >>> 8) &&& 0xFF) 0 ^^^ tt.T3.getD (tmp &&& 0xFF) 0

/-- Body of the round loop, on the working array `X[36]`. -/
def round_step (tt : ttables) (rk : List Nat) (X : List Nat) (i : Nat) : List Nat :=
  let tmp := X.getD (i + 1) 0 ^^^ X.getD (i + 2) 0 ^^^ X.getD (i + 3) 0 ^^^ rk.getD i 0
  let y := ttable_lookup tt tmp
  X.set (i + 4) (X.getD i 0 ^^^ y)

/-- The input loop: `X[i] = big-endian word i of in`, for `i = 0 .. 3`. -/
def load_block (inp : List Nat) : List Nat :=
  (List.range 4).foldl (fun X i => X.set i (Bits.load_be32 inp i)) (List.replicate 36 0)

/-- The output loop: `X[35 - i]` written big-endian at `out[4i .. 4i+3]`, for
`i = 0 .. 3`. -/
def store_block (X : List Nat) : List Nat :=
  store_be32 (X.getD 35 0) ++ store_be32 (X.getD 34 0) ++
    store_be32 (X.getD 33 0) ++ store_be32 (X.getD 32 0)

/-- The function `sm4_encrypt_block_ttable(in, out, rk)` reading the static
tables `tt`; the result is `out[16]`. -/
def sm4_encrypt_block_ttable (tt : ttables) (inp rk : List Nat) : List Nat :=
  store_block ((List.range 32).foldl (round_step tt rk) (load_block inp))

/-- The input loops of `sm4_encrypt_4blocks_ttable`: `X[b][i]` is the big-endian
word `i` of `in[b]`, for `b, i = 0 .. 3`. -/
def load_4blocks (inp : List (List Nat)) : List (List Nat) :=
  (List.range 4).foldl (fun (X : List (List Nat)) b =>
      X.set b ((List.range 4).foldl
        (fun Xb i => Xb.set i (Bits.load_be32 (inp.getD b []) i)) (X.getD b [])))
    (List.replicate 4 (List.replicate 36 0))

/-- Round `r` of `sm4_encrypt_4blocks_ttable`: the inner loop over the four
lanes `b = 0 .. 3`, on the working array `X[4][36]`. -/
def round_step4 (tt : ttables) (rk : List Nat) (X : List (List Nat)) (r : Nat) :
    List (List Nat) :=
  (List.range 4).foldl (fun (X : List (List Nat)) b =>
    let tmp := (X.getD b []).getD (r + 1) 0 ^^^ (X.getD b []).getD (r + 2) 0 ^^^
      (X.getD b []).getD (r + 3) 0 ^^^ rk.getD r 0
    let y := ttable_lookup tt tmp
    X.set b ((X.getD b []).set (r + 4) ((X.getD b []).getD r 0 ^^^ y))) X

/-- The output loops of `sm4_encrypt_4blocks_ttable`. -/
def store_4blocks (X : List (List Nat)) : List (List Nat) :=
  (List.range 4).foldl (fun (out : List (List Nat)) b =>
      out.set b (store_block (X.getD b []))) (List.replicate 4 (List.replicate 16 0))

/-- The function `sm4_encrypt_4blocks_ttable(in, out, rk)` reading the static
tables `tt`; `inp` is `in[4][16]`, the result is `out[4][16]`. -/
def sm4_encrypt_4blocks_ttable (tt : ttables) (inp : List (List Nat)) (rk : List Nat) :
    List (List Nat) :=
  store_4blocks ((List.range 32).foldl (round_step4 tt rk) (load_4blocks inp))

/-- The key `mk` (and first plaintext block) of `main`. -/
def test_key : List Nat :=
  [0x01,0x23,0x45,0x67,0x89,0xab,0xcd,0xef,0xfe,0xdc,0xba,0x98,0x76,0x54,0x32,0x10]

end Project1

/-! ## Project3/sm3_opt.c -/

namespace Project3

/-- The macro `ROTL32(x,n)` of `sm3_opt.c`; every use has a constant `n` in `1 .. 31`. -/
def ROTL32 (x n : Nat) : Nat :=
  ((x <<< n) ||| (x >>> (32 - n))) % 2 ^ 32

/-- The macro `P0(x)`. -/
def P0 (x : Nat) : Nat := x ^^^ ROTL32 x 9 ^^^ ROTL32 x 17

/-- The macro `P1(x)`. -/
def P1 (x : Nat) : Nat := x ^^^ ROTL32 x 15 ^^^ ROTL32 x 23

/-- The table `TJ[64]`, as written in `sm3_opt.c`. -/
def TJ : List Nat := [
    0x79cc4519, 0xf3988a32, 0xe7311465, 0xce6228cb,
    0x9cc45197, 0x3988a32f, 0x7311465e, 0xe6228cbc,
    0xcc451979, 0x988a32f3, 0x311465e7, 0x6228cbce,
    0xc451979c, 0x88a32f39, 0x11465e73, 0x228cbce6,
    0x9d8a7a87, 0x3b14f50f, 0x7629ea1f, 0xec53d43e,
    0xd8a7a87d, 0xb14f50fb, 0x629ea1f7, 0xc53d43ee,
    0x8a7a87dd, 0x14f50fbb, 0x29ea1f77, 0x53d43eee,
    0xa7a87ddd, 0x4f50fbbb, 0x9ea1f777, 0x3d43eeee,
    0x7a87dddd, 0xf50fbbbb, 0xea1f7777, 0xd43eeee,
    0xa87ddddd, 0x50fbbbbb, 0xa1f77777, 0x43eeeeee,
    0x87dddddd, 0x0fbbbbbb, 0x1f777777, 0x3eeeeeee,
    0x7ddddddd, 0xfbbbbbbb, 0xf7777777, 0xeeeeeeee,
    0xdddddddd, 0xbbbbbbbb, 0x77777777, 0xeeeeeeee,
    0xdddddddd, 0xbbbbbbbb, 0x77777777, 0xeeeeeeee,
    0xdddddddd, 0xbbbbbbbb, 0x77777777, 0xeeeeeeee]

/-- The macro `FF0(x,y,z)`. -/
def FF0 (x y z : Nat) : Nat := x ^^^ y ^^^ z

/-- The macro `FF1(x,y,z)`. -/
def FF1 (x y z : Nat) : Nat := (x &&& y) ||| (x &&& z) ||| (y &&& z)

/-- The macro `GG0(x,y,z)`. -/
def GG0 (x y z : Nat) : Nat := x ^^^ y ^^^ z

/-- The macro `GG1(x,y,z)`. -/
def GG1 (x y z : Nat) : Nat := (x &&& y) ||| (Project4.not32 x &&& z)

/-- The message-word part of the macro `ROUND(j, FF, GG)`: the window `W[16]` it
leaves, and the values `Wj` and `Wp`. -/
def window_words (W : List Nat) (j : Nat) : List Nat × Nat × Nat :=
  let r : List Nat × Nat :=
    if j ≥ 16 then
      let tmp := W.getD ((j - 16) &&& 0x0f) 0 ^^^ W.getD ((j - 9) &&& 0x0f) 0 ^^^
        ROTL32 (W.getD ((j - 3) &&& 0x0f) 0) 15
      let Wj := P1 tmp ^^^ ROTL32 (W.getD ((j - 13) &&& 0x0f) 0) 7 ^^^
        W.getD ((j - 6) &&& 0x0f) 0
      (W.set (j &&& 0x0f) Wj, Wj)
    else (W, W.getD j 0)
  let Wj4 := r.1.getD ((j + 4) &&& 0x0f) 0
  (r.1, r.2, r.2 ^^^ Wj4)

/-- The macro `ROUND(j, FF, GG)` on the window `W[16]` and the registers. -/
def ROUND (j : Nat) (FF GG : Nat → Nat → Nat → Nat) (s : List Nat × Project4.regs) :
    List Nat × Project4.regs :=
  let r := s.2
  let w := window_words s.1 j
  let Wj := w.2.1
  let Wp := w.2.2
  let SS1 := ROTL32 ((ROTL32 r.A 12 + r.E + TJ.getD j 0) % 2 ^ 32) 7
  let SS2 := SS1 ^^^ ROTL32 r.A 12
  let TT1 := (FF r.A r.B r.C + r.D + SS2 + Wp) % 2 ^ 32
  let TT2 := (GG r.E r.F r.G + r.H + SS1 + Wj) % 2 ^ 32
  (w.1, { A := TT1, B := r.A, C := ROTL32 r.B 9, D := r.C,
          E := P0 TT2, F := r.E, G := ROTL32 r.F 19, H := r.G })

/-- Four consecutive rounds `ROUND(j+0) .. ROUND(j+3)`: the body of both round
loops of `sm3_compress`. -/
def ROUND4 (FF GG : Nat → Nat → Nat → Nat) (s : List Nat × Project4.regs) (j : Nat) :
    List Nat × Project4.regs :=
  ROUND (j + 3) FF GG (ROUND (j + 2) FF GG (ROUND (j + 1) FF GG (ROUND (j + 0) FF GG s)))

/-- The function `sm3_compress(st, block)` of `sm3_opt.c`; the result is the new `st`. -/
def sm3_compress (st : List Nat) (block : List Nat) : List Nat :=
  let W := (List.range 16).map (Bits.load_be32 block)
  let r0 : Project4.regs := ⟨st.getD 0 0, st.getD 1 0, st.getD 2 0, st.getD 3 0,
                             st.getD 4 0, st.getD 5 0, st.getD 6 0, st.getD 7 0⟩
  let s1 := (List.range' 0 4 4).foldl (ROUND4 FF0 GG0) (W, r0)
  let s2 := (List.range' 16 12 4).foldl (ROUND4 FF1 GG1) s1
  let r := s2.2
  [st.getD 0 0 ^^^ r.A, st.getD 1 0 ^^^ r.B, st.getD 2 0 ^^^ r.C, st.getD 3 0 ^^^ r.D,
   st.getD 4 0 ^^^ r.E, st.getD 5 0 ^^^ r.F, st.getD 6 0 ^^^ r.G, st.getD 7 0 ^^^ r.H]

/-- The function `sm3_init(ctx)` of `sm3_opt.c`. -/
def sm3_init (ctx : Project4.sm3_ctx) : Project4.sm3_ctx :=
  { ctx with state := Project4.IV, bitlen := 0, buffer_len := 0 }

/-- The loop `while (len >= 64)` of `sm3_update` in `sm3_opt.c`, with an iteration
budget. -/
def update_loop : Nat → List Nat → List Nat → List Nat × List Nat
  | 0, st, p => (st, p)
  | fuel + 1, st, p =>
    if 64 ≤ p.length then update_loop fuel (sm3_compress st (p.take 64)) (p.drop 64)
    else (st, p)

/-- The function `sm3_update(ctx, data, len)` of `sm3_opt.c`, with `len = |data|`. -/
def sm3_update (ctx : Project4.sm3_ctx) (data : List Nat) : Project4.sm3_ctx :=
  let bitlen := (ctx.bitlen + (data.length * 8) % 2 ^ 64) % 2 ^ 64
  let c1 : Project4.sm3_ctx :=
    if ctx.buffer_len ≠ 0 then
      let need := if 64 - ctx.buffer_len > data.length then data.length
                  else 64 - ctx.buffer_len
      let buffer := Project4.memcpy ctx.buffer ctx.buffer_len (data.take need)
      let buffer_len := ctx.buffer_len + need
      if buffer_len = 64 then
        { state := sm3_compress ctx.state buffer, bitlen := bitlen,
          buffer := buffer, buffer_len := 0 }
      else
        { state := ctx.state, bitlen := bitlen, buffer := buffer, buffer_len := buffer_len }
    else { ctx with bitlen := bitlen }
  let p := if ctx.buffer_len ≠ 0 then
      data.drop (if 64 - ctx.buffer_len > data.length then data.length
                 else 64 - ctx.buffer_len)
    else data
  let r := update_loop p.length c1.state p
  if r.2.length ≠ 0 then
    { c1 with state := r.1, buffer := Project4.memcpy c1.buffer 0 r.2,
              buffer_len := r.2.length }
  else { c1 with state := r.1 }

/-- The function `sm3_final(ctx, out)` of `sm3_opt.c`. -/
def sm3_final (ctx : Project4.sm3_ctx) : Project4.sm3_ctx × List Nat :=
  let pad := [0x80] ++ List.replicate 63 0
  let nzero := if ctx.buffer_len ≤ 55 then 55 - ctx.buffer_len else 119 - ctx.buffer_len
  let be_bits := ctx.bitlen
  let c1 := sm3_update ctx (pad.take 1)
  let c2 := if nzero ≠ 0 then sm3_update c1 ((List.replicate 64 0).take nzero) else c1
  let c3 := sm3_update c2 (Project4.lenbuf be_bits)
  (c3, Project4.state_bytes c3.state)

/-- The function `sm3_hash(data, len, out)` of `sm3_opt.c`. -/
def sm3_hash (data : List Nat) : List Nat :=
  (sm3_final (sm3_update (sm3_init Project4.fresh_ctx) data)).2

/-! ## Project3/merkle_demo.c -/

/-- The function `hash_leaf(leaf, len, out)` with the hash function `H` in the
place of `sm3_hash`: `out = H(0x00 ‖ leaf)`. -/
def hash_leaf (H : List Nat → List Nat) (leaf : List Nat) : List Nat :=
  H ([0x00] ++ leaf)

/-- The function `hash_node(left, right, out)`: `out = H(0x01 ‖ left ‖ right)`. -/
def hash_node (H : List Nat → List Nat) (left right : List Nat) : List Nat :=
  H ([0x01] ++ left ++ right)

/-- The struct `level_t`: `data` is the array of node hashes (one entry per
`HASHLEN` bytes), `nodes` the node count. -/
structure level_t where
  data : List (List Nat)
  nodes : Nat
deriving DecidableEq, Repr

/-- One pass of the body of the `while` loop of `merkle_build`: the level above
`cur`. -/
def next_level (H : List Nat → List Nat) (cur : level_t) : level_t :=
  let next_nodes := (cur.nodes + 1) / 2
  { nodes := next_nodes,
    data := (List.range next_nodes).map (fun i =>
      let left_idx := i * 2
      let right_idx := left_idx + 1
      let left := cur.data.getD left_idx []
      let right := if right_idx < cur.nodes then cur.data.getD right_idx [] else left
      hash_node H left right) }

/-- The loop `while(levels[level_idx].nodes > 1)` of `merkle_build`, with an
iteration budget: the levels from `cur = levels[level_idx]` upwards. -/
def build_levels (H : List Nat → List Nat) : Nat → level_t → List level_t
  | 0, cur => [cur]
  | fuel + 1, cur =>
    if cur.nodes > 1 then cur :: build_levels H fuel (next_level H cur) else [cur]

/-- The function `merkle_build(leaf_bufs, leaf_lens, n_leaves, out_levels)`:
`none` is `NULL`; otherwise the levels written, whose count is `*out_levels`.
The loop budget `n_leaves` is never exhausted (`build_levels_top`). -/
def merkle_build (H : List Nat → List Nat) (leaves : List (List Nat)) :
    Option (List level_t) :=
  if leaves.length = 0 then none
  else some (build_levels H leaves.length
    { data := leaves.map (hash_leaf H), nodes := leaves.length })

/-- The function `merkle_root(levels, nlevels, out)`: the first hash of
`levels[nlevels-1]`. -/
def merkle_root (levels : List level_t) (nlevels : Nat) : List Nat :=
  (levels.getD (nlevels - 1) ⟨[], 0⟩).data.getD 0 []

/-- Loop state of `merkle_inclusion_proof`. -/
structure proof_state where
  idx : Nat
  proof : List (List Nat)
  dirs : List Nat
  plen : Nat
deriving DecidableEq, Repr

/-- Body of the loop of `merkle_inclusion_proof` at `level`. -/
def proof_step (levels : List level_t) (s : proof_state) (level : Nat) : proof_state :=
  let L := levels.getD level ⟨[], 0⟩
  if s.idx % 2 = 0 then
    let sibling := s.idx + 1
    if sibling ≥ L.nodes then
      { idx := s.idx / 2, proof := s.proof ++ [L.data.getD s.idx []],
        dirs := s.dirs ++ [0], plen := s.plen + 1 }
    else
      { idx := s.idx / 2, proof := s.proof ++ [L.data.getD sibling []],
        dirs := s.dirs ++ [0], plen := s.plen + 1 }
  else
    let sibling := s.idx - 1
    { idx := s.idx / 2, proof := s.proof ++ [L.data.getD sibling []],
      dirs := s.dirs ++ [1], plen := s.plen + 1 }

/-- The function `merkle_inclusion_proof(levels, nlevels, leaf_index, ...)`: the
return code and, on success, `(*out_proof_hashes, *out_dirs, *out_len)`. -/
def merkle_inclusion_proof (levels : Option (List level_t)) (nlevels leaf_index : Nat) :
    Int × Option (List (List Nat) × List Nat × Nat) :=
  match levels with
  | none => (-1, none)
  | some lv =>
    if nlevels = 0 then (-1, none)
    else if leaf_index ≥ (lv.getD 0 ⟨[], 0⟩).nodes then (-2, none)
    else
      let s := (List.range (nlevels - 1)).foldl (proof_step lv) ⟨leaf_index, [], [], 0⟩
      (0, some (s.proof, s.dirs, s.plen))

/-- Body of the loop of `merkle_verify_inclusion`, on `(cur, idx)`. -/
def verify_step (H : List Nat → List Nat) (proof_hashes : List (List Nat)) (dirs : List Nat)
    (s : List Nat × Nat) (i : Nat) : List Nat × Nat :=
  if dirs.getD i 0 = 0 then (hash_node H s.1 (proof_hashes.getD i []), s.2 / 2)
  else (hash_node H (proof_hashes.getD i []) s.1, s.2 / 2)

/-- The function `merkle_verify_inclusion(root, leaf, leaf_len, proof_hashes, dirs,
proof_len, leaf_index)`. -/
def merkle_verify_inclusion (H : List Nat → List Nat) (root leaf : List Nat)
    (proof_hashes : List (List Nat)) (dirs : List Nat) (proof_len leaf_index : Nat) : Int :=
  let s := (List.range proof_len).foldl (verify_step H proof_hashes dirs)
    (hash_leaf H leaf, leaf_index)
  if s.1 = root then 1 else 0

/-- The constant `SIZE_MAX` of a 64-bit `size_t`. -/
def SIZE_MAX : Nat := 2 ^ 64 - 1

/-- The library call `memcmp(a, b, n)` on byte arrays holding at least `n`
bytes: negative, zero or positive as the first differing byte of `a` is below,
absent or above that of `b`. -/
def memcmp : List Nat → List Nat → Nat → Int
  | x :: a, y :: b, n + 1 => if x < y then -1 else if y < x then 1 else memcmp a b n
  | _, _, _ => 0

/-- The struct `nm_proof_t`; `none` is a `NULL` proof pointer. -/
structure nm_proof_t where
  found : Int
  found_index : Nat
  left_index : Nat
  right_index : Nat
  left_proof_hashes : Option (List (List Nat))
  left_dirs : Option (List Nat)
  left_proof_len : Nat
  right_proof_hashes : Option (List (List Nat))
  right_dirs : Option (List Nat)
  right_proof_len : Nat
deriving DecidableEq, Repr

/-- The binary search loop `while(lo < hi)` of `merkle_non_membership_proof`, with
an iteration budget: `(some mid, _)` when the loop returns with `found = 1` and
`found_index = mid`, and `(none, lo)` when it ends with insertion position `lo`.
`lo + hi` does not wrap, the leaf count being that of an array in memory. -/
def nm_search (leaves : List (List Nat)) (target : List Nat) :
    Nat → Nat → Nat → Option Nat × Nat
  | 0, lo, _ => (none, lo)
  | fuel + 1, lo, hi =>
    if lo < hi then
      let mid := (lo + hi) / 2
      let leaf := leaves.getD mid []
      let cmp := memcmp leaf target
        (if leaf.length < target.length then leaf.length else target.length)
      if cmp = 0 then
        if leaf.length = target.length then (some mid, lo)
        else if (if leaf.length < target.length then (-1 : Int) else 1) < 0 then
          nm_search leaves target fuel (mid + 1) hi
        else nm_search leaves target fuel lo mid
      else if cmp < 0 then nm_search leaves target fuel (mid + 1) hi
      else nm_search leaves target fuel lo mid
    else (none, lo)

/-- A call `merkle_inclusion_proof(..., &out.left_proof_hashes, &out.left_dirs,
&out.left_proof_len)` whose return code is dropped: the three fields are written
only when the call succeeds. -/
def set_left_proof (out : nm_proof_t) (r : Int × Option (List (List Nat) × List Nat × Nat)) :
    nm_proof_t :=
  match r.2 with
  | some p => { out with left_proof_hashes := some p.1, left_dirs := some p.2.1,
                         left_proof_len := p.2.2 }
  | none => out

/-- The same for the three `right_` fields. -/
def set_right_proof (out : nm_proof_t) (r : Int × Option (List (List Nat) × List Nat × Nat)) :
    nm_proof_t :=
  match r.2 with
  | some p => { out with right_proof_hashes := some p.1, right_dirs := some p.2.1,
                         right_proof_len := p.2.2 }
  | none => out

/-- The function `merkle_non_membership_proof(leaf_bufs, leaf_lens, n_leaves, levels,
nlevels, target, target_len)`.  The search budget `n_leaves` is never exhausted
(`nm_search_spec`). -/
def merkle_non_membership_proof (leaves : List (List Nat)) (levels : Option (List level_t))
    (nlevels : Nat) (target : List Nat) : nm_proof_t :=
  let out : nm_proof_t :=
    { found := 0, found_index := 0, left_index := SIZE_MAX, right_index := SIZE_MAX,
      left_proof_hashes := none, left_dirs := none, left_proof_len := 0,
      right_proof_hashes := none, right_dirs := none, right_proof_len := 0 }
  let n_leaves := leaves.length
  let r := nm_search leaves target n_leaves 0 n_leaves
  match r.1 with
  | some mid => { out with found := 1, found_index := mid }
  | none =>
    let lo := r.2
    if lo = 0 then
      set_right_proof { out with left_index := SIZE_MAX, right_index := 0 }
        (merkle_inclusion_proof levels nlevels 0)
    else if lo = n_leaves then
      set_left_proof { out with left_index := n_leaves - 1, right_index := SIZE_MAX }
        (merkle_inclusion_proof levels nlevels (n_leaves - 1))
    else
      set_right_proof
        (set_left_proof { out with left_index := lo - 1, right_index := lo }
          (merkle_inclusion_proof levels nlevels (lo - 1)))
        (merkle_inclusion_proof levels nlevels lo)

/-- The leaves of the four-leaf scenario: "leaf-00000000" .. "leaf-00000003", as
`snprintf(tmp, sizeof(tmp), "leaf-%08zu", i)` of `main` writes them. -/
def demo_leaves : List (List Nat) :=
  (List.range 4).map (fun i =>
    [0x6c, 0x65, 0x61, 0x66, 0x2d, 0x30, 0x30, 0x30, 0x30, 0x30, 0x30, 0x30, 0x30 + i])

/-- The loop `while(t){ max_levels++; t >>= 1; }` of `merkle_build`, with an
iteration budget; it returns `max_levels`. -/
def max_levels_loop : Nat → Nat → Nat → Nat
  | 0, _, max_levels => max_levels
  | fuel + 1, t, max_levels =>
    if t ≠ 0 then max_levels_loop fuel (t >>> 1) (max_levels + 1) else max_levels

/-- The length `max_levels` of the array `levels` that `merkle_build` allocates:
`max_levels = 0; t = n_leaves; while(t){ max_levels++; t >>= 1; } max_levels += 2`.
The loop budget `n_leaves` is never exhausted (`max_levels_loop_spec`). -/
def max_levels (n_leaves : Nat) : Nat := max_levels_loop n_leaves n_leaves 0 + 2

end Project3

/-! ## Auxiliary definitions used in the statements and proofs -/

namespace Project4

/-- The first `n` consecutive 64-byte blocks of a byte string. -/
def blocks : Nat → List Nat → List (List Nat)
  | 0, _ => []
  | n + 1, p => p.take 64 :: blocks n (p.drop 64)

/-- State and pending bytes after absorbing `data`, starting from state `s.1` with
pending bytes `s.2`. -/
def absorb (s : List Nat × List Nat) (data : List Nat) : List Nat × List Nat :=
  ((blocks ((s.2 ++ data).length / 64) (s.2 ++ data)).foldl sm3_compress s.1,
   (s.2 ++ data).drop (64 * ((s.2 ++ data).length / 64)))

/-- Well-formed context: the buffer has its 64 bytes and fewer than 64 are pending. -/
def ctx_ok (c : sm3_ctx) : Prop := c.buffer.length = 64 ∧ c.buffer_len < 64

instance (c : sm3_ctx) : Decidable (ctx_ok c) := by
  unfold ctx_ok; infer_instance

/-- The pending input of a context. -/
def pending (c : sm3_ctx) : List Nat := c.buffer.take c.buffer_len

/-- The bytes `sm3_final` feeds to `sm3_update`, for a context with `bl` pending
bytes and bit counter `bitlen`. -/
def final_pad (bl bitlen : Nat) : List Nat :=
  [0x80] ++ List.replicate (if bl ≤ 55 then 55 - bl else 119 - bl) 0 ++
    lenbuf (bitlen &&& 0xFFFFFFFFFFFFFFFF)

/-- Big-endian encoding of `v` in eight bytes (the "64-bit big-endian integer" of
the padding rule). -/
def be64 (v : Nat) : List Nat :=
  [v / 2 ^ 56 % 256, v / 2 ^ 48 % 256, v / 2 ^ 40 % 256, v / 2 ^ 32 % 256,
   v / 2 ^ 24 % 256, v / 2 ^ 16 % 256, v / 2 ^ 8 % 256, v % 256]

/-- An SM3 state: eight words that fit in 32 bits. -/
def words_ok (st : List Nat) : Prop := st.length = 8 ∧ ∀ w ∈ st, w < 2 ^ 32

instance (st : List Nat) : Decidable (words_ok st) := by
  unfold words_ok; infer_instance

/-- All eight registers fit in 32 bits. -/
def regs_ok (r : regs) : Prop :=
  r.A < 2 ^ 32 ∧ r.B < 2 ^ 32 ∧ r.C < 2 ^ 32 ∧ r.D < 2 ^ 32 ∧
  r.E < 2 ^ 32 ∧ r.F < 2 ^ 32 ∧ r.G < 2 ^ 32 ∧ r.H < 2 ^ 32

instance (r : regs) : Decidable (regs_ok r) := by
  unfold regs_ok; infer_instance

end Project4

namespace Project1

/-- One round on the sliding window `(X[i], X[i+1], X[i+2], X[i+3])`. -/
def qstep (tt : ttables) (q : Nat × Nat × Nat × Nat) (k : Nat) : Nat × Nat × Nat × Nat :=
  (q.2.1, q.2.2.1, q.2.2.2, q.1 ^^^ ttable_lookup tt (q.2.1 ^^^ q.2.2.1 ^^^ q.2.2.2 ^^^ k))

/-- The reversing transform `R`. -/
def qrev (q : Nat × Nat × Nat × Nat) : Nat × Nat × Nat × Nat :=
  (q.2.2.2, q.2.2.1, q.2.1, q.1)

/-- The four words of the working array starting at index `n`. -/
def window (X : List Nat) (n : Nat) : Nat × Nat × Nat × Nat :=
  (X.getD n 0, X.getD (n + 1) 0, X.getD (n + 2) 0, X.getD (n + 3) 0)

/-- The four big-endian words of a 16-byte block. -/
def load_quad (inp : List Nat) : Nat × Nat × Nat × Nat :=
  (Bits.load_be32 inp 0, Bits.load_be32 inp 1, Bits.load_be32 inp 2, Bits.load_be32 inp 3)

/-- Four words written big-endian. -/
def store_quad (q : Nat × Nat × Nat × Nat) : List Nat :=
  store_be32 q.1 ++ store_be32 q.2.1 ++ store_be32 q.2.2.1 ++ store_be32 q.2.2.2

/-- All four words fit in 32 bits. -/
def quad_ok (q : Nat × Nat × Nat × Nat) : Prop :=
  q.1 < 2 ^ 32 ∧ q.2.1 < 2 ^ 32 ∧ q.2.2.1 < 2 ^ 32 ∧ q.2.2.2 < 2 ^ 32

instance (q : Nat × Nat × Nat × Nat) : Decidable (quad_ok q) := by
  unfold quad_ok; infer_instance

/-- All table entries fit in 32 bits. -/
def tables_ok (tt : ttables) : Prop :=
  (∀ x ∈ tt.T0, x < 2 ^ 32) ∧ (∀ x ∈ tt.T1, x < 2 ^ 32) ∧
  (∀ x ∈ tt.T2, x < 2 ^ 32) ∧ (∀ x ∈ tt.T3, x < 2 ^ 32)

instance (tt : ttables) : Decidable (tables_ok tt) := by
  unfold tables_ok; infer_instance

end Project1

namespace Project3

/-- The sibling hash recorded at a level for the node at `idx`. -/
def sibling_of (L : level_t) (idx : Nat) : List Nat :=
  if idx % 2 = 0 then
    (if idx + 1 ≥ L.nodes then L.data.getD idx [] else L.data.getD (idx + 1) [])
  else L.data.getD (idx - 1) []

/-- The direction byte recorded for the node at `idx`. -/
def dir_of (idx : Nat) : Nat := if idx % 2 = 0 then 0 else 1

end Project3

namespace Project1

/-- The inverse table of `SM4_SBOX`: entry `v` is the position of the byte `v` in
`SM4_SBOX` (`sbox_inv_sbox`, `sbox_sbox_inv`). -/
def SM4_SBOX_inv : List Nat := [
    0x71,0x6c,0x7a,0xb8,0x16,0x0f,0x1e,0x41,0x35,0xeb,0xd0,0x2a,0xe4,0xac,0x62,0x5a,
    0xcd,0xc8,0xdb,0x1a,0x0a,0x8e,0x08,0x46,0xf0,0x4b,0x96,0xc1,0x32,0xa0,0x60,0xcc,
    0xf7,0x6d,0x69,0xaa,0x61,0x68,0x1b,0x76,0x0c,0xa9,0x14,0x10,0x0e,0xd8,0xa3,0xb7,
    0x9b,0xd2,0x9a,0x28,0x95,0x5f,0x79,0xb2,0x86,0xfe,0xf4,0x6b,0x4a,0x06,0xfb,0x3e,
    0x84,0xcb,0x21,0x2b,0x19,0xb3,0x72,0x40,0xff,0x1c,0xe3,0x5b,0x78,0xf6,0xae,0x4e,
    0x22,0xbf,0x77,0xad,0x29,0x97,0x5d,0x73,0x65,0x49,0xce,0xbe,0xca,0x92,0x63,0xfa,
    0xa7,0x8d,0x2f,0x64,0x55,0xe8,0xa5,0x11,0x50,0xe1,0xba,0x51,0xbd,0xbc,0xed,0xaf,
    0x5c,0x54,0xbb,0x45,0xd9,0x3c,0x13,0xe6,0x6e,0xf8,0x27,0xd6,0x6a,0xf2,0xe7,0xc7,
    0x38,0x52,0xa4,0x48,0xef,0x4d,0x1d,0x6f,0xd3,0xe0,0x82,0x57,0x9d,0xc0,0xb6,0x3d,
    0x01,0x24,0xc3,0x99,0x3a,0x37,0xe5,0xe2,0x26,0x1f,0x12,0x94,0x20,0x5e,0x7f,0x74,
    0x7c,0x8f,0x67,0x88,0x93,0xd4,0x3f,0x42,0x4f,0x33,0x18,0xab,0x2e,0x98,0x91,0xc2,
    0xdf,0x9e,0x53,0x31,0xde,0x87,0x09,0x07,0xdc,0xe9,0x47,0xc4,0xc6,0xd7,0x15,0x81,
    0xa8,0xd1,0x0b,0x17,0x7d,0xec,0xee,0x85,0x7e,0x34,0xa6,0xfd,0x04,0xd5,0x8b,0x2d,
    0xda,0x66,0x83,0x75,0x70,0xb0,0x00,0xfc,0xcf,0xc9,0x56,0xb1,0xf5,0xc5,0xb4,0x39,
    0x90,0x05,0xa2,0x9f,0x30,0xdd,0x4c,0x7b,0x36,0x02,0x80,0x59,0xf3,0x2c,0xf9,0x25,
    0xf1,0xea,0x8a,0x44,0x23,0x9c,0xa1,0x89,0x58,0x8c,0x3b,0x0d,0x43,0xb5,0x03,0xb9]

/-- The byte-wise substitution with the inverse table, the inverse of `sm4_tau`
on 32-bit words. -/
def sm4_tau_inv (A : Nat) : Nat :=
  SM4_SBOX_inv.getD (A / 2 ^ 24 % 256) 0 * 2 ^ 24 + SM4_SBOX_inv.getD (A / 2 ^ 16 % 256) 0 * 2 ^ 16
    + SM4_SBOX_inv.getD (A / 2 ^ 8 % 256) 0 * 2 ^ 8 + SM4_SBOX_inv.getD (A % 256) 0

end Project1

/-! ## Lemmas -/

namespace Bits

theorem or_eq_add_of_lt (x y i : Nat) (hx : x % 2 ^ i = 0) (hy : y < 2 ^ i) :
    x ||| y = x + y := by
  have e : x = 2 ^ i * (x / 2 ^ i) := by
    have := Nat.div_add_mod x (2 ^ i)
    omega
  rw [e, Nat.mul_add_lt_is_or hy]

theorem and_ff (x : Nat) : x &&& 0xFF = x % 256 :=
  Nat.and_pow_two_sub_one_eq_mod x 8

theorem and_mask64 (x : Nat) : x &&& 0xFFFFFFFFFFFFFFFF = x % 2 ^ 64 :=
  Nat.and_pow_two_sub_one_eq_mod x 64

/-- Four bytes combined with shifts and ors are the big-endian number. -/
theorem be32_combine (b0 b1 b2 b3 : Nat) (h0 : b0 < 256) (h1 : b1 < 256) (h2 : b2 < 256)
    (h3 : b3 < 256) :
    ((b0 <<< 24) ||| (b1 <<< 16) ||| (b2 <<< 8) ||| b3) % 2 ^ 32
      = b0 * 16777216 + b1 * 65536 + b2 * 256 + b3 := by
  simp only [Nat.shiftLeft_eq]
  norm_num
  rw [or_eq_add_of_lt (b0 * 16777216) (b1 * 65536) 24 (by omega) (by omega),
    or_eq_add_of_lt (b0 * 16777216 + b1 * 65536) (b2 * 256) 16 (by omega) (by omega),
    or_eq_add_of_lt (b0 * 16777216 + b1 * 65536 + b2 * 256) b3 8 (by omega) (by omega)]
  omega

theorem list_length_succ {α : Type} (l : List α) (n : Nat) (h : l.length = n + 1) :
    ∃ a t, l = a :: t ∧ t.length = n := by
  cases l with
  | nil => simp at h
  | cons a t => exact ⟨a, t, rfl, by simpa using h⟩

theorem list_length_four {α : Type} (l : List α) (n : Nat) (h : l.length = n + 4) :
    ∃ a b c d t, l = a :: b :: c :: d :: t ∧ t.length = n := by
  obtain ⟨a, t1, rfl, h1⟩ := list_length_succ l (n + 3) h
  obtain ⟨b, t2, rfl, h2⟩ := list_length_succ t1 (n + 2) h1
  obtain ⟨c, t3, rfl, h3⟩ := list_length_succ t2 (n + 1) h2
  obtain ⟨d, t4, rfl, h4⟩ := list_length_succ t3 n h3
  exact ⟨a, b, c, d, t4, rfl, h4⟩

theorem load_be32_succ (a b c d : Nat) (t : List Nat) (i : Nat) :
    Bits.load_be32 (a :: b :: c :: d :: t) (i + 1) = Bits.load_be32 t i := by
  simp only [Bits.load_be32, Nat.mul_add, Nat.mul_one, List.getD_cons_succ,
    show 4 * i + 4 = (4 * i + 3) + 1 by omega, show 4 * i + 4 + 1 = (4 * i + 1 + 3) + 1 by omega,
    show 4 * i + 4 + 2 = (4 * i + 2 + 3) + 1 by omega,
    show 4 * i + 4 + 3 = (4 * i + 3 + 3) + 1 by omega]

end Bits

namespace Project4

theorem update_loop_spec (fuel : Nat) : ∀ (st p : List Nat), p.length / 64 ≤ fuel →
    update_loop fuel st p =
      ((blocks (p.length / 64) p).foldl sm3_compress st, p.drop (64 * (p.length / 64))) := by
  induction fuel with
  | zero =>
    intro st p h
    have h0 : p.length / 64 = 0 := by omega
    simp [update_loop, h0, blocks]
  | succ n ih =>
    intro st p h
    by_cases hp : 64 ≤ p.length
    · have hk : p.length / 64 = (p.drop 64).length / 64 + 1 := by
        simp only [List.length_drop]; omega
      have hfuel : (p.drop 64).length / 64 ≤ n := by omega
      rw [update_loop, if_pos hp, ih _ _ hfuel, hk]
      simp [blocks, List.drop_drop, Nat.mul_add, Nat.add_comm]
    · have h0 : p.length / 64 = 0 := by omega
      simp [update_loop, hp, h0, blocks]

theorem blocks_append (k : Nat) : ∀ (n : Nat) (a b : List Nat), a.length = 64 * k →
    blocks (k + n) (a ++ b) = blocks k a ++ blocks n b := by
  induction k with
  | zero =>
    intro n a b h
    have : a = [] := List.eq_nil_of_length_eq_zero (by omega)
    simp [this, blocks]
  | succ k ih =>
    intro n a b h
    have e : k + 1 + n = (k + n) + 1 := by omega
    have h64 : 64 ≤ a.length := by omega
    have ht : (a ++ b).take 64 = a.take 64 := by
      rw [List.take_append_of_le_length h64]
    have hd : (a ++ b).drop 64 = a.drop 64 ++ b := by
      rw [List.drop_append_of_le_length h64]
    rw [e, blocks, blocks, ht, hd, ih n (a.drop 64) b (by simp only [List.length_drop]; omega)]
    simp

theorem absorb_absorb (s : List Nat × List Nat) (a b : List Nat) :
    absorb (absorb s a) b = absorb s (a ++ b) := by
  obtain ⟨st, pend⟩ := s
  simp only [absorb]
  generalize hx : pend ++ a = x
  have hx' : pend ++ (a ++ b) = x ++ b := by rw [← hx, List.append_assoc]
  rw [hx']
  set k := x.length / 64 with hk
  set r := x.drop (64 * k) with hr
  have hrl : r.length = x.length % 64 := by
    simp only [hr, List.length_drop]; omega
  have hsplit : x = x.take (64 * k) ++ r := (List.take_append_drop _ _).symm
  have htl : (x.take (64 * k)).length = 64 * k := by
    simp only [List.length_take]; omega
  have hK : (x ++ b).length / 64 = k + (r ++ b).length / 64 := by
    simp only [List.length_append, hrl]; omega
  have hxb : x ++ b = x.take (64 * k) ++ (r ++ b) := by
    rw [← List.append_assoc, ← hsplit]
  have h1 : blocks k x = blocks k (x.take (64 * k)) := by
    have := blocks_append k 0 (x.take (64 * k)) r htl
    rw [← hsplit] at this
    simpa [blocks] using this
  have h2 : blocks (k + (r ++ b).length / 64) (x ++ b)
      = blocks k x ++ blocks ((r ++ b).length / 64) (r ++ b) := by
    rw [h1, ← blocks_append k _ _ _ htl, ← hxb]
  have h3 : (x ++ b).drop (64 * (k + (r ++ b).length / 64))
      = (r ++ b).drop (64 * ((r ++ b).length / 64)) := by
    conv_lhs => rw [hxb]
    rw [Nat.mul_add, ← List.drop_drop]
    congr 1
    rw [List.drop_append_of_le_length (by omega)]
    simp [List.drop_of_length_le, htl]
  rw [hK, h2, h3, List.foldl_append]

theorem memcpy_length (dst src : List Nat) (off : Nat) (h : off + src.length ≤ dst.length) :
    (memcpy dst off src).length = dst.length := by
  simp only [memcpy, List.length_append, List.length_take, List.length_drop]; omega

theorem memcpy_take (dst src : List Nat) (off : Nat) (h : off ≤ dst.length) :
    (memcpy dst off src).take (off + src.length) = dst.take off ++ src := by
  have hl : (dst.take off ++ src).length = off + src.length := by
    simp only [List.length_append, List.length_take]; omega
  rw [memcpy, ← hl, List.take_left']
  rfl

theorem update_tail (c1 : sm3_ctx) (p : List Nat) (h1 : c1.buffer.length = 64)
    (h0 : c1.buffer_len = 0) :
    let r := update_loop p.length c1.state p
    let c2 : sm3_ctx := if r.2.length ≠ 0 then
        { c1 with state := r.1, buffer := memcpy c1.buffer 0 r.2, buffer_len := r.2.length }
      else { c1 with state := r.1 }
    ctx_ok c2 ∧ (c2.state, pending c2) = absorb (c1.state, []) p ∧ c2.bitlen = c1.bitlen := by
  intro r c2
  have hr : r = ((blocks (p.length / 64) p).foldl sm3_compress c1.state,
      p.drop (64 * (p.length / 64))) :=
    update_loop_spec _ _ _ (Nat.div_le_self _ _)
  have hrl : r.2.length = p.length % 64 := by
    rw [hr]; simp only [List.length_drop]; omega
  by_cases hz : r.2.length ≠ 0
  · have hc2 : c2 = { c1 with state := r.1, buffer := memcpy c1.buffer 0 r.2,
                              buffer_len := r.2.length } := if_pos hz
    have hlen : (memcpy c1.buffer 0 r.2).length = 64 := by
      rw [memcpy_length _ _ _ (by omega), h1]
    have htk : (memcpy c1.buffer 0 r.2).take r.2.length = r.2 := by
      have := memcpy_take c1.buffer r.2 0 (by omega)
      simpa using this
    refine ⟨?_, ?_, ?_⟩
    · rw [hc2]; exact ⟨hlen, by show r.2.length < 64; omega⟩
    · rw [hc2]; simp only [pending, htk, absorb, List.nil_append]; rw [hr]
    · rw [hc2]
  · have hc2 : c2 = { c1 with state := r.1 } := if_neg hz
    have hnil : r.2 = [] := List.eq_nil_of_length_eq_zero (by omega)
    refine ⟨?_, ?_, ?_⟩
    · rw [hc2]; exact ⟨h1, by show c1.buffer_len < 64; omega⟩
    · rw [hc2]; simp only [pending, h0, List.take_zero, absorb, List.nil_append]
      rw [← hnil, hr]
    · rw [hc2]

theorem absorb_short (st pend data : List Nat) (h : (pend ++ data).length < 64) :
    absorb (st, pend) data = (st, pend ++ data) := by
  have h0 : (pend ++ data).length / 64 = 0 := by omega
  simp only [absorb, h0, blocks, List.foldl_nil, Nat.mul_zero, List.drop_zero]

theorem absorb_block (st pend data : List Nat) (h : (pend ++ data).length = 64) :
    absorb (st, pend) data = (sm3_compress st (pend ++ data), []) := by
  have h1 : (pend ++ data).length / 64 = 1 := by omega
  have ht : (pend ++ data).take 64 = pend ++ data := List.take_of_length_le (by omega)
  have hd : (pend ++ data).drop 64 = [] := List.drop_of_length_le (by omega)
  simp only [absorb, h1, blocks, ht, List.foldl_cons, List.foldl_nil, Nat.mul_one, hd]

theorem sm3_update_spec (c : sm3_ctx) (data : List Nat) (h : ctx_ok c) :
    ctx_ok (sm3_update c data) ∧
    ((sm3_update c data).state, pending (sm3_update c data))
      = absorb (c.state, pending c) data ∧
    (sm3_update c data).bitlen = (c.bitlen + (data.length * 8) % 2 ^ 64) % 2 ^ 64 := by
  obtain ⟨hlen, hbl⟩ := h
  by_cases h0 : c.buffer_len = 0
  · have key := update_tail
      { c with bitlen := (c.bitlen + (data.length * 8) % 2 ^ 64) % 2 ^ 64 } data hlen h0
    have e : pending c = [] := by simp [pending, h0]
    rw [e]
    simpa only [sm3_update, h0, ne_eq, not_true_eq_false, if_false] using key
  · by_cases hgt : 64 - c.buffer_len > data.length
    · -- the input fits in the buffer without filling it
      have hne : c.buffer_len + data.length ≠ 64 := by omega
      have hmt : (memcpy c.buffer c.buffer_len data).take (c.buffer_len + data.length)
          = pending c ++ data := memcpy_take _ _ _ (by omega)
      have hml : (memcpy c.buffer c.buffer_len data).length = 64 := by
        rw [memcpy_length _ _ _ (by omega), hlen]
      have hpl : (pending c).length = c.buffer_len := by
        simp only [pending, List.length_take]; omega
      have hu : sm3_update c data =
          { state := c.state, bitlen := (c.bitlen + (data.length * 8) % 2 ^ 64) % 2 ^ 64,
            buffer := memcpy c.buffer c.buffer_len data,
            buffer_len := c.buffer_len + data.length } := by
        simp [sm3_update, h0, hgt, hne, update_loop]
      rw [hu, absorb_short _ _ _ (by simp only [List.length_append, hpl]; omega)]
      refine ⟨⟨hml, by show c.buffer_len + data.length < 64; omega⟩, ?_, rfl⟩
      simp only [pending, hmt]
    · -- the input fills the buffer, which is compressed
      set need := 64 - c.buffer_len with hneed
      have hle : need ≤ data.length := by omega
      have htl : (data.take need).length = need := by
        simp only [List.length_take]; omega
      have hpl : (pending c).length = c.buffer_len := by
        simp only [pending, List.length_take]; omega
      have hbuf : memcpy c.buffer c.buffer_len (data.take need) = pending c ++ data.take need := by
        have hd : c.buffer.drop (c.buffer_len + (data.take need).length) = [] :=
          List.drop_of_length_le (by rw [htl]; omega)
        simp only [memcpy, hd, List.append_nil, pending]
      have h64 : (pending c ++ data.take need).length = 64 := by
        simp only [List.length_append, hpl, htl]; omega
      have key := update_tail
        { state := sm3_compress c.state (pending c ++ data.take need),
          bitlen := (c.bitlen + (data.length * 8) % 2 ^ 64) % 2 ^ 64,
          buffer := pending c ++ data.take need, buffer_len := 0 } (data.drop need) h64 rfl
      have hab : absorb (c.state, pending c) data
          = absorb (sm3_compress c.state (pending c ++ data.take need), []) (data.drop need) := by
        rw [← absorb_block _ _ _ h64, absorb_absorb, List.take_append_drop]
      have hfull : c.buffer_len + need = 64 := by omega
      rw [hab]
      simpa only [sm3_update, h0, hgt, ← hneed, hbuf, hfull, ne_eq, not_false_eq_true,
        if_true, if_false] using key

theorem pending_length (c : sm3_ctx) (h : ctx_ok c) : (pending c).length = c.buffer_len := by
  obtain ⟨h1, h2⟩ := h
  simp only [pending, List.length_take]; omega

theorem lenbuf_length (v : Nat) : (lenbuf v).length = 8 := by simp [lenbuf]

theorem sm3_final_spec (c : sm3_ctx) (h : ctx_ok c) :
    ctx_ok (sm3_final c).1 ∧
    ((sm3_final c).1.state, pending (sm3_final c).1)
      = absorb (c.state, pending c) (final_pad c.buffer_len c.bitlen) ∧
    (sm3_final c).2 = state_bytes (sm3_final c).1.state := by
  set nzero := if c.buffer_len ≤ 55 then 55 - c.buffer_len else 119 - c.buffer_len with hnz
  have hnz64 : nzero ≤ 64 := by
    have := h.2
    rw [hnz]; split <;> omega
  obtain ⟨ok1, ab1, -⟩ := sm3_update_spec c [0x80] h
  set c1 := sm3_update c [0x80] with hc1
  set c2 := if nzero ≠ 0 then sm3_update c1 (List.replicate nzero 0) else c1 with hc2
  have h2 : ctx_ok c2 ∧ (c2.state, pending c2)
      = absorb (c1.state, pending c1) (List.replicate nzero 0) := by
    by_cases hz : nzero ≠ 0
    · have e : c2 = sm3_update c1 (List.replicate nzero 0) := if_pos hz
      obtain ⟨ok, ab, -⟩ := sm3_update_spec c1 (List.replicate nzero 0) ok1
      rw [e]; exact ⟨ok, ab⟩
    · have e : c2 = c1 := if_neg hz
      have e0 : nzero = 0 := by omega
      rw [e, e0, List.replicate_zero, absorb_short _ _ _ (by
        rw [List.append_nil, pending_length c1 ok1]; exact ok1.2), List.append_nil]
      exact ⟨ok1, rfl⟩
  obtain ⟨ok2, ab2⟩ := h2
  obtain ⟨ok3, ab3, -⟩ := sm3_update_spec c2 (lenbuf (c.bitlen &&& 0xFFFFFFFFFFFFFFFF)) ok2
  have hf : sm3_final c
      = (sm3_update c2 (lenbuf (c.bitlen &&& 0xFFFFFFFFFFFFFFFF)),
         state_bytes (sm3_update c2 (lenbuf (c.bitlen &&& 0xFFFFFFFFFFFFFFFF))).state) := by
    have ht : (List.replicate 64 0).take nzero = List.replicate nzero 0 := by
      rw [List.take_replicate, Nat.min_eq_left hnz64]
    simp only [sm3_final, ← hnz, ht]
    rfl
  rw [hf]
  refine ⟨ok3, ?_, rfl⟩
  show ((sm3_update c2 _).state, pending (sm3_update c2 _)) = _
  rw [ab3, ab2, ab1, absorb_absorb, absorb_absorb, final_pad, ← hnz, List.append_assoc]

theorem lenbuf_eq_be64 (v : Nat) : lenbuf v = be64 v := by
  have r8 : List.range 8 = [0, 1, 2, 3, 4, 5, 6, 7] := by decide
  simp [lenbuf, be64, Bits.and_ff, Nat.shiftRight_eq_div_pow, r8]

theorem absorb_aligned (st pend data : List Nat) (h : (pend ++ data).length % 64 = 0) :
    absorb (st, pend) data
      = ((blocks ((pend ++ data).length / 64) (pend ++ data)).foldl sm3_compress st, []) := by
  simp only [absorb]
  congr 1
  exact List.drop_of_length_le (by omega)

theorem final_pad_length (bl bitlen : Nat) (h : bl < 64) :
    (bl + (final_pad bl bitlen).length) % 64 = 0 := by
  simp only [final_pad, List.length_append, List.length_cons, List.length_nil,
    List.length_replicate, lenbuf_length]
  split <;> omega

theorem sm3_digest_spec (c : sm3_ctx) (h : ctx_ok c) :
    (sm3_final c).2 = state_bytes
      ((blocks ((pending c ++ final_pad c.buffer_len c.bitlen).length / 64)
        (pending c ++ final_pad c.buffer_len c.bitlen)).foldl sm3_compress c.state) ∧
    (sm3_final c).1.buffer_len = 0 := by
  obtain ⟨ok, ab, hd⟩ := sm3_final_spec c h
  have hal : (pending c ++ final_pad c.buffer_len c.bitlen).length % 64 = 0 := by
    rw [List.length_append, pending_length c h]
    exact final_pad_length _ _ h.2
  rw [absorb_aligned _ _ _ hal] at ab
  have hs := congrArg Prod.fst ab
  have hp := congrArg Prod.snd ab
  simp only at hs hp
  refine ⟨by rw [hd, hs], ?_⟩
  have := pending_length _ ok
  rw [hp] at this
  exact this.symm

theorem sm3_init_ok (c0 : sm3_ctx) (h : c0.buffer.length = 64) : ctx_ok (sm3_init c0) :=
  ⟨h, by show 0 < 64; omega⟩

theorem sm3_final_congr (c c' : sm3_ctx) (h : ctx_ok c) (h' : ctx_ok c')
    (hs : (c.state, pending c) = (c'.state, pending c')) (hb : c.bitlen = c'.bitlen) :
    (sm3_final c).2 = (sm3_final c').2 := by
  have e1 := congrArg Prod.fst hs
  have e2 := congrArg Prod.snd hs
  simp only at e1 e2
  have e3 : c.buffer_len = c'.buffer_len := by
    rw [← pending_length c h, ← pending_length c' h', e2]
  rw [(sm3_digest_spec c h).1, (sm3_digest_spec c' h').1, e1, e2, e3, hb]

theorem absorb_pending_length (st data : List Nat) :
    (absorb (st, []) data).2.length = data.length % 64 := by
  simp only [absorb, List.nil_append, List.length_drop]; omega

/-- Digest of a context that has absorbed exactly the bytes `x` since `sm3_init`. -/
theorem sm3_stream_spec (c : sm3_ctx) (x : List Nat) (h : ctx_ok c)
    (hx : (c.state, pending c) = absorb (IV, []) x) :
    (sm3_final c).2 = state_bytes
      ((blocks ((x ++ final_pad (x.length % 64) c.bitlen).length / 64)
        (x ++ final_pad (x.length % 64) c.bitlen)).foldl sm3_compress IV) := by
  obtain ⟨-, ab, hd⟩ := sm3_final_spec c h
  have hbl : c.buffer_len = x.length % 64 := by
    rw [← pending_length c h, ← absorb_pending_length IV x, ← hx]
  have hal : (x ++ final_pad (x.length % 64) c.bitlen).length % 64 = 0 := by
    have := final_pad_length (x.length % 64) c.bitlen (Nat.mod_lt _ (by omega))
    rw [List.length_append]; omega
  rw [hx, absorb_absorb, hbl] at ab
  have e := absorb_aligned IV [] _ (by rw [List.nil_append]; exact hal)
  rw [e] at ab
  have hs := congrArg Prod.fst ab
  simp only [List.nil_append] at hs
  rw [hd, hs]

theorem final_pad_eq (n k : Nat) (hn : 8 * n < 2 ^ 64) (hk : (n + 1 + k) % 64 = 56)
    (hmin : ∀ j, j < k → (n + 1 + j) % 64 ≠ 56) :
    final_pad (n % 64) (8 * n) = [0x80] ++ List.replicate k 0 ++ be64 (8 * n) := by
  have hk64 : k < 64 := by
    by_contra hge
    exact hmin (k - 64) (by omega) (by omega)
  have e : (if n % 64 ≤ 55 then 55 - n % 64 else 119 - n % 64) = k := by
    split <;> omega
  rw [final_pad, e, Bits.and_mask64, Nat.mod_eq_of_lt hn, lenbuf_eq_be64]

theorem ROTL32_lt (x n : Nat) : ROTL32 x n < 2 ^ 32 := Nat.mod_lt _ (by norm_num)

theorem P0_lt (x : Nat) (h : x < 2 ^ 32) : P0 x < 2 ^ 32 :=
  Nat.xor_lt_two_pow (Nat.xor_lt_two_pow h (ROTL32_lt _ _)) (ROTL32_lt _ _)

theorem sm3_round_ok (W Wp : List Nat) (r : regs) (j : Nat) (h : regs_ok r) :
    regs_ok (sm3_round W Wp r j) := by
  obtain ⟨hA, hB, hC, hD, hE, hF, hG, hH⟩ := h
  exact ⟨Nat.mod_lt _ (by norm_num), hA, ROTL32_lt _ _, hC,
    P0_lt _ (Nat.mod_lt _ (by norm_num)), hE, ROTL32_lt _ _, hG⟩

theorem foldl_round_ok (W Wp : List Nat) (l : List Nat) :
    ∀ r, regs_ok r → regs_ok (l.foldl (sm3_round W Wp) r) := by
  induction l with
  | nil => intro r h; exact h
  | cons j l ih => intro r h; exact ih _ (sm3_round_ok W Wp r j h)

theorem getD_lt_of_words_ok (st : List Nat) (h : words_ok st) (i : Nat) :
    st.getD i 0 < 2 ^ 32 := by
  rw [List.getD_eq_getElem?_getD]
  cases hi : st[i]? with
  | none => simp
  | some v => simpa using h.2 v (List.getElem?_mem hi)

theorem sm3_compress_ok (st block : List Nat) (h : words_ok st) :
    words_ok (sm3_compress st block) := by
  have g := getD_lt_of_words_ok st h
  have hr := foldl_round_ok
    ((List.range' 16 52).foldl expand_step
      ((List.range 16).map (Bits.load_be32 block) ++ List.replicate 52 0))
    ((List.range 64).map (fun j =>
      ((List.range' 16 52).foldl expand_step
        ((List.range 16).map (Bits.load_be32 block) ++ List.replicate 52 0)).getD j 0 ^^^
      ((List.range' 16 52).foldl expand_step
        ((List.range 16).map (Bits.load_be32 block) ++ List.replicate 52 0)).getD (j + 4) 0))
    (List.range 64)
    ⟨st.getD 0 0, st.getD 1 0, st.getD 2 0, st.getD 3 0,
      st.getD 4 0, st.getD 5 0, st.getD 6 0, st.getD 7 0⟩
    ⟨g 0, g 1, g 2, g 3, g 4, g 5, g 6, g 7⟩
  obtain ⟨hA, hB, hC, hD, hE, hF, hG, hH⟩ := hr
  refine ⟨rfl, ?_⟩
  intro w hw
  simp only [sm3_compress, List.mem_cons, List.mem_nil_iff, or_false] at hw
  rcases hw with rfl | rfl | rfl | rfl | rfl | rfl | rfl | rfl
  · exact Nat.xor_lt_two_pow (g 0) hA
  · exact Nat.xor_lt_two_pow (g 1) hB
  · exact Nat.xor_lt_two_pow (g 2) hC
  · exact Nat.xor_lt_two_pow (g 3) hD
  · exact Nat.xor_lt_two_pow (g 4) hE
  · exact Nat.xor_lt_two_pow (g 5) hF
  · exact Nat.xor_lt_two_pow (g 6) hG
  · exact Nat.xor_lt_two_pow (g 7) hH

theorem foldl_compress_ok (bs : List (List Nat)) :
    ∀ st, words_ok st → words_ok (bs.foldl sm3_compress st) := by
  induction bs with
  | nil => intro st h; exact h
  | cons b bs ih => intro st h; exact ih _ (sm3_compress_ok st b h)

theorem IV_ok : words_ok IV := by
  refine ⟨rfl, ?_⟩
  decide

theorem load_store_zero (w : Nat) (hw : w < 2 ^ 32) (rest : List Nat) :
    Bits.load_be32 (store_be32 w ++ rest) 0 = w := by
  simp only [Bits.load_be32, store_be32, Nat.shiftRight_eq_div_pow, List.cons_append,
    List.nil_append, Nat.mul_zero, Nat.zero_add, List.getD_cons_zero, List.getD_cons_succ]
  rw [Bits.be32_combine _ _ _ _ (Nat.mod_lt _ (by omega)) (Nat.mod_lt _ (by omega))
    (Nat.mod_lt _ (by omega)) (Nat.mod_lt _ (by omega))]
  omega

theorem load_store_succ (w : Nat) (rest : List Nat) (i : Nat) :
    Bits.load_be32 (store_be32 w ++ rest) (i + 1) = Bits.load_be32 rest i := by
  simp only [store_be32, List.cons_append, List.nil_append, Bits.load_be32_succ]

theorem digest_to_state_bytes (st : List Nat) (h : words_ok st) :
    digest_to_state_be (state_bytes st) = st := by
  obtain ⟨hl, hb⟩ := h
  obtain ⟨a, b, c, d, t1, rfl, h1⟩ := Bits.list_length_four st 4 hl
  obtain ⟨e, f, g, k, t2, rfl, h2⟩ := Bits.list_length_four t1 0 h1
  have ht : t2 = [] := List.eq_nil_of_length_eq_zero h2
  subst ht
  simp only [List.mem_cons, List.mem_nil_iff, or_false, forall_eq_or_imp, forall_eq] at hb
  obtain ⟨ha, hb', hc, hd, he, hf, hg, hk⟩ := hb
  have r8 : List.range 8 = [0, 0 + 1, 0 + 1 + 1, 0 + 1 + 1 + 1, 0 + 1 + 1 + 1 + 1,
      0 + 1 + 1 + 1 + 1 + 1, 0 + 1 + 1 + 1 + 1 + 1 + 1, 0 + 1 + 1 + 1 + 1 + 1 + 1 + 1] := by
    decide
  simp only [digest_to_state_be, state_bytes, r8, List.map_cons, List.map_nil,
    List.getD_cons_zero, List.getD_cons_succ, List.append_assoc, load_store_succ]
  rw [load_store_zero a ha, load_store_zero b hb', load_store_zero c hc, load_store_zero d hd,
    load_store_zero e he, load_store_zero f hf, load_store_zero g hg]
  have := load_store_zero k hk []
  rw [List.append_nil] at this
  rw [this]

theorem md_pad_eq_final_pad (n B : Nat) (hB : B % 2 ^ 64 = (n * 8) % 2 ^ 64) :
    (md_pad n).1 = final_pad (n % 64) B ∧ (md_pad n).2 = (md_pad n).1.length ∧
    (md_pad n).2 ≤ 72 := by
  have hz : (if (n + 1) % 2 ^ 64 % 64 ≤ 56 then 56 - (n + 1) % 2 ^ 64 % 64
      else 56 + (64 - (n + 1) % 2 ^ 64 % 64))
      = (if n % 64 ≤ 55 then 55 - n % 64 else 119 - n % 64) := by
    split <;> split <;> omega
  refine ⟨?_, ?_, ?_⟩
  · simp only [md_pad, final_pad, hz, Bits.and_mask64, hB, lenbuf]
  · simp only [md_pad, List.length_append, List.length_cons, List.length_nil,
      List.length_replicate, List.length_map, List.length_range]
  · simp only [md_pad]
    split <;> omega

theorem server_verify_cases (secret forged tag : List Nat) :
    server_verify secret forged tag = 1 ∨ server_verify secret forged tag = 0 := by
  unfold server_verify
  split
  · exact Or.inl rfl
  · exact Or.inr rfl

theorem server_verify_eq_one (secret forged tag : List Nat) :
    server_verify secret forged tag = 1 ↔ server_mac secret forged = tag := by
  unfold server_verify
  split <;> simp_all

theorem resumed_ctx_ok (tag : List Nat) (total : Nat) : ctx_ok (resumed_ctx tag total) :=
  ⟨rfl, by show 0 < 64; omega⟩

/-- The context on which `server_mac` calls `sm3_final`. -/
theorem server_mac_spec (secret msg : List Nat) :
    ∃ c, ctx_ok c ∧ (c.state, pending c) = absorb (IV, []) (secret ++ msg) ∧
      c.bitlen = ((secret.length * 8) % 2 ^ 64 + (msg.length * 8) % 2 ^ 64) % 2 ^ 64 ∧
      server_mac secret msg = (sm3_final c).2 := by
  have ok0 := sm3_init_ok fresh_ctx rfl
  have hp0 : pending (sm3_init fresh_ctx) = [] := rfl
  have hs0 : (sm3_init fresh_ctx).state = IV := rfl
  have hb0 : (sm3_init fresh_ctx).bitlen = 0 := rfl
  obtain ⟨ok1, ab1, bl1⟩ := sm3_update_spec _ secret ok0
  obtain ⟨ok2, ab2, bl2⟩ := sm3_update_spec _ msg ok1
  rw [hp0, hs0] at ab1
  rw [ab1, absorb_absorb] at ab2
  rw [hb0] at bl1
  refine ⟨_, ok2, ab2, ?_, rfl⟩
  rw [bl2, bl1]
  omega

/-- The context on which `do_lenext_attack` calls `sm3_final`, and the message it
returns. -/
theorem do_lenext_attack_spec (tag m s : List Nat) (L : Nat) :
    ∃ c, ctx_ok c ∧ (c.state, pending c) = absorb (digest_to_state_be tag, []) s ∧
      c.bitlen = (((L + m.length + (md_pad ((L + m.length) % 2 ^ 64)).2) % 2 ^ 64 * 8) % 2 ^ 64
        + (s.length * 8) % 2 ^ 64) % 2 ^ 64 ∧
      (do_lenext_attack tag m s L).forged_tag = (sm3_final c).2 ∧
      (do_lenext_attack tag m s L).forged_msg
        = m ++ (md_pad ((L + m.length) % 2 ^ 64)).1.take (md_pad ((L + m.length) % 2 ^ 64)).2
            ++ s ∧
      (do_lenext_attack tag m s L).forged_len
        = (m.length + (md_pad ((L + m.length) % 2 ^ 64)).2 + s.length) % 2 ^ 64 := by
  have okr := resumed_ctx_ok tag (L + m.length + (md_pad ((L + m.length) % 2 ^ 64)).2)
  obtain ⟨oka, aba, bla⟩ := sm3_update_spec _ s okr
  exact ⟨_, oka, aba, bla, rfl, rfl, rfl⟩

/-- The forged tag is the MAC of the forged message, when the guess is the length
of the secret. -/
theorem lenext_core (secret m s : List Nat)
    (hlen : secret.length + m.length < 2 ^ 64) :
    server_mac secret (do_lenext_attack (server_mac secret m) m s secret.length).forged_msg
      = (do_lenext_attack (server_mac secret m) m s secret.length).forged_tag := by
  have hmod : (secret.length + m.length) % 2 ^ 64 = secret.length + m.length :=
    Nat.mod_eq_of_lt hlen
  -- the known tag
  obtain ⟨cm, ok2, ab2, bl2, hmac⟩ := server_mac_spec secret m
  obtain ⟨-, abf, hdig⟩ := sm3_final_spec cm ok2
  have hblm : cm.buffer_len = (secret.length + m.length) % 64 := by
    rw [← pending_length cm ok2, ← List.length_append, ← absorb_pending_length IV (secret ++ m),
      ← ab2]
  -- the glue padding is the padding `sm3_final` appended
  obtain ⟨hglue, hgl, -⟩ := md_pad_eq_final_pad (secret.length + m.length) cm.bitlen (by
    rw [bl2]; omega)
  rw [← hblm] at hglue
  -- the attack
  obtain ⟨ca, oka, aba, bla, hft, hfm, -⟩ :=
    do_lenext_attack_spec (server_mac secret m) m s secret.length
  rw [hmod] at bla hfm
  generalize (md_pad (secret.length + m.length)).1 = glue at hglue hgl hfm
  generalize (md_pad (secret.length + m.length)).2 = glue_len at hgl hfm bla
  subst hgl
  rw [List.take_length] at hfm
  -- the state behind the known tag
  rw [ab2, absorb_absorb, ← hglue] at abf
  have hal : ([] ++ (secret ++ m ++ glue)).length % 64 = 0 := by
    have := final_pad_length cm.buffer_len cm.bitlen ok2.2
    rw [← hglue] at this
    simp only [List.nil_append, List.length_append] at this ⊢
    omega
  have hS := absorb_aligned IV [] (secret ++ m ++ glue) hal
  generalize hS1 : List.foldl sm3_compress IV
    (blocks (([] ++ (secret ++ m ++ glue)).length / 64) ([] ++ (secret ++ m ++ glue))) = S1
    at hS
  have hS1ok : words_ok S1 := by rw [← hS1]; exact foldl_compress_ok _ _ IV_ok
  rw [hS] at abf
  have hst : (sm3_final cm).1.state = S1 := congrArg Prod.fst abf
  have htag : server_mac secret m = state_bytes S1 := by rw [hmac, hdig, hst]
  rw [htag, digest_to_state_bytes S1 hS1ok] at aba
  -- the server's context on the forged message
  obtain ⟨cs, oks, abs, bls, hmacs⟩ := server_mac_spec secret (m ++ glue ++ s)
  have hsplit : secret ++ (m ++ glue ++ s) = (secret ++ m ++ glue) ++ s := by
    simp only [List.append_assoc]
  rw [hsplit, ← absorb_absorb, hS] at abs
  -- both contexts agree
  rw [hfm, hft, hmacs]
  apply sm3_final_congr _ _ oks oka
  · rw [abs, aba]
  · rw [bls, bla]
    simp only [List.length_append]
    omega

theorem forged_take (tag m s : List Nat) (L : Nat)
    (h : m.length + s.length + 72 < 2 ^ 64) :
    (do_lenext_attack tag m s L).forged_msg.take (do_lenext_attack tag m s L).forged_len
      = (do_lenext_attack tag m s L).forged_msg := by
  obtain ⟨-, -, -, -, -, hfm, hfl⟩ := do_lenext_attack_spec tag m s L
  obtain ⟨-, hgl, hle⟩ := md_pad_eq_final_pad ((L + m.length) % 2 ^ 64)
    (((L + m.length) % 2 ^ 64) * 8) rfl
  rw [hfm, hfl]
  generalize (md_pad ((L + m.length) % 2 ^ 64)).1 = glue at hgl
  generalize (md_pad ((L + m.length) % 2 ^ 64)).2 = glue_len at hgl hle
  subst hgl
  rw [List.take_length, Nat.mod_eq_of_lt (by omega)]
  apply List.take_of_length_le
  simp only [List.length_append]
  omega

/-- `sm3_hash` does not depend on the uninitialised contents of its context. -/
theorem sm3_hash_any_ctx (c0 : sm3_ctx) (x : List Nat) (h : c0.buffer.length = 64) :
    (sm3_final (sm3_update (sm3_init c0) x)).2 = sm3_hash x := by
  have ok0 := sm3_init_ok c0 h
  have ok0' := sm3_init_ok fresh_ctx rfl
  obtain ⟨ok1, ab1, bl1⟩ := sm3_update_spec _ x ok0
  obtain ⟨ok2, ab2, bl2⟩ := sm3_update_spec _ x ok0'
  apply sm3_final_congr _ _ ok1 ok2
  · rw [ab1, ab2]; rfl
  · rw [bl1, bl2]; rfl

end Project4

namespace Project1

theorem load_4blocks_eq (b0 b1 b2 b3 : List Nat) :
    load_4blocks [b0, b1, b2, b3] = [load_block b0, load_block b1, load_block b2, load_block b3] :=
  rfl

theorem round_step4_eq (tt : ttables) (rk x0 x1 x2 x3 : List Nat) (r : Nat) :
    round_step4 tt rk [x0, x1, x2, x3] r =
      [round_step tt rk x0 r, round_step tt rk x1 r, round_step tt rk x2 r,
       round_step tt rk x3 r] :=
  rfl

theorem store_4blocks_eq (x0 x1 x2 x3 : List Nat) :
    store_4blocks [x0, x1, x2, x3] = [store_block x0, store_block x1, store_block x2,
      store_block x3] :=
  rfl

theorem rounds4_eq (tt : ttables) (rk : List Nat) (l : List Nat) :
    ∀ x0 x1 x2 x3 : List Nat, l.foldl (round_step4 tt rk) [x0, x1, x2, x3] =
      [l.foldl (round_step tt rk) x0, l.foldl (round_step tt rk) x1,
       l.foldl (round_step tt rk) x2, l.foldl (round_step tt rk) x3] := by
  induction l with
  | nil => intros; rfl
  | cons r l ih =>
    intro x0 x1 x2 x3
    simp only [List.foldl_cons, round_step4_eq, ih]

theorem getD_set_ne (l : List Nat) (i j v : Nat) (h : i ≠ j) :
    (l.set i v).getD j 0 = l.getD j 0 := by
  simp [List.getD_eq_getElem?_getD, List.getElem?_set_ne h]

theorem getD_set_eq (l : List Nat) (i v : Nat) (h : i < l.length) :
    (l.set i v).getD i 0 = v := by
  simp [List.getD_eq_getElem?_getD, List.getElem?_set_self, h]

theorem rounds_window (tt : ttables) (rk X0 : List Nat) (h0 : X0.length = 36) (n : Nat)
    (hn : n ≤ 32) :
    ((List.range n).foldl (round_step tt rk) X0).length = 36 ∧
    window ((List.range n).foldl (round_step tt rk) X0) n =
      (List.range n).foldl (fun q i => qstep tt q (rk.getD i 0)) (window X0 0) := by
  induction n with
  | zero => exact ⟨h0, rfl⟩
  | succ n ih =>
    obtain ⟨hl, hw⟩ := ih (by omega)
    rw [List.range_succ, List.foldl_append, List.foldl_append, ← hw]
    generalize (List.range n).foldl (round_step tt rk) X0 = X at hl hw ⊢
    simp only [List.foldl_cons, List.foldl_nil, round_step, List.length_set]
    refine ⟨hl, ?_⟩
    simp only [window, qstep]
    rw [getD_set_ne _ _ _ _ (by omega), getD_set_ne _ _ _ _ (by omega),
      getD_set_ne _ _ _ _ (by omega),
      show n + 1 + 3 = n + 4 by omega, getD_set_eq _ _ _ (by omega)]

theorem xor_cancel (a y : Nat) : a ^^^ y ^^^ y = a := by
  rw [Nat.xor_assoc, Nat.xor_self, Nat.xor_zero]

theorem qstep_qrev (tt : ttables) (q : Nat × Nat × Nat × Nat) (k : Nat) :
    qstep tt (qrev (qstep tt q k)) k = qrev q := by
  obtain ⟨a, b, c, d⟩ := q
  simp only [qstep, qrev]
  have e : d ^^^ c ^^^ b ^^^ k = b ^^^ c ^^^ d ^^^ k := by
    rw [Nat.xor_comm d c, Nat.xor_assoc c d b, Nat.xor_comm d b, ← Nat.xor_assoc c b d,
      Nat.xor_comm c b]
  rw [e, xor_cancel]

theorem feistel_inverse (tt : ttables) (ks : List Nat) :
    ∀ q, ks.reverse.foldl (qstep tt) (qrev (ks.foldl (qstep tt) q)) = qrev q := by
  induction ks with
  | nil => intro q; rfl
  | cons k ks ih =>
    intro q
    simp only [List.reverse_cons, List.foldl_append, List.foldl_cons, List.foldl_nil, ih,
      qstep_qrev]

theorem foldl_range_getD {α : Type} (g : α → Nat → α) (ks : List Nat) :
    ∀ q : α, (List.range ks.length).foldl (fun q i => g q (ks.getD i 0)) q = ks.foldl g q := by
  induction ks with
  | nil => intro q; rfl
  | cons k ks ih =>
    intro q
    rw [List.length_cons, List.range_succ_eq_map, List.foldl_cons, List.foldl_map]
    simpa using ih (g q k)

theorem store_block_eq (X : List Nat) : store_block X = store_quad (qrev (window X 32)) :=
  rfl

theorem load_block_window (inp : List Nat) : window (load_block inp) 0 = load_quad inp :=
  rfl

theorem load_block_length (inp : List Nat) : (load_block inp).length = 36 :=
  rfl

theorem encrypt_eq_fold (tt : ttables) (inp rk : List Nat) (hrk : rk.length = 32) :
    sm4_encrypt_block_ttable tt inp rk
      = store_quad (qrev (rk.foldl (qstep tt) (load_quad inp))) := by
  obtain ⟨-, hw⟩ := rounds_window tt rk (load_block inp) (load_block_length inp) 32 (by omega)
  have hf := foldl_range_getD (qstep tt) rk (load_quad inp)
  rw [hrk] at hf
  rw [sm4_encrypt_block_ttable, store_block_eq, hw, load_block_window, hf]

theorem getD_lt_of_forall (l : List Nat) (i B : Nat) (hB : 0 < B) (h : ∀ x ∈ l, x < B) :
    l.getD i 0 < B := by
  rw [List.getD_eq_getElem?_getD]
  cases hi : l[i]? with
  | none => simpa using hB
  | some v => simpa using h v (List.getElem?_mem hi)

theorem ttable_lookup_lt (tt : ttables) (h : tables_ok tt) (v : Nat) :
    ttable_lookup tt v < 2 ^ 32 := by
  obtain ⟨h0, h1, h2, h3⟩ := h
  have p : 0 < 2 ^ 32 := by norm_num
  exact Nat.xor_lt_two_pow (Nat.xor_lt_two_pow (Nat.xor_lt_two_pow
    (getD_lt_of_forall _ _ _ p h0) (getD_lt_of_forall _ _ _ p h1))
    (getD_lt_of_forall _ _ _ p h2)) (getD_lt_of_forall _ _ _ p h3)

theorem qstep_ok (tt : ttables) (h : tables_ok tt) (q : Nat × Nat × Nat × Nat) (k : Nat)
    (hq : quad_ok q) : quad_ok (qstep tt q k) := by
  obtain ⟨h0, h1, h2, h3⟩ := hq
  exact ⟨h1, h2, h3, Nat.xor_lt_two_pow h0 (ttable_lookup_lt tt h _)⟩

theorem foldl_qstep_ok (tt : ttables) (h : tables_ok tt) (ks : List Nat) :
    ∀ q, quad_ok q → quad_ok (ks.foldl (qstep tt) q) := by
  induction ks with
  | nil => intro q hq; exact hq
  | cons k ks ih => intro q hq; exact ih _ (qstep_ok tt h q k hq)

theorem load_quad_ok (inp : List Nat) : quad_ok (load_quad inp) := by
  refine ⟨?_, ?_, ?_, ?_⟩ <;> exact Nat.mod_lt _ (by norm_num)

theorem load_store_be32 (w : Nat) (hw : w < 2 ^ 32) (rest : List Nat) :
    Bits.load_be32 (store_be32 w ++ rest) 0 = w := by
  simp only [Bits.load_be32, store_be32, Bits.and_ff, Nat.shiftRight_eq_div_pow, List.cons_append,
    List.nil_append, Nat.mul_zero, Nat.zero_add, List.getD_cons_zero, List.getD_cons_succ]
  rw [Bits.be32_combine _ _ _ _ (Nat.mod_lt _ (by omega)) (Nat.mod_lt _ (by omega))
    (Nat.mod_lt _ (by omega)) (Nat.mod_lt _ (by omega))]
  omega

theorem load_store_quad (q : Nat × Nat × Nat × Nat) (hq : quad_ok q) :
    load_quad (store_quad q) = q := by
  obtain ⟨a, b, c, d⟩ := q
  obtain ⟨ha, hb, hc, hd⟩ := hq
  simp only at ha hb hc hd
  have e1 := load_store_be32 a ha (store_be32 b ++ store_be32 c ++ store_be32 d)
  have e2 := load_store_be32 b hb (store_be32 c ++ store_be32 d)
  have e3 := load_store_be32 c hc (store_be32 d)
  have e4 := load_store_be32 d hd []
  simp only [load_quad, store_quad, List.append_assoc]
  simp only [List.append_assoc] at e1
  refine Prod.ext e1 (Prod.ext ?_ (Prod.ext ?_ ?_))
  · show Bits.load_be32 (store_be32 a ++ (store_be32 b ++ (store_be32 c ++ store_be32 d))) (0 + 1) = b
    rw [show store_be32 a = [(a >>> 24) &&& 0xFF, (a >>> 16) &&& 0xFF, (a >>> 8) &&& 0xFF,
      a &&& 0xFF] from rfl]
    simp only [List.cons_append, List.nil_append, Bits.load_be32_succ]
    exact e2
  · show Bits.load_be32 (store_be32 a ++ (store_be32 b ++ (store_be32 c ++ store_be32 d))) (1 + 1) = c
    rw [show store_be32 a = [(a >>> 24) &&& 0xFF, (a >>> 16) &&& 0xFF, (a >>> 8) &&& 0xFF,
      a &&& 0xFF] from rfl, show store_be32 b = [(b >>> 24) &&& 0xFF, (b >>> 16) &&& 0xFF,
      (b >>> 8) &&& 0xFF, b &&& 0xFF] from rfl]
    simp only [List.cons_append, List.nil_append, Bits.load_be32_succ]
    exact e3
  · show Bits.load_be32 (store_be32 a ++ (store_be32 b ++ (store_be32 c ++ store_be32 d))) (2 + 1) = d
    rw [show store_be32 a = [(a >>> 24) &&& 0xFF, (a >>> 16) &&& 0xFF, (a >>> 8) &&& 0xFF,
      a &&& 0xFF] from rfl, show store_be32 b = [(b >>> 24) &&& 0xFF, (b >>> 16) &&& 0xFF,
      (b >>> 8) &&& 0xFF, b &&& 0xFF] from rfl, show store_be32 c = [(c >>> 24) &&& 0xFF,
      (c >>> 16) &&& 0xFF, (c >>> 8) &&& 0xFF, c &&& 0xFF] from rfl]
    simp only [List.cons_append, List.nil_append, Bits.load_be32_succ]
    simpa using e4

theorem store_load_be32 (a b c d : Nat) (t : List Nat) (ha : a < 256) (hb : b < 256)
    (hc : c < 256) (hd : d < 256) :
    store_be32 (Bits.load_be32 (a :: b :: c :: d :: t) 0) = [a, b, c, d] := by
  simp only [Bits.load_be32, store_be32, Bits.and_ff, Nat.shiftRight_eq_div_pow, Nat.mul_zero,
    Nat.zero_add, List.getD_cons_zero, List.getD_cons_succ]
  rw [Bits.be32_combine _ _ _ _ ha hb hc hd]
  have e1 : (a * 16777216 + b * 65536 + c * 256 + d) / 2 ^ 24 % 256 = a := by omega
  have e2 : (a * 16777216 + b * 65536 + c * 256 + d) / 2 ^ 16 % 256 = b := by omega
  have e3 : (a * 16777216 + b * 65536 + c * 256 + d) / 2 ^ 8 % 256 = c := by omega
  have e4 : (a * 16777216 + b * 65536 + c * 256 + d) % 256 = d := by omega
  rw [e1, e2, e3, e4]

theorem store_load_quad (p : List Nat) (hl : p.length = 16) (hb : ∀ b ∈ p, b < 256) :
    store_quad (load_quad p) = p := by
  obtain ⟨a0, a1, a2, a3, t1, rfl, h1⟩ := Bits.list_length_four p 12 hl
  obtain ⟨b0, b1, b2, b3, t2, rfl, h2⟩ := Bits.list_length_four t1 8 h1
  obtain ⟨c0, c1, c2, c3, t3, rfl, h3⟩ := Bits.list_length_four t2 4 h2
  obtain ⟨d0, d1, d2, d3, t4, rfl, h4⟩ := Bits.list_length_four t3 0 h3
  have ht : t4 = [] := List.eq_nil_of_length_eq_zero h4
  subst ht
  simp only [List.mem_cons, List.mem_nil_iff, or_false, forall_eq_or_imp, forall_eq] at hb
  obtain ⟨ha0, ha1, ha2, ha3, hb0, hb1, hb2, hb3, hc0, hc1, hc2, hc3, hd0, hd1, hd2, hd3⟩ := hb
  simp only [store_quad, load_quad]
  rw [show (1 : Nat) = 0 + 1 from rfl, show (2 : Nat) = 0 + 1 + 1 from rfl,
    show (3 : Nat) = 0 + 1 + 1 + 1 from rfl]
  simp only [Bits.load_be32_succ]
  rw [store_load_be32 _ _ _ _ _ ha0 ha1 ha2 ha3, store_load_be32 _ _ _ _ _ hb0 hb1 hb2 hb3,
    store_load_be32 _ _ _ _ _ hc0 hc1 hc2 hc3, store_load_be32 _ _ _ _ _ hd0 hd1 hd2 hd3]
  rfl

theorem foldl_snd_length (f : List Nat × List Nat → Nat → List Nat × List Nat)
    (hf : ∀ s i, (f s i).2.length = s.2.length) (l : List Nat) :
    ∀ s, (l.foldl f s).2.length = s.2.length := by
  induction l with
  | nil => intro s; rfl
  | cons i l ih => intro s; rw [List.foldl_cons, ih, hf]

theorem sm4_key_schedule_length (mk : List Nat) : (sm4_key_schedule mk).length = 32 := by
  unfold sm4_key_schedule
  rw [foldl_snd_length]
  · rfl
  · intro s i
    simp only [List.length_set]

theorem qrev_qrev (q : Nat × Nat × Nat × Nat) : qrev (qrev q) = q := rfl

theorem qrev_ok (q : Nat × Nat × Nat × Nat) (h : quad_ok q) : quad_ok (qrev q) :=
  ⟨h.2.2.2, h.2.2.1, h.2.1, h.1⟩

theorem build_t_tables_ok : tables_ok (build_t_tables ttables.zero) := by
  decide

end Project1

namespace Project3

theorem build_levels_ne_nil (H : List Nat → List Nat) (fuel : Nat) (cur : level_t) :
    build_levels H fuel cur ≠ [] := by
  cases fuel with
  | zero => simp [build_levels]
  | succ n => unfold build_levels; split <;> simp

theorem build_levels_length_pos (H : List Nat → List Nat) (fuel : Nat) (cur : level_t) :
    0 < (build_levels H fuel cur).length :=
  List.length_pos.mpr (build_levels_ne_nil H fuel cur)

theorem build_levels_head (H : List Nat → List Nat) (fuel : Nat) (cur d : level_t) :
    (build_levels H fuel cur).getD 0 d = cur := by
  cases fuel with
  | zero => simp [build_levels]
  | succ n => unfold build_levels; split <;> simp

theorem build_levels_chain (H : List Nat → List Nat) (d : level_t) (fuel : Nat) :
    ∀ (cur : level_t) (k : Nat), k + 1 < (build_levels H fuel cur).length →
      (build_levels H fuel cur).getD (k + 1) d
        = next_level H ((build_levels H fuel cur).getD k d) := by
  induction fuel with
  | zero => intro cur k hk; simp [build_levels] at hk
  | succ n ih =>
    intro cur k hk
    unfold build_levels at hk ⊢
    by_cases hn : cur.nodes > 1
    · simp only [hn, if_true, List.length_cons] at hk ⊢
      cases k with
      | zero => simp only [List.getD_cons_succ, List.getD_cons_zero, build_levels_head]
      | succ k =>
        simp only [List.getD_cons_succ]
        exact ih _ k (by omega)
    · simp [hn] at hk

theorem build_levels_top (H : List Nat → List Nat) (d : level_t) (fuel : Nat) :
    ∀ cur : level_t, cur.nodes ≤ fuel + 1 →
      ((build_levels H fuel cur).getD ((build_levels H fuel cur).length - 1) d).nodes ≤ 1 := by
  induction fuel with
  | zero => intro cur h; simpa [build_levels] using h
  | succ n ih =>
    intro cur h
    unfold build_levels
    by_cases hn : cur.nodes > 1
    · simp only [hn, if_true, List.length_cons, Nat.add_sub_cancel]
      have hpos := build_levels_length_pos H n (next_level H cur)
      obtain ⟨m, hm⟩ : ∃ m, (build_levels H n (next_level H cur)).length = m + 1 :=
        ⟨_, (Nat.succ_pred_eq_of_pos hpos).symm⟩
      have hnext : (next_level H cur).nodes ≤ n + 1 := by
        show (cur.nodes + 1) / 2 ≤ n + 1
        omega
      have := ih (next_level H cur) hnext
      rw [hm] at this ⊢
      simpa using this
    · simp only [hn, if_false, List.length_cons, List.length_nil, Nat.zero_add,
        Nat.sub_self, List.getD_cons_zero]
      omega

theorem next_level_getD (H : List Nat → List Nat) (cur : level_t) (j : Nat)
    (hj : j < (cur.nodes + 1) / 2) :
    (next_level H cur).data.getD j [] =
      hash_node H (cur.data.getD (j * 2) [])
        (if j * 2 + 1 < cur.nodes then cur.data.getD (j * 2 + 1) [] else cur.data.getD (j * 2) []) := by
  simp [next_level, List.getD_eq_getElem?_getD, List.getElem?_map, List.getElem?_range hj]

theorem next_level_nodes (H : List Nat → List Nat) (cur : level_t) :
    (next_level H cur).nodes = (cur.nodes + 1) / 2 := rfl

theorem verify_fold_prefix (H : List Nat → List Nat) (P : List (List Nat)) (D : List Nat)
    (x : List Nat) (d k : Nat) (hP : P.length = k) (hD : D.length = k) (c : List Nat × Nat) :
    (List.range k).foldl (verify_step H (P ++ [x]) (D ++ [d])) c
      = (List.range k).foldl (verify_step H P D) c := by
  apply List.foldl_ext
  intro s a ha
  have ha' : a < k := List.mem_range.mp ha
  simp only [verify_step, List.getD_append P [x] [] a (by omega),
    List.getD_append D [d] 0 a (by omega)]

theorem verify_step_last (H : List Nat → List Nat) (P : List (List Nat)) (D : List Nat)
    (x : List Nat) (d k : Nat) (hP : P.length = k) (hD : D.length = k) (s : List Nat × Nat) :
    (verify_step H (P ++ [x]) (D ++ [d]) s k).1
      = if d = 0 then hash_node H s.1 x else hash_node H x s.1 := by
  have e1 : (P ++ [x]).getD k [] = x := by
    rw [List.getD_append_right _ _ _ _ (by omega), hP]; simp
  have e2 : (D ++ [d]).getD k 0 = d := by
    rw [List.getD_append_right _ _ _ _ (by omega), hD]; simp
  simp only [verify_step, e1, e2]
  split <;> rfl

theorem proof_step_eq (lv : List level_t) (s : proof_state) (k : Nat) :
    proof_step lv s k =
      { idx := s.idx / 2, proof := s.proof ++ [sibling_of (lv.getD k ⟨[], 0⟩) s.idx],
        dirs := s.dirs ++ [dir_of s.idx], plen := s.plen + 1 } := by
  unfold proof_step sibling_of dir_of
  dsimp only
  split_ifs <;> rfl

theorem sibling_combine (H : List Nat → List Nat) (L : level_t) (idx : Nat)
    (hidx : idx < L.nodes) :
    (if dir_of idx = 0 then hash_node H (L.data.getD idx []) (sibling_of L idx)
      else hash_node H (sibling_of L idx) (L.data.getD idx []))
      = (next_level H L).data.getD (idx / 2) [] := by
  rw [next_level_getD H L _ (by omega)]
  unfold sibling_of dir_of
  by_cases h : idx % 2 = 0
  · have e : idx / 2 * 2 = idx := by omega
    rw [if_pos h, if_pos h, if_pos rfl, e]
    by_cases h2 : idx + 1 ≥ L.nodes
    · rw [if_pos h2, if_neg (by omega)]
    · rw [if_neg h2, if_pos (by omega)]
  · have e : idx / 2 * 2 = idx - 1 := by omega
    have e2 : idx - 1 + 1 = idx := by omega
    rw [if_neg h, if_neg h, if_neg (by decide), e, e2, if_pos hidx]

/-- Joint invariant of the proof loop and the verification loop: after `k`
levels the proof has `k` entries and folding them from the leaf hash gives the
node of level `k` the index has reached; the verifier's own index `j` plays no
part. -/
theorem proof_verify_inv (H : List Nat → List Nat) (lv : List level_t) (lh : List Nat)
    (i j : Nat)
    (hchain : ∀ k, k + 1 < lv.length →
      lv.getD (k + 1) ⟨[], 0⟩ = next_level H (lv.getD k ⟨[], 0⟩))
    (h0 : (lv.getD 0 ⟨[], 0⟩).data.getD i [] = lh)
    (hi : i < (lv.getD 0 ⟨[], 0⟩).nodes) (k : Nat) (hk : k + 1 ≤ lv.length) :
    ((List.range k).foldl (proof_step lv) ⟨i, [], [], 0⟩).idx < (lv.getD k ⟨[], 0⟩).nodes ∧
    ((List.range k).foldl (proof_step lv) ⟨i, [], [], 0⟩).proof.length = k ∧
    ((List.range k).foldl (proof_step lv) ⟨i, [], [], 0⟩).dirs.length = k ∧
    ((List.range k).foldl (proof_step lv) ⟨i, [], [], 0⟩).plen = k ∧
    ((List.range k).foldl
        (verify_step H ((List.range k).foldl (proof_step lv) ⟨i, [], [], 0⟩).proof
          ((List.range k).foldl (proof_step lv) ⟨i, [], [], 0⟩).dirs) (lh, j)).1
      = (lv.getD k ⟨[], 0⟩).data.getD
          ((List.range k).foldl (proof_step lv) ⟨i, [], [], 0⟩).idx [] := by
  induction k with
  | zero => exact ⟨hi, rfl, rfl, rfl, h0.symm⟩
  | succ k ih =>
    obtain ⟨hidx, hP, hD, hpl, hv⟩ := ih (by omega)
    rw [List.range_succ, List.foldl_append]
    generalize (List.range k).foldl (proof_step lv) ⟨i, [], [], 0⟩ = s at hidx hP hD hpl hv ⊢
    simp only [List.foldl_cons, List.foldl_nil, proof_step_eq, List.length_append,
      List.length_singleton, hP, hD, hpl, true_and]
    rw [hchain k (by omega), next_level_nodes]
    refine ⟨by omega, ?_⟩
    rw [List.foldl_append, List.foldl_cons, List.foldl_nil,
      verify_step_last H _ _ _ _ k hP hD, verify_fold_prefix H _ _ _ _ k hP hD, hv]
    exact sibling_combine H _ _ hidx

theorem map_getD_of_lt (f : List Nat → List Nat) (l : List (List Nat)) (i : Nat)
    (hi : i < l.length) : (l.map f).getD i [] = f (l.getD i []) := by
  simp [List.getD_eq_getElem?_getD, List.getElem?_map, List.getElem?_eq_getElem hi]

/-- The proof `merkle_inclusion_proof` returns for a valid index verifies, whatever
`leaf_index` the verifier is given. -/
theorem inclusion_proof_verifies (H : List Nat → List Nat) (leaves : List (List Nat))
    (i j : Nat) (hi : i < leaves.length) :
    ∃ lv proof dirs len, merkle_build H leaves = some lv ∧
      merkle_inclusion_proof (some lv) lv.length i = (0, some (proof, dirs, len)) ∧
      merkle_verify_inclusion H (merkle_root lv lv.length) (leaves.getD i []) proof dirs len j
        = 1 := by
  set L0 : level_t := { data := leaves.map (hash_leaf H), nodes := leaves.length } with hL0
  set lv := build_levels H leaves.length L0 with hlv
  have hpos : 0 < lv.length := build_levels_length_pos _ _ _
  have hhead : lv.getD 0 ⟨[], 0⟩ = L0 := build_levels_head _ _ _ _
  have hchain := build_levels_chain H ⟨[], 0⟩ leaves.length L0
  have htop := build_levels_top H ⟨[], 0⟩ leaves.length L0 (by show leaves.length ≤ _; omega)
  rw [← hlv] at hchain htop
  have h0 : (lv.getD 0 ⟨[], 0⟩).data.getD i [] = hash_leaf H (leaves.getD i []) := by
    rw [hhead]; exact map_getD_of_lt _ _ _ hi
  have hi0 : i < (lv.getD 0 ⟨[], 0⟩).nodes := by rw [hhead]; exact hi
  obtain ⟨hidx, -, -, hpl, hv⟩ := proof_verify_inv H lv _ i j hchain h0 hi0 (lv.length - 1)
    (by omega)
  set s := (List.range (lv.length - 1)).foldl (proof_step lv) ⟨i, [], [], 0⟩ with hs
  refine ⟨lv, s.proof, s.dirs, s.plen, ?_, ?_, ?_⟩
  · have hne : ¬ leaves.length = 0 := by omega
    simp only [merkle_build, hne, if_false, hlv, hL0]
  · have hne : ¬ lv.length = 0 := by omega
    have hge : ¬ i ≥ (lv.getD 0 ⟨[], 0⟩).nodes := by omega
    simp only [merkle_inclusion_proof, hne, hge, if_false, hs]
  · have hz : s.idx = 0 := by omega
    rw [hz] at hv
    simp only [merkle_verify_inclusion, hpl, hv, merkle_root, if_true]

end Project3

namespace Project3

theorem lex_cons_iff (x : Nat) (a b : List Nat) : x :: a < x :: b ↔ a < b :=
  List.Lex.cons_iff

theorem lex_cons_of_lt (x y : Nat) (a b : List Nat) (h : x < y) : x :: a < y :: b :=
  List.Lex.rel h

/-- What `memcmp` over the shorter of the two lengths says about the
byte-lexicographic order. -/
theorem memcmp_spec (a : List Nat) : ∀ b : List Nat,
    (memcmp a b (if a.length < b.length then a.length else b.length) < 0 → a < b) ∧
    (0 < memcmp a b (if a.length < b.length then a.length else b.length) → b < a) ∧
    (memcmp a b (if a.length < b.length then a.length else b.length) = 0 →
      (a.length = b.length → a = b) ∧ (a.length < b.length → a < b) ∧
      (b.length < a.length → b < a)) := by
  induction a with
  | nil =>
    intro b
    cases b with
    | nil => simp [memcmp]
    | cons y b => simp [memcmp, List.nil_lt_cons]
  | cons x a ih =>
    intro b
    cases b with
    | nil => simp [memcmp, List.nil_lt_cons]
    | cons y b =>
      have hmin : (if (x :: a).length < (y :: b).length then (x :: a).length
          else (y :: b).length)
          = (if a.length < b.length then a.length else b.length) + 1 := by
        simp only [List.length_cons]
        split <;> split <;> omega
      rw [hmin]
      by_cases hxy : x < y
      · have e : memcmp (x :: a) (y :: b)
            ((if a.length < b.length then a.length else b.length) + 1) = -1 := by
          simp [memcmp, hxy]
        rw [e]
        exact ⟨fun _ => lex_cons_of_lt _ _ _ _ hxy, fun h => absurd h (by decide),
          fun h => absurd h (by decide)⟩
      · by_cases hyx : y < x
        · have e : memcmp (x :: a) (y :: b)
              ((if a.length < b.length then a.length else b.length) + 1) = 1 := by
            simp [memcmp, hxy, hyx]
          rw [e]
          exact ⟨fun h => absurd h (by decide), fun _ => lex_cons_of_lt _ _ _ _ hyx,
            fun h => absurd h (by decide)⟩
        · have heq : x = y := by omega
          subst heq
          have e : memcmp (x :: a) (x :: b)
              ((if a.length < b.length then a.length else b.length) + 1)
              = memcmp a b (if a.length < b.length then a.length else b.length) := by
            simp [memcmp]
          rw [e]
          obtain ⟨h1, h2, h3⟩ := ih b
          refine ⟨fun h => (lex_cons_iff _ _ _).mpr (h1 h),
            fun h => (lex_cons_iff _ _ _).mpr (h2 h), fun h => ?_⟩
          obtain ⟨g1, g2, g3⟩ := h3 h
          refine ⟨fun hl => ?_, fun hl => ?_, fun hl => ?_⟩
          · rw [g1 (by simpa using hl)]
          · exact (lex_cons_iff _ _ _).mpr (g2 (by simpa using hl))
          · exact (lex_cons_iff _ _ _).mpr (g3 (by simpa using hl))

theorem sorted_getD_le (leaves : List (List Nat)) (hs : leaves.Sorted (· ≤ ·)) (i j : Nat)
    (hij : i ≤ j) (hj : j < leaves.length) : leaves.getD i [] ≤ leaves.getD j [] := by
  have hi : i < leaves.length := by omega
  have := hs.rel_get_of_le (a := ⟨i, hi⟩) (b := ⟨j, hj⟩) (by simpa using hij)
  simpa [List.getD_eq_getElem?_getD, List.getElem?_eq_getElem hi,
    List.getElem?_eq_getElem hj] using this

end Project3
namespace Project3

/-- One pass of the search loop, by the order of the probed leaf and the target. -/
theorem nm_search_step (leaves : List (List Nat)) (target : List Nat) (fuel lo hi : Nat)
    (hlt : lo < hi) :
    (leaves.getD ((lo + hi) / 2) [] = target →
      nm_search leaves target (fuel + 1) lo hi = (some ((lo + hi) / 2), lo)) ∧
    (leaves.getD ((lo + hi) / 2) [] < target →
      nm_search leaves target (fuel + 1) lo hi
        = nm_search leaves target fuel ((lo + hi) / 2 + 1) hi) ∧
    (target < leaves.getD ((lo + hi) / 2) [] →
      nm_search leaves target (fuel + 1) lo hi
        = nm_search leaves target fuel lo ((lo + hi) / 2)) := by
  generalize hleaf : leaves.getD ((lo + hi) / 2) [] = leaf
  obtain ⟨h1, h2, h3⟩ := memcmp_spec leaf target
  have hunf : nm_search leaves target (fuel + 1) lo hi =
      (if memcmp leaf target
          (if leaf.length < target.length then leaf.length else target.length) = 0 then
        if leaf.length = target.length then (some ((lo + hi) / 2), lo)
        else if (if leaf.length < target.length then (-1 : Int) else 1) < 0 then
          nm_search leaves target fuel ((lo + hi) / 2 + 1) hi
        else nm_search leaves target fuel lo ((lo + hi) / 2)
      else if memcmp leaf target
          (if leaf.length < target.length then leaf.length else target.length) < 0 then
        nm_search leaves target fuel ((lo + hi) / 2 + 1) hi
      else nm_search leaves target fuel lo ((lo + hi) / 2)) := by
    rw [nm_search, if_pos hlt]
    simp only [hleaf]
  rw [hunf]
  generalize memcmp leaf target
    (if leaf.length < target.length then leaf.length else target.length) = c at h1 h2 h3
  rcases lt_trichotomy c 0 with hc | hc | hc
  · have hlt' := h1 hc
    rw [if_neg (show ¬ c = 0 by omega), if_pos hc]
    exact ⟨fun h => absurd hlt' (by rw [h]; exact lt_irrefl _), fun _ => rfl,
      fun h => absurd (lt_trans hlt' h) (lt_irrefl _)⟩
  · obtain ⟨g1, g2, g3⟩ := h3 hc
    rw [if_pos hc]
    rcases lt_trichotomy leaf.length target.length with hl | hl | hl
    · have hlt' := g2 hl
      rw [if_neg (show ¬ leaf.length = target.length by omega), if_pos hl,
        if_pos (show (-1 : Int) < 0 by decide)]
      exact ⟨fun h => absurd hlt' (by rw [h]; exact lt_irrefl _), fun _ => rfl,
        fun h => absurd (lt_trans hlt' h) (lt_irrefl _)⟩
    · have he := g1 hl
      rw [if_pos hl]
      exact ⟨fun _ => rfl, fun h => absurd h (by rw [he]; exact lt_irrefl _),
        fun h => absurd h (by rw [he]; exact lt_irrefl _)⟩
    · have hgt' := g3 hl
      rw [if_neg (show ¬ leaf.length = target.length by omega),
        if_neg (show ¬ leaf.length < target.length by omega),
        if_neg (show ¬ (1 : Int) < 0 by decide)]
      exact ⟨fun h => absurd hgt' (by rw [h]; exact lt_irrefl _),
        fun h => absurd (lt_trans hgt' h) (lt_irrefl _), fun _ => rfl⟩
  · have hgt' := h2 hc
    rw [if_neg (show ¬ c = 0 by omega), if_neg (show ¬ c < 0 by omega)]
    exact ⟨fun h => absurd hgt' (by rw [h]; exact lt_irrefl _),
      fun h => absurd (lt_trans hgt' h) (lt_irrefl _), fun _ => rfl⟩

/-- The search loop on a sorted list: with enough budget it ends through its own
condition, either on a leaf equal to the target or on the position that
separates the smaller leaves from the greater ones. -/
theorem nm_search_spec (leaves : List (List Nat)) (target : List Nat)
    (hs : leaves.Sorted (· ≤ ·)) (fuel : Nat) :
    ∀ lo hi, hi - lo ≤ fuel → lo ≤ hi → hi ≤ leaves.length →
      (∀ j, j < lo → leaves.getD j [] < target) →
      (∀ j, hi ≤ j → j < leaves.length → target < leaves.getD j []) →
      (∀ mid, (nm_search leaves target fuel lo hi).1 = some mid →
        mid < leaves.length ∧ leaves.getD mid [] = target) ∧
      ((nm_search leaves target fuel lo hi).1 = none →
        (nm_search leaves target fuel lo hi).2 ≤ leaves.length ∧
        (∀ j, j < (nm_search leaves target fuel lo hi).2 → leaves.getD j [] < target) ∧
        (∀ j, (nm_search leaves target fuel lo hi).2 ≤ j → j < leaves.length →
          target < leaves.getD j [])) := by
  induction fuel with
  | zero =>
    intro lo hi hf hle hn hlo hhi
    have e : hi = lo := by omega
    subst e
    simp only [nm_search]
    exact ⟨fun mid h => absurd h (by simp), fun _ => ⟨hn, hlo, hhi⟩⟩
  | succ fuel ih =>
    intro lo hi hf hle hn hlo hhi
    by_cases hlt : lo < hi
    · obtain ⟨s1, s2, s3⟩ := nm_search_step leaves target fuel lo hi hlt
      have hmid : (lo + hi) / 2 < leaves.length := by omega
      rcases lt_trichotomy (leaves.getD ((lo + hi) / 2) []) target with h | h | h
      · rw [s2 h]
        apply ih _ _ (by omega) (by omega) hn _ hhi
        intro j hj
        exact lt_of_le_of_lt (sorted_getD_le leaves hs j _ (by omega) hmid) h
      · rw [s1 h]
        refine ⟨fun mid hm => ?_, fun hnone => absurd hnone (by simp)⟩
        have e : (lo + hi) / 2 = mid := by simpa using hm
        rw [← e]
        exact ⟨hmid, h⟩
      · rw [s3 h]
        apply ih _ _ (by omega) (by omega) (by omega) hlo
        intro j hj hjn
        exact lt_of_lt_of_le h (sorted_getD_le leaves hs _ j hj hjn)
    · have e : hi = lo := by omega
      subst e
      have hunf : nm_search leaves target (fuel + 1) hi hi = (none, hi) := by
        rw [nm_search, if_neg hlt]
      rw [hunf]
      exact ⟨fun mid h => absurd h (by simp), fun _ => ⟨hn, hlo, hhi⟩⟩

end Project3
namespace Project3

theorem set_left_proof_indices (out : nm_proof_t)
    (r : Int × Option (List (List Nat) × List Nat × Nat)) :
    (set_left_proof out r).found = out.found ∧
    (set_left_proof out r).found_index = out.found_index ∧
    (set_left_proof out r).left_index = out.left_index ∧
    (set_left_proof out r).right_index = out.right_index ∧
    (set_left_proof out r).right_proof_hashes = out.right_proof_hashes ∧
    (set_left_proof out r).right_dirs = out.right_dirs ∧
    (set_left_proof out r).right_proof_len = out.right_proof_len := by
  unfold set_left_proof
  cases r.2 <;> exact ⟨rfl, rfl, rfl, rfl, rfl, rfl, rfl⟩

theorem set_right_proof_indices (out : nm_proof_t)
    (r : Int × Option (List (List Nat) × List Nat × Nat)) :
    (set_right_proof out r).found = out.found ∧
    (set_right_proof out r).found_index = out.found_index ∧
    (set_right_proof out r).left_index = out.left_index ∧
    (set_right_proof out r).right_index = out.right_index ∧
    (set_right_proof out r).left_proof_hashes = out.left_proof_hashes ∧
    (set_right_proof out r).left_dirs = out.left_dirs ∧
    (set_right_proof out r).left_proof_len = out.left_proof_len := by
  unfold set_right_proof
  cases r.2 <;> exact ⟨rfl, rfl, rfl, rfl, rfl, rfl, rfl⟩

theorem set_left_proof_some (out : nm_proof_t) (c : Int) (p : List (List Nat)) (d : List Nat)
    (l : Nat) :
    (set_left_proof out (c, some (p, d, l))).left_proof_hashes = some p ∧
    (set_left_proof out (c, some (p, d, l))).left_dirs = some d ∧
    (set_left_proof out (c, some (p, d, l))).left_proof_len = l :=
  ⟨rfl, rfl, rfl⟩

theorem set_right_proof_some (out : nm_proof_t) (c : Int) (p : List (List Nat)) (d : List Nat)
    (l : Nat) :
    (set_right_proof out (c, some (p, d, l))).right_proof_hashes = some p ∧
    (set_right_proof out (c, some (p, d, l))).right_dirs = some d ∧
    (set_right_proof out (c, some (p, d, l))).right_proof_len = l :=
  ⟨rfl, rfl, rfl⟩

/-- The result when the search returns on a match. -/
theorem nm_proof_of_some (leaves : List (List Nat)) (levels : Option (List level_t))
    (nlevels : Nat) (target : List Nat) (mid : Nat)
    (h : (nm_search leaves target leaves.length 0 leaves.length).1 = some mid) :
    (merkle_non_membership_proof leaves levels nlevels target).found = 1 ∧
    (merkle_non_membership_proof leaves levels nlevels target).found_index = mid := by
  simp [merkle_non_membership_proof, h]

/-- The result when the search ends without a match, at insertion position `lo`. -/
theorem nm_proof_of_none (leaves : List (List Nat)) (levels : Option (List level_t))
    (nlevels : Nat) (target : List Nat)
    (h : (nm_search leaves target leaves.length 0 leaves.length).1 = none) :
    merkle_non_membership_proof leaves levels nlevels target =
      (if (nm_search leaves target leaves.length 0 leaves.length).2 = 0 then
        set_right_proof
          { found := 0, found_index := 0, left_index := SIZE_MAX, right_index := 0,
            left_proof_hashes := none, left_dirs := none, left_proof_len := 0,
            right_proof_hashes := none, right_dirs := none, right_proof_len := 0 }
          (merkle_inclusion_proof levels nlevels 0)
      else if (nm_search leaves target leaves.length 0 leaves.length).2 = leaves.length then
        set_left_proof
          { found := 0, found_index := 0, left_index := leaves.length - 1,
            right_index := SIZE_MAX,
            left_proof_hashes := none, left_dirs := none, left_proof_len := 0,
            right_proof_hashes := none, right_dirs := none, right_proof_len := 0 }
          (merkle_inclusion_proof levels nlevels (leaves.length - 1))
      else
        set_right_proof
          (set_left_proof
            { found := 0, found_index := 0,
              left_index := (nm_search leaves target leaves.length 0 leaves.length).2 - 1,
              right_index := (nm_search leaves target leaves.length 0 leaves.length).2,
              left_proof_hashes := none, left_dirs := none, left_proof_len := 0,
              right_proof_hashes := none, right_dirs := none, right_proof_len := 0 }
            (merkle_inclusion_proof levels nlevels
              ((nm_search leaves target leaves.length 0 leaves.length).2 - 1)))
          (merkle_inclusion_proof levels nlevels
            (nm_search leaves target leaves.length 0 leaves.length).2)) := by
  simp only [merkle_non_membership_proof, h]

/-- The index fields when the search ends without a match. -/
theorem nm_proof_none_indices (leaves : List (List Nat)) (levels : Option (List level_t))
    (nlevels : Nat) (target : List Nat)
    (h : (nm_search leaves target leaves.length 0 leaves.length).1 = none) :
    (merkle_non_membership_proof leaves levels nlevels target).found = 0 ∧
    (merkle_non_membership_proof leaves levels nlevels target).left_index =
      (if (nm_search leaves target leaves.length 0 leaves.length).2 = 0 then SIZE_MAX
       else (nm_search leaves target leaves.length 0 leaves.length).2 - 1) ∧
    (merkle_non_membership_proof leaves levels nlevels target).right_index =
      (if (nm_search leaves target leaves.length 0 leaves.length).2 = 0 then 0
       else if (nm_search leaves target leaves.length 0 leaves.length).2 = leaves.length
       then SIZE_MAX else (nm_search leaves target leaves.length 0 leaves.length).2) := by
  rw [nm_proof_of_none leaves levels nlevels target h]
  generalize hlo : (nm_search leaves target leaves.length 0 leaves.length).2 = lo
  by_cases h0 : lo = 0
  · simp only [h0, if_true]
    obtain ⟨e1, -, e3, e4, -⟩ := set_right_proof_indices
      { found := 0, found_index := 0, left_index := SIZE_MAX, right_index := 0,
        left_proof_hashes := none, left_dirs := none, left_proof_len := 0,
        right_proof_hashes := none, right_dirs := none, right_proof_len := 0 }
      (merkle_inclusion_proof levels nlevels 0)
    exact ⟨e1, e3, e4⟩
  · by_cases hn : lo = leaves.length
    · subst hn
      simp only [h0, if_true, if_false]
      obtain ⟨e1, -, e3, e4, -⟩ := set_left_proof_indices
        { found := 0, found_index := 0, left_index := leaves.length - 1,
          right_index := SIZE_MAX,
          left_proof_hashes := none, left_dirs := none, left_proof_len := 0,
          right_proof_hashes := none, right_dirs := none, right_proof_len := 0 }
        (merkle_inclusion_proof levels nlevels (leaves.length - 1))
      exact ⟨e1, e3, e4⟩
    · simp only [h0, hn, if_false]
      obtain ⟨e1, -, e3, e4, -⟩ := set_right_proof_indices
        (set_left_proof
          { found := 0, found_index := 0, left_index := lo - 1, right_index := lo,
            left_proof_hashes := none, left_dirs := none, left_proof_len := 0,
            right_proof_hashes := none, right_dirs := none, right_proof_len := 0 }
          (merkle_inclusion_proof levels nlevels (lo - 1)))
        (merkle_inclusion_proof levels nlevels lo)
      obtain ⟨f1, -, f3, f4, -⟩ := set_left_proof_indices
        { found := 0, found_index := 0, left_index := lo - 1, right_index := lo,
          left_proof_hashes := none, left_dirs := none, left_proof_len := 0,
          right_proof_hashes := none, right_dirs := none, right_proof_len := 0 }
        (merkle_inclusion_proof levels nlevels (lo - 1))
      exact ⟨e1.trans f1, e3.trans f3, e4.trans f4⟩

end Project3
namespace Project3

theorem getD_mem_of_lt (leaves : List (List Nat)) (j : Nat) (hj : j < leaves.length) :
    leaves.getD j [] ∈ leaves := by
  rw [List.getD_eq_getElem?_getD, List.getElem?_eq_getElem hj]
  exact List.getElem_mem hj

theorem exists_getD_of_mem (leaves : List (List Nat)) (x : List Nat) (h : x ∈ leaves) :
    ∃ j, j < leaves.length ∧ leaves.getD j [] = x := by
  obtain ⟨j, hj, e⟩ := List.getElem_of_mem h
  exact ⟨j, hj, by rw [List.getD_eq_getElem?_getD, List.getElem?_eq_getElem hj]; simpa using e⟩

/-- The search from `lo = 0`, `hi = n_leaves` on a sorted list. -/
theorem nm_search_top (leaves : List (List Nat)) (target : List Nat)
    (hs : leaves.Sorted (· ≤ ·)) :
    (∀ mid, (nm_search leaves target leaves.length 0 leaves.length).1 = some mid →
      mid < leaves.length ∧ leaves.getD mid [] = target) ∧
    ((nm_search leaves target leaves.length 0 leaves.length).1 = none →
      (nm_search leaves target leaves.length 0 leaves.length).2 ≤ leaves.length ∧
      (∀ j, j < (nm_search leaves target leaves.length 0 leaves.length).2 →
        leaves.getD j [] < target) ∧
      (∀ j, (nm_search leaves target leaves.length 0 leaves.length).2 ≤ j →
        j < leaves.length → target < leaves.getD j [])) :=
  nm_search_spec leaves target hs leaves.length 0 leaves.length (by omega) (by omega)
    (by omega) (fun j hj => absurd hj (by omega)) (fun j hj hjn => absurd hjn (by omega))

/-- On a sorted list the search ends without a match exactly when the target is
not a leaf. -/
theorem nm_search_none_iff (leaves : List (List Nat)) (target : List Nat)
    (hs : leaves.Sorted (· ≤ ·)) :
    (nm_search leaves target leaves.length 0 leaves.length).1 = none ↔ target ∉ leaves := by
  obtain ⟨h1, h2⟩ := nm_search_top leaves target hs
  constructor
  · intro hnone hmem
    obtain ⟨_, hlo, hhi⟩ := h2 hnone
    obtain ⟨j, hj, e⟩ := exists_getD_of_mem leaves target hmem
    by_cases hjp : j < (nm_search leaves target leaves.length 0 leaves.length).2
    · exact absurd (hlo j hjp) (by rw [e]; exact lt_irrefl _)
    · exact absurd (hhi j (by omega) hj) (by rw [e]; exact lt_irrefl _)
  · intro hnot
    cases hr : (nm_search leaves target leaves.length 0 leaves.length).1 with
    | none => rfl
    | some mid =>
      obtain ⟨hm, e⟩ := h1 mid hr
      exact absurd (e ▸ getD_mem_of_lt leaves mid hm) hnot

/-- The insertion position is the number of leaves smaller than the target. -/
theorem countP_lt_eq (leaves : List (List Nat)) (target : List Nat) (p : Nat)
    (hp : p ≤ leaves.length) (hlo : ∀ j, j < p → leaves.getD j [] < target)
    (hhi : ∀ j, p ≤ j → j < leaves.length → target < leaves.getD j []) :
    leaves.countP (fun x => decide (x < target)) = p := by
  have hsplit : leaves = leaves.take p ++ leaves.drop p := (List.take_append_drop p leaves).symm
  have h1 : (leaves.take p).countP (fun x => decide (x < target)) = (leaves.take p).length := by
    rw [List.countP_eq_length]
    intro x hx
    obtain ⟨j, hj, e⟩ := List.getElem_of_mem hx
    have hjp : j < p := by
      have := hj
      simp only [List.length_take] at this
      omega
    have hjn : j < leaves.length := by omega
    have := hlo j hjp
    rw [List.getD_eq_getElem?_getD, List.getElem?_eq_getElem hjn] at this
    rw [List.getElem_take] at e
    simpa [← e] using this
  have h2 : (leaves.drop p).countP (fun x => decide (x < target)) = 0 := by
    rw [List.countP_eq_zero]
    intro x hx
    obtain ⟨j, hj, e⟩ := List.getElem_of_mem hx
    have hjn : p + j < leaves.length := by
      have := hj
      simp only [List.length_drop] at this
      omega
    have := hhi (p + j) (by omega) hjn
    rw [List.getD_eq_getElem?_getD, List.getElem?_eq_getElem hjn] at this
    rw [List.getElem_drop] at e
    have hx' : target < x := by simpa [← e] using this
    simpa using le_of_lt hx'
  have hl : (leaves.take p).length = p := by
    simp only [List.length_take]; omega
  conv_lhs => rw [hsplit]
  rw [List.countP_append, h1, h2, hl, Nat.add_zero]

end Project3
namespace Project3

/-- On a non-empty sorted list (of fewer than `SIZE_MAX` leaves) that does not
hold the target, the neighbours reported are those of the insertion position
`p`, the number of leaves smaller than the target: a left one exactly when
`p > 0`, at `p - 1`, and a right one exactly when `p < n`, at `p`. -/
theorem nm_neighbours_nonempty (leaves : List (List Nat)) (levels : Option (List level_t))
    (nlevels : Nat) (target : List Nat) (hne : leaves ≠ []) (hsz : leaves.length < SIZE_MAX)
    (hs : leaves.Sorted (· ≤ ·)) (hnot : target ∉ leaves) :
    ((merkle_non_membership_proof leaves levels nlevels target).left_index ≠ SIZE_MAX ↔
      0 < leaves.countP (fun x => decide (x < target))) ∧
    (0 < leaves.countP (fun x => decide (x < target)) →
      (merkle_non_membership_proof leaves levels nlevels target).left_index
        = leaves.countP (fun x => decide (x < target)) - 1) ∧
    ((merkle_non_membership_proof leaves levels nlevels target).right_index ≠ SIZE_MAX ↔
      leaves.countP (fun x => decide (x < target)) < leaves.length) ∧
    (leaves.countP (fun x => decide (x < target)) < leaves.length →
      (merkle_non_membership_proof leaves levels nlevels target).right_index
        = leaves.countP (fun x => decide (x < target))) := by
  have hr := (nm_search_none_iff leaves target hs).mpr hnot
  obtain ⟨hp, hlo, hhi⟩ := (nm_search_top leaves target hs).2 hr
  obtain ⟨-, hl, hrt⟩ := nm_proof_none_indices leaves levels nlevels target hr
  have hc := countP_lt_eq leaves target _ hp hlo hhi
  have hn : 0 < leaves.length := List.length_pos.mpr hne
  rw [hl, hrt, hc]
  generalize (nm_search leaves target leaves.length 0 leaves.length).2 = p at hp
  have hS : SIZE_MAX = 2 ^ 64 - 1 := rfl
  rw [hS] at hsz ⊢
  refine ⟨?_, ?_, ?_, ?_⟩
  · split <;> omega
  · intro h; rw [if_neg (by omega)]
  · split
    · omega
    · split <;> omega
  · intro h
    split
    · omega
    · rw [if_neg (by omega)]

end Project3
namespace Project3

end Project3
namespace Project3

theorem next_level_data_length (H : List Nat → List Nat) (cur : level_t) :
    (next_level H cur).data.length = (next_level H cur).nodes := by
  simp [next_level]

/-- Every level `merkle_build` writes holds as many hashes as its node count, and
at least one. -/
theorem build_levels_wf (H : List Nat → List Nat) (fuel : Nat) (cur : level_t)
    (h0 : cur.data.length = cur.nodes) (h1 : 1 ≤ cur.nodes) (k : Nat)
    (hk : k < (build_levels H fuel cur).length) :
    ((build_levels H fuel cur).getD k ⟨[], 0⟩).data.length
      = ((build_levels H fuel cur).getD k ⟨[], 0⟩).nodes ∧
    1 ≤ ((build_levels H fuel cur).getD k ⟨[], 0⟩).nodes := by
  induction k with
  | zero => rw [build_levels_head]; exact ⟨h0, h1⟩
  | succ k ih =>
    obtain ⟨-, hpos⟩ := ih (by omega)
    rw [build_levels_chain H ⟨[], 0⟩ fuel cur k hk]
    refine ⟨next_level_data_length H _, ?_⟩
    rw [next_level_nodes]
    omega

/-- The tree `merkle_build` returns for a non-empty leaf list, with the facts the
later statements share. -/
theorem merkle_build_spec (H : List Nat → List Nat) (leaves : List (List Nat))
    (hne : leaves ≠ []) :
    ∃ lv, merkle_build H leaves = some lv ∧ 0 < lv.length ∧
      lv.getD 0 ⟨[], 0⟩ = { data := leaves.map (hash_leaf H), nodes := leaves.length } ∧
      (∀ k, k + 1 < lv.length →
        lv.getD (k + 1) ⟨[], 0⟩ = next_level H (lv.getD k ⟨[], 0⟩)) ∧
      (∀ k, k < lv.length → (lv.getD k ⟨[], 0⟩).data.length = (lv.getD k ⟨[], 0⟩).nodes ∧
        1 ≤ (lv.getD k ⟨[], 0⟩).nodes) ∧
      (lv.getD (lv.length - 1) ⟨[], 0⟩).nodes = 1 := by
  have hn : 0 < leaves.length := List.length_pos.mpr hne
  have hb : merkle_build H leaves = some (build_levels H leaves.length
      { data := leaves.map (hash_leaf H), nodes := leaves.length }) := by
    have hz : ¬ leaves.length = 0 := by omega
    simp only [merkle_build, hz, if_false]
  have hpos := build_levels_length_pos H leaves.length
    { data := leaves.map (hash_leaf H), nodes := leaves.length }
  have hwf := build_levels_wf H leaves.length
    { data := leaves.map (hash_leaf H), nodes := leaves.length } (by simp) hn
  have htop := build_levels_top H ⟨[], 0⟩ leaves.length
    { data := leaves.map (hash_leaf H), nodes := leaves.length } (by show leaves.length ≤ _; omega)
  refine ⟨_, hb, hpos, build_levels_head _ _ _ _, build_levels_chain H ⟨[], 0⟩ _ _, hwf, ?_⟩
  have := (hwf _ (by omega : (build_levels H leaves.length
    { data := leaves.map (hash_leaf H), nodes := leaves.length }).length - 1 < _)).2
  omega

/-- The state of the loop of `merkle_inclusion_proof` after `m` levels. -/
theorem proof_fold_spec (lv : List level_t) (i m : Nat) :
    ((List.range m).foldl (proof_step lv) ⟨i, [], [], 0⟩).idx = i / 2 ^ m ∧
    ((List.range m).foldl (proof_step lv) ⟨i, [], [], 0⟩).proof.length = m ∧
    ((List.range m).foldl (proof_step lv) ⟨i, [], [], 0⟩).dirs.length = m ∧
    ((List.range m).foldl (proof_step lv) ⟨i, [], [], 0⟩).plen = m ∧
    ∀ k, k < m →
      ((List.range m).foldl (proof_step lv) ⟨i, [], [], 0⟩).proof.getD k []
        = sibling_of (lv.getD k ⟨[], 0⟩) (i / 2 ^ k) ∧
      ((List.range m).foldl (proof_step lv) ⟨i, [], [], 0⟩).dirs.getD k 0
        = dir_of (i / 2 ^ k) := by
  induction m with
  | zero => exact ⟨by simp, rfl, rfl, rfl, fun k hk => absurd hk (by omega)⟩
  | succ m ih =>
    obtain ⟨hidx, hP, hD, hpl, hent⟩ := ih
    rw [List.range_succ, List.foldl_append]
    generalize (List.range m).foldl (proof_step lv) ⟨i, [], [], 0⟩ = s at hidx hP hD hpl hent
    simp only [List.foldl_cons, List.foldl_nil, proof_step_eq, List.length_append,
      List.length_singleton, hP, hD, hpl, true_and]
    refine ⟨?_, ?_⟩
    · rw [hidx, Nat.div_div_eq_div_mul, ← Nat.pow_succ]
    · intro k hk
      by_cases hkm : k < m
      · rw [List.getD_append _ _ _ _ (by omega), List.getD_append _ _ _ _ (by omega)]
        exact hent k hkm
      · have e : k = m := by omega
        subst e
        rw [List.getD_append_right _ _ _ _ (by omega),
          List.getD_append_right _ _ _ _ (by omega), hP, hD, hidx]
        simp

end Project3

namespace Project4

/-- The padding `md_pad` returns completes the message to whole blocks. -/
theorem md_pad_aligned (n : Nat) (hn : n + 1 < 2 ^ 64) : (n + (md_pad n).2) % 64 = 0 := by
  have h1 : (n + 1) % 2 ^ 64 = n + 1 := Nat.mod_eq_of_lt hn
  simp only [md_pad, h1]
  split <;> omega

end Project4

namespace Project3

theorem size_half (t : Nat) (ht : t ≠ 0) : Nat.size t = Nat.size (t / 2) + 1 := by
  apply le_antisymm
  · rw [Nat.size_le, pow_succ]
    have := Nat.lt_size_self (t / 2)
    omega
  · rw [Nat.succ_le_iff, Nat.lt_size]
    by_cases h : t / 2 = 0
    · rw [h, Nat.size_zero, pow_zero]
      omega
    · have hpos : 0 < Nat.size (t / 2) := Nat.size_pos.mpr (Nat.pos_of_ne_zero h)
      have h1 : Nat.size (t / 2) - 1 < Nat.size (t / 2) := by omega
      rw [Nat.lt_size] at h1
      have e : 2 ^ Nat.size (t / 2) = 2 ^ (Nat.size (t / 2) - 1) * 2 := by
        rw [← pow_succ]
        congr 1
        omega
      rw [e]
      omega

/-- The loop that computes `max_levels` counts the bits of `t`; it ends by its
own test whenever the budget is at least `t`. -/
theorem max_levels_loop_spec (fuel : Nat) :
    ∀ t acc, t ≤ fuel → max_levels_loop fuel t acc = acc + Nat.size t := by
  induction fuel with
  | zero =>
    intro t acc h
    have e : t = 0 := by omega
    rw [e, Nat.size_zero]
    rfl
  | succ n ih =>
    intro t acc h
    unfold max_levels_loop
    by_cases ht : t ≠ 0
    · rw [if_pos ht, Nat.shiftRight_eq_div_pow, pow_one, ih _ _ (by omega), size_half t ht]
      omega
    · rw [if_neg ht]
      have e : t = 0 := by omega
      rw [e, Nat.size_zero]
      rfl

theorem max_levels_eq (n : Nat) : max_levels n = Nat.size n + 2 := by
  unfold max_levels
  rw [max_levels_loop_spec n n 0 (Nat.le_refl n), Nat.zero_add]

theorem clog_half (n : Nat) (h : 1 < n) : Nat.clog 2 n = Nat.clog 2 ((n + 1) / 2) + 1 := by
  rw [Nat.clog_of_two_le (by decide) h]
  rfl

theorem clog_le_self (n : Nat) : Nat.clog 2 n ≤ n :=
  (Nat.le_pow_iff_clog_le (by decide)).mp (Nat.le_of_lt (Nat.lt_two_pow n))

/-- The number of levels `build_levels` returns, for any sufficient budget. -/
theorem build_levels_length (H : List Nat → List Nat) (fuel : Nat) :
    ∀ cur : level_t, Nat.clog 2 cur.nodes ≤ fuel →
      (build_levels H fuel cur).length = Nat.clog 2 cur.nodes + 1 := by
  induction fuel with
  | zero =>
    intro cur h
    have e : Nat.clog 2 cur.nodes = 0 := by omega
    rw [e]
    rfl
  | succ n ih =>
    intro cur h
    unfold build_levels
    by_cases hn : cur.nodes > 1
    · rw [if_pos hn, List.length_cons, clog_half _ hn]
      rw [clog_half _ hn] at h
      rw [ih (next_level H cur) (by rw [next_level_nodes]; omega), next_level_nodes]
    · rw [if_neg hn, Nat.clog_of_right_le_one (by omega)]
      rfl

theorem build_levels_step (H : List Nat → List Nat) (fuel : Nat) (cur : level_t)
    (h : cur.nodes > 1) :
    build_levels H (fuel + 1) cur = cur :: build_levels H fuel (next_level H cur) := by
  rw [build_levels, if_pos h]

/-- Every level but the last has more than one node: the loop test held there. -/
theorem build_levels_gt_one (H : List Nat → List Nat) (d : level_t) (fuel : Nat) :
    ∀ (cur : level_t) (k : Nat), k + 1 < (build_levels H fuel cur).length →
      ((build_levels H fuel cur).getD k d).nodes > 1 := by
  induction fuel with
  | zero => intro cur k hk; simp [build_levels] at hk
  | succ n ih =>
    intro cur k hk
    unfold build_levels at hk ⊢
    by_cases hn : cur.nodes > 1
    · simp only [hn, if_true, List.length_cons] at hk ⊢
      cases k with
      | zero => simpa only [List.getD_cons_zero] using hn
      | succ k =>
        rw [List.getD_cons_succ]
        exact ih _ k (by omega)
    · simp [hn] at hk

/-- The levels do not depend on the budget once it is sufficient. -/
theorem build_levels_fuel (H : List Nat → List Nat) (fuel : Nat) :
    ∀ (fuel' : Nat) (cur : level_t), Nat.clog 2 cur.nodes ≤ fuel →
      Nat.clog 2 cur.nodes ≤ fuel' → build_levels H fuel cur = build_levels H fuel' cur := by
  induction fuel with
  | zero =>
    intro fuel' cur h h'
    have e : Nat.clog 2 cur.nodes = 0 := by omega
    have hn : ¬ cur.nodes > 1 := fun hgt => by
      have := Nat.clog_pos (by decide : 1 < 2) hgt
      omega
    cases fuel' with
    | zero => rfl
    | succ m =>
      unfold build_levels
      rw [if_neg hn]
  | succ n ih =>
    intro fuel' cur h h'
    by_cases hn : cur.nodes > 1
    · rw [clog_half _ hn] at h h'
      cases fuel' with
      | zero => omega
      | succ m =>
        unfold build_levels
        rw [if_pos hn, if_pos hn,
          ih m (next_level H cur) (by rw [next_level_nodes]; omega)
            (by rw [next_level_nodes]; omega)]
    · cases fuel' with
      | zero =>
        unfold build_levels
        rw [if_neg hn]
      | succ m =>
        unfold build_levels
        rw [if_neg hn, if_neg hn]

/-- Appending a copy of the last leaf to an odd number of leaves does not change
the level above the leaves. -/
theorem next_level_dup (H : List Nat → List Nat) (leaves : List (List Nat))
    (hodd : leaves.length % 2 = 1) :
    next_level H { data := (leaves ++ [leaves.getD (leaves.length - 1) []]).map (hash_leaf H),
                   nodes := (leaves ++ [leaves.getD (leaves.length - 1) []]).length }
      = next_level H { data := leaves.map (hash_leaf H), nodes := leaves.length } := by
  have hnodes : ((leaves ++ [leaves.getD (leaves.length - 1) []]).length + 1) / 2
      = (leaves.length + 1) / 2 := by
    rw [List.length_append, List.length_singleton]
    omega
  unfold next_level
  simp only [hnodes]
  congr 1
  apply List.map_congr_left
  intro i hi
  have hi' : i < (leaves.length + 1) / 2 := List.mem_range.mp hi
  have hl : i * 2 < leaves.length := by omega
  have e0 : ((leaves ++ [leaves.getD (leaves.length - 1) []]).map (hash_leaf H)).getD (i * 2) []
      = (leaves.map (hash_leaf H)).getD (i * 2) [] := by
    rw [List.map_append, List.getD_append _ _ _ _ (by rw [List.length_map]; exact hl)]
  simp only [e0]
  have hlt : i * 2 + 1 < (leaves ++ [leaves.getD (leaves.length - 1) []]).length := by
    rw [List.length_append, List.length_singleton]
    omega
  rw [if_pos hlt]
  by_cases h1 : i * 2 + 1 < leaves.length
  · rw [if_pos h1, List.map_append,
      List.getD_append _ _ _ _ (by rw [List.length_map]; exact h1)]
  · rw [if_neg h1]
    have e : i * 2 + 1 = leaves.length := by omega
    rw [List.map_append, List.getD_append_right _ _ _ _ (by rw [List.length_map]; omega),
      List.length_map, e, Nat.sub_self]
    have e2 : i * 2 = leaves.length - 1 := by omega
    rw [e2, map_getD_of_lt _ _ _ (by omega)]
    rfl

end Project3

namespace Project1

theorem sbox_lt : ∀ i, SM4_SBOX.getD i 0 < 256 := fun i =>
  getD_lt_of_forall SM4_SBOX i 256 (by decide) (by decide)

theorem sbox_inv_lt : ∀ v, SM4_SBOX_inv.getD v 0 < 256 := fun v =>
  getD_lt_of_forall SM4_SBOX_inv v 256 (by decide) (by decide)

theorem sbox_inv_sbox : ∀ i, i < 256 → SM4_SBOX_inv.getD (SM4_SBOX.getD i 0) 0 = i := by
  decide

theorem sbox_sbox_inv : ∀ v, v < 256 → SM4_SBOX.getD (SM4_SBOX_inv.getD v 0) 0 = v := by
  decide

/-- The word `sm4_tau` returns, as a sum of its four substituted bytes. -/
theorem sm4_tau_eq (A : Nat) :
    sm4_tau A = SM4_SBOX.getD (A / 2 ^ 24 % 256) 0 * 16777216
      + SM4_SBOX.getD (A / 2 ^ 16 % 256) 0 * 65536
      + SM4_SBOX.getD (A / 2 ^ 8 % 256) 0 * 256 + SM4_SBOX.getD (A % 256) 0 := by
  simp only [sm4_tau, Bits.and_ff, Nat.shiftRight_eq_div_pow]
  exact Bits.be32_combine _ _ _ _ (sbox_lt _) (sbox_lt _) (sbox_lt _) (sbox_lt _)

theorem sm4_tau_lt (A : Nat) : sm4_tau A < 2 ^ 32 := Nat.mod_lt _ (by norm_num)

theorem sm4_tau_inv_lt (A : Nat) : sm4_tau_inv A < 2 ^ 32 := by
  have h0 := sbox_inv_lt (A / 2 ^ 24 % 256)
  have h1 := sbox_inv_lt (A / 2 ^ 16 % 256)
  have h2 := sbox_inv_lt (A / 2 ^ 8 % 256)
  have h3 := sbox_inv_lt (A % 256)
  unfold sm4_tau_inv
  omega

theorem sm4_tau_inv_tau (x : Nat) (hx : x < 2 ^ 32) : sm4_tau_inv (sm4_tau x) = x := by
  have h0 := sbox_lt (x / 2 ^ 24 % 256)
  have h1 := sbox_lt (x / 2 ^ 16 % 256)
  have h2 := sbox_lt (x / 2 ^ 8 % 256)
  have h3 := sbox_lt (x % 256)
  have i0 := sbox_inv_sbox (x / 2 ^ 24 % 256) (Nat.mod_lt _ (by norm_num))
  have i1 := sbox_inv_sbox (x / 2 ^ 16 % 256) (Nat.mod_lt _ (by norm_num))
  have i2 := sbox_inv_sbox (x / 2 ^ 8 % 256) (Nat.mod_lt _ (by norm_num))
  have i3 := sbox_inv_sbox (x % 256) (Nat.mod_lt _ (by norm_num))
  rw [sm4_tau_eq]
  generalize SM4_SBOX.getD (x / 2 ^ 24 % 256) 0 = s0 at h0 i0
  generalize SM4_SBOX.getD (x / 2 ^ 16 % 256) 0 = s1 at h1 i1
  generalize SM4_SBOX.getD (x / 2 ^ 8 % 256) 0 = s2 at h2 i2
  generalize SM4_SBOX.getD (x % 256) 0 = s3 at h3 i3
  have e0 : (s0 * 16777216 + s1 * 65536 + s2 * 256 + s3) / 2 ^ 24 % 256 = s0 := by omega
  have e1 : (s0 * 16777216 + s1 * 65536 + s2 * 256 + s3) / 2 ^ 16 % 256 = s1 := by omega
  have e2 : (s0 * 16777216 + s1 * 65536 + s2 * 256 + s3) / 2 ^ 8 % 256 = s2 := by omega
  have e3 : (s0 * 16777216 + s1 * 65536 + s2 * 256 + s3) % 256 = s3 := by omega
  unfold sm4_tau_inv
  rw [e0, e1, e2, e3, i0, i1, i2, i3]
  omega

theorem sm4_tau_tau_inv (y : Nat) (hy : y < 2 ^ 32) : sm4_tau (sm4_tau_inv y) = y := by
  have h0 := sbox_inv_lt (y / 2 ^ 24 % 256)
  have h1 := sbox_inv_lt (y / 2 ^ 16 % 256)
  have h2 := sbox_inv_lt (y / 2 ^ 8 % 256)
  have h3 := sbox_inv_lt (y % 256)
  have i0 := sbox_sbox_inv (y / 2 ^ 24 % 256) (Nat.mod_lt _ (by norm_num))
  have i1 := sbox_sbox_inv (y / 2 ^ 16 % 256) (Nat.mod_lt _ (by norm_num))
  have i2 := sbox_sbox_inv (y / 2 ^ 8 % 256) (Nat.mod_lt _ (by norm_num))
  have i3 := sbox_sbox_inv (y % 256) (Nat.mod_lt _ (by norm_num))
  rw [sm4_tau_eq]
  unfold sm4_tau_inv
  generalize SM4_SBOX_inv.getD (y / 2 ^ 24 % 256) 0 = s0 at h0 i0
  generalize SM4_SBOX_inv.getD (y / 2 ^ 16 % 256) 0 = s1 at h1 i1
  generalize SM4_SBOX_inv.getD (y / 2 ^ 8 % 256) 0 = s2 at h2 i2
  generalize SM4_SBOX_inv.getD (y % 256) 0 = s3 at h3 i3
  have e0 : (s0 * 2 ^ 24 + s1 * 2 ^ 16 + s2 * 2 ^ 8 + s3) / 2 ^ 24 % 256 = s0 := by omega
  have e1 : (s0 * 2 ^ 24 + s1 * 2 ^ 16 + s2 * 2 ^ 8 + s3) / 2 ^ 16 % 256 = s1 := by omega
  have e2 : (s0 * 2 ^ 24 + s1 * 2 ^ 16 + s2 * 2 ^ 8 + s3) / 2 ^ 8 % 256 = s2 := by omega
  have e3 : (s0 * 2 ^ 24 + s1 * 2 ^ 16 + s2 * 2 ^ 8 + s3) % 256 = s3 := by omega
  rw [e0, e1, e2, e3, i0, i1, i2, i3]
  omega

end Project1

/-! ## The claims -/

/-- C1: for Project4/sm3.c, `sm3_hash` of the three bytes "abc" is
66C7F0F4 62EEEDD9 D1F2D46B DC10E4E2 4167C487 5CF2F7A2 297DA02B 8F4BA8E0 and
`sm3_hash` of the empty input is
1AB21D83 55CFA17F 8E611948 31E81A8F 22BEC8C7 28FEFB74 7ED035EB 5082AA2B. -/
theorem sm3_hash_test_vectors :
    Project4.sm3_hash [0x61, 0x62, 0x63] =
      [0x66, 0xC7, 0xF0, 0xF4, 0x62, 0xEE, 0xED, 0xD9, 0xD1, 0xF2, 0xD4, 0x6B,
       0xDC, 0x10, 0xE4, 0xE2, 0x41, 0x67, 0xC4, 0x87, 0x5C, 0xF2, 0xF7, 0xA2,
       0x29, 0x7D, 0xA0, 0x2B, 0x8F, 0x4B, 0xA8, 0xE0] ∧
    Project4.sm3_hash [] =
      [0x1A, 0xB2, 0x1D, 0x83, 0x55, 0xCF, 0xA1, 0x7F, 0x8E, 0x61, 0x19, 0x48,
       0x31, 0xE8, 0x1A, 0x8F, 0x22, 0xBE, 0xC8, 0xC7, 0x28, 0xFE, 0xFB, 0x74,
       0x7E, 0xD0, 0x35, 0xEB, 0x50, 0x82, 0xAA, 0x2B] := by
  constructor <;> decide

/-- C2: SM3 streaming does not depend on how the input is split.  For every
context storage `c0` (with its 64-byte buffer in any state), every byte string
`x` and every split point `k`, `sm3_init`, `sm3_update(x[0..k])`,
`sm3_update(x[k..])`, `sm3_final` gives the same digest as `sm3_init`,
`sm3_update(x)`, `sm3_final`. -/
theorem sm3_update_split (c0 : Project4.sm3_ctx) (x : List Nat) (k : Nat)
    (hbuf : c0.buffer.length = 64) :
    (Project4.sm3_final (Project4.sm3_update
        (Project4.sm3_update (Project4.sm3_init c0) (x.take k)) (x.drop k))).2 =
      (Project4.sm3_final (Project4.sm3_update (Project4.sm3_init c0) x)).2 := by
  have ok0 := Project4.sm3_init_ok c0 hbuf
  obtain ⟨ok1, ab1, bl1⟩ := Project4.sm3_update_spec _ (x.take k) ok0
  obtain ⟨ok2, ab2, bl2⟩ := Project4.sm3_update_spec _ (x.drop k) ok1
  obtain ⟨ok3, ab3, bl3⟩ := Project4.sm3_update_spec _ x ok0
  apply Project4.sm3_final_congr _ _ ok2 ok3
  · rw [ab2, ab1, ab3, Project4.absorb_absorb, List.take_append_drop]
  · rw [bl2, bl1, bl3]
    have e : (x.take k).length + (x.drop k).length = x.length := by
      rw [← List.length_append, List.take_append_drop]
    omega

/-- Witness for `sm3_update_split`: the input "abc" split after its first byte. -/
theorem sm3_update_split_witness :
    Project4.fresh_ctx.buffer.length = 64 ∧
    (Project4.sm3_final (Project4.sm3_update
        (Project4.sm3_update (Project4.sm3_init Project4.fresh_ctx) ([0x61, 0x62, 0x63].take 1))
        ([0x61, 0x62, 0x63].drop 1))).2 =
      (Project4.sm3_final (Project4.sm3_update (Project4.sm3_init Project4.fresh_ctx)
        [0x61, 0x62, 0x63])).2 :=
  ⟨by decide, sm3_update_split Project4.fresh_ctx [0x61, 0x62, 0x63] 1 (by decide)⟩

/-- C3: for every byte string `m` with `8 * |m| < 2 ^ 64`, and `k` the least
natural number with `|m| + 1 + k ≡ 56 (mod 64)`, the string
`m ‖ 0x80 ‖ 0^k ‖ be64 (8 * |m|)` has a length that is a multiple of 64 and
`sm3_hash m` is the big-endian serialisation of the state obtained by folding
`sm3_compress`, from `IV`, over its consecutive 64-byte blocks.  `sm3_final`
leaves `buffer_len = 0`, after `sm3_hash`'s calls and on every context with a
64-byte buffer and fewer than 64 pending bytes. -/
theorem sm3_hash_padding (m : List Nat) (k : Nat) (hm : 8 * m.length < 2 ^ 64)
    (hk : (m.length + 1 + k) % 64 = 56)
    (hmin : ∀ j, j < k → (m.length + 1 + j) % 64 ≠ 56) :
    (m ++ [0x80] ++ List.replicate k 0 ++ Project4.be64 (8 * m.length)).length % 64 = 0 ∧
    Project4.sm3_hash m = Project4.state_bytes
      ((Project4.blocks
          ((m ++ [0x80] ++ List.replicate k 0 ++ Project4.be64 (8 * m.length)).length / 64)
          (m ++ [0x80] ++ List.replicate k 0 ++ Project4.be64 (8 * m.length))).foldl
        Project4.sm3_compress Project4.IV) ∧
    (Project4.sm3_final
      (Project4.sm3_update (Project4.sm3_init Project4.fresh_ctx) m)).1.buffer_len = 0 ∧
    ∀ c : Project4.sm3_ctx, c.buffer.length = 64 → c.buffer_len < 64 →
      (Project4.sm3_final c).1.buffer_len = 0 := by
  have ok0 := Project4.sm3_init_ok Project4.fresh_ctx rfl
  obtain ⟨ok1, ab1, bl1⟩ := Project4.sm3_update_spec _ m ok0
  have hb : (Project4.sm3_update (Project4.sm3_init Project4.fresh_ctx) m).bitlen
      = 8 * m.length := by
    rw [bl1]
    show (0 + (m.length * 8) % 2 ^ 64) % 2 ^ 64 = 8 * m.length
    omega
  have hp : Project4.pending (Project4.sm3_init Project4.fresh_ctx) = [] := rfl
  rw [hp] at ab1
  have key := Project4.sm3_stream_spec _ m ok1 ab1
  rw [hb, Project4.final_pad_eq _ k hm hk hmin] at key
  simp only [← List.append_assoc] at key
  refine ⟨?_, key, (Project4.sm3_digest_spec _ ok1).2,
    fun c h1 h2 => (Project4.sm3_digest_spec c ⟨h1, h2⟩).2⟩
  have hk64 : k < 64 := by
    by_contra hge
    exact hmin (k - 64) (by omega) (by omega)
  simp only [List.length_append, List.length_cons, List.length_nil, List.length_replicate,
    Project4.be64]
  omega

/-- Witness for `sm3_hash_padding`: the input "abc", with 52 zero bytes of padding. -/
theorem sm3_hash_padding_witness :
    (8 * [0x61, 0x62, 0x63].length < 2 ^ 64 ∧ ([0x61, 0x62, 0x63].length + 1 + 52) % 64 = 56 ∧
      ∀ j, j < 52 → ([0x61, 0x62, 0x63].length + 1 + j) % 64 ≠ 56) ∧
    Project4.sm3_hash [0x61, 0x62, 0x63] = Project4.state_bytes
      ((Project4.blocks
          (([0x61, 0x62, 0x63] ++ [0x80] ++ List.replicate 52 0
              ++ Project4.be64 (8 * [0x61, 0x62, 0x63].length)).length / 64)
          ([0x61, 0x62, 0x63] ++ [0x80] ++ List.replicate 52 0
              ++ Project4.be64 (8 * [0x61, 0x62, 0x63].length))).foldl
        Project4.sm3_compress Project4.IV) :=
  have h3 : ∀ j, j < 52 → ([0x61, 0x62, 0x63].length + 1 + j) % 64 ≠ 56 := by
    intro j hj; simp only [List.length_cons, List.length_nil]; omega
  ⟨⟨by decide, by decide, h3⟩,
    (sm3_hash_padding [0x61, 0x62, 0x63] 52 (by decide) (by decide) h3).2.1⟩

/-- C4 (the code departs from the claim): after `build_t_tables`, with
`rk = sm4_key_schedule(key)` for the key 01 23 45 67 89 AB CD EF FE DC BA 98 76 54
32 10, `sm4_encrypt_block_ttable` on the plaintext equal to the key returns
F8 E8 01 0A E1 1D 38 B5 65 63 D9 A4 2B C0 F2 7D, not the standard ciphertext
68 1E DF 34 D2 06 96 5E 86 B3 E9 4F 53 6E 42 46. -/
theorem sm4_test_vector_diverges :
    Project1.sm4_encrypt_block_ttable (Project1.build_t_tables Project1.ttables.zero)
        Project1.test_key (Project1.sm4_key_schedule Project1.test_key) =
      [0xF8, 0xE8, 0x01, 0x0A, 0xE1, 0x1D, 0x38, 0xB5, 0x65, 0x63, 0xD9, 0xA4, 0x2B, 0xC0,
       0xF2, 0x7D] ∧
    Project1.sm4_encrypt_block_ttable (Project1.build_t_tables Project1.ttables.zero)
        Project1.test_key (Project1.sm4_key_schedule Project1.test_key) ≠
      [0x68, 0x1E, 0xDF, 0x34, 0xD2, 0x06, 0x96, 0x5E, 0x86, 0xB3, 0xE9, 0x4F, 0x53, 0x6E,
       0x42, 0x46] := by
  have h : Project1.sm4_encrypt_block_ttable (Project1.build_t_tables Project1.ttables.zero)
        Project1.test_key (Project1.sm4_key_schedule Project1.test_key) =
      [0xF8, 0xE8, 0x01, 0x0A, 0xE1, 0x1D, 0x38, 0xB5, 0x65, 0x63, 0xD9, 0xA4, 0x2B, 0xC0,
       0xF2, 0x7D] := by decide
  refine ⟨h, ?_⟩
  rw [h]
  decide

/-- C5: SM4 round trip.  With the tables built by `build_t_tables` and
`rk = sm4_key_schedule(k)`, running `sm4_encrypt_block_ttable` on a 16-byte
block `p` and then again on the result with the round keys in reverse order
gives back `p`, for every key `k`. -/
theorem sm4_round_trip (p k : List Nat) (hp : p.length = 16) (hb : ∀ b ∈ p, b < 256) :
    Project1.sm4_encrypt_block_ttable (Project1.build_t_tables Project1.ttables.zero)
      (Project1.sm4_encrypt_block_ttable (Project1.build_t_tables Project1.ttables.zero) p
        (Project1.sm4_key_schedule k))
      (Project1.sm4_key_schedule k).reverse = p := by
  have hrk := Project1.sm4_key_schedule_length k
  have hok := Project1.build_t_tables_ok
  rw [Project1.encrypt_eq_fold _ p _ hrk,
    Project1.encrypt_eq_fold _ _ _ (by rw [List.length_reverse]; exact hrk),
    Project1.load_store_quad, Project1.feistel_inverse]
  · rw [Project1.qrev_qrev, Project1.store_load_quad p hp hb]
  · exact Project1.qrev_ok _ (Project1.foldl_qstep_ok _ hok _ _ (Project1.load_quad_ok p))

/-- Witness for `sm4_round_trip`: the block and key of `main`. -/
theorem sm4_round_trip_witness :
    (Project1.test_key.length = 16 ∧ ∀ b ∈ Project1.test_key, b < 256) ∧
    Project1.sm4_encrypt_block_ttable (Project1.build_t_tables Project1.ttables.zero)
      (Project1.sm4_encrypt_block_ttable (Project1.build_t_tables Project1.ttables.zero)
        Project1.test_key (Project1.sm4_key_schedule Project1.test_key))
      (Project1.sm4_key_schedule Project1.test_key).reverse = Project1.test_key :=
  ⟨⟨by decide, by decide⟩, sm4_round_trip Project1.test_key Project1.test_key (by decide)
    (by decide)⟩

/-- C6: for every four blocks `b0 .. b3` and every round-key vector `rk` (and
whatever the static tables hold), `sm4_encrypt_4blocks_ttable` writes to
`out[i]` exactly the bytes `sm4_encrypt_block_ttable` produces on `b_i`. -/
theorem sm4_4way_eq_single (tt : Project1.ttables) (b0 b1 b2 b3 rk : List Nat) :
    Project1.sm4_encrypt_4blocks_ttable tt [b0, b1, b2, b3] rk =
      [Project1.sm4_encrypt_block_ttable tt b0 rk, Project1.sm4_encrypt_block_ttable tt b1 rk,
       Project1.sm4_encrypt_block_ttable tt b2 rk, Project1.sm4_encrypt_block_ttable tt b3 rk] := by
  simp only [Project1.sm4_encrypt_4blocks_ttable, Project1.load_4blocks_eq,
    Project1.rounds4_eq, Project1.store_4blocks_eq, Project1.sm4_encrypt_block_ttable]

/-- C7: Merkle soundness, for any hash function `H` in place of `sm3_hash`.  For
every list of leaves and every index `i` below the leaf count, `merkle_build`
returns a tree, `merkle_inclusion_proof` on it returns 0 with a proof, and
`merkle_verify_inclusion` of `merkle_root`, leaf `i`, that proof and `i`
returns 1. -/
theorem merkle_soundness (H : List Nat → List Nat) (leaves : List (List Nat)) (i : Nat)
    (hi : i < leaves.length) :
    ∃ lv proof dirs len, Project3.merkle_build H leaves = some lv ∧
      Project3.merkle_inclusion_proof (some lv) lv.length i = (0, some (proof, dirs, len)) ∧
      Project3.merkle_verify_inclusion H (Project3.merkle_root lv lv.length)
        (leaves.getD i []) proof dirs len i = 1 :=
  Project3.inclusion_proof_verifies H leaves i i hi

/-- Witness for `merkle_soundness`: three one-byte leaves, index 2, and the
identity in place of the hash function. -/
theorem merkle_soundness_witness :
    2 < [[1], [2], [3]].length ∧
    ∃ lv proof dirs len, Project3.merkle_build id [[1], [2], [3]] = some lv ∧
      Project3.merkle_inclusion_proof (some lv) lv.length 2 = (0, some (proof, dirs, len)) ∧
      Project3.merkle_verify_inclusion id (Project3.merkle_root lv lv.length)
        ([[1], [2], [3]].getD 2 []) proof dirs len 2 = 1 :=
  ⟨by decide, merkle_soundness id [[1], [2], [3]] 2 (by decide)⟩

/-- C8 (counterexample to the claim as stated): on the tree over the two leaves
"a" and "b", hashed with the `sm3_hash` of Project3, the inclusion proof of leaf 0
still verifies when `leaf_index` is changed from 0 to 1. -/
theorem merkle_index_not_bound :
    ∃ lv proof dirs len,
      Project3.merkle_build Project3.sm3_hash [[0x61], [0x62]] = some lv ∧
      Project3.merkle_inclusion_proof (some lv) lv.length 0 = (0, some (proof, dirs, len)) ∧
      Project3.merkle_verify_inclusion Project3.sm3_hash (Project3.merkle_root lv lv.length)
        [0x61] proof dirs len 1 = 1 :=
  Project3.inclusion_proof_verifies Project3.sm3_hash [[0x61], [0x62]] 0 1 (by decide)

/-- C8 (amended): `merkle_verify_inclusion` does not bind the index.  For every
hash function `H`, every list of leaves, every valid index `i` and every `j`,
verifying the inclusion proof of leaf `i` with `leaf_index = j` returns 1: the
directions come from the proof, and `leaf_index` has no influence on the verdict. -/
theorem merkle_verify_ignores_index (H : List Nat → List Nat) (leaves : List (List Nat))
    (i j : Nat) (hi : i < leaves.length) :
    ∃ lv proof dirs len, Project3.merkle_build H leaves = some lv ∧
      Project3.merkle_inclusion_proof (some lv) lv.length i = (0, some (proof, dirs, len)) ∧
      Project3.merkle_verify_inclusion H (Project3.merkle_root lv lv.length)
        (leaves.getD i []) proof dirs len j = 1 :=
  Project3.inclusion_proof_verifies H leaves i j hi

/-- Witness for `merkle_verify_ignores_index`: three one-byte leaves, the proof
of leaf 2 verified with `leaf_index = 0`, the identity in place of the hash. -/
theorem merkle_verify_ignores_index_witness :
    2 < [[1], [2], [3]].length ∧
    ∃ lv proof dirs len, Project3.merkle_build id [[1], [2], [3]] = some lv ∧
      Project3.merkle_inclusion_proof (some lv) lv.length 2 = (0, some (proof, dirs, len)) ∧
      Project3.merkle_verify_inclusion id (Project3.merkle_root lv lv.length)
        ([[1], [2], [3]].getD 2 []) proof dirs len 0 = 1 :=
  ⟨by decide, merkle_verify_ignores_index id [[1], [2], [3]] 2 0 (by decide)⟩

/-- C9: length-extension success.  For every secret, known message `m` and suffix
`s` whose bit counts fit in 64 bits, with `tag = server_mac(secret, m)`, the
forgery `do_lenext_attack(tag, m, s, guess = |secret|)` returns is accepted by
`server_verify`, i.e. `SM3(secret ‖ forged_msg) = forged_tag`; hence, when
`1 ≤ |secret| ≤ 64`, the search over the guesses `1 .. 64` ends with a forgery
that `server_verify` accepts. -/
theorem lenext_attack_succeeds (secret m s : List Nat)
    (hlen : 8 * (secret.length + m.length + s.length + 144) < 2 ^ 64) :
    Project4.server_verify secret
      ((Project4.do_lenext_attack (Project4.server_mac secret m) m s
          secret.length).forged_msg.take
        (Project4.do_lenext_attack (Project4.server_mac secret m) m s secret.length).forged_len)
      (Project4.do_lenext_attack (Project4.server_mac secret m) m s secret.length).forged_tag
      = 1 ∧
    Project4.server_mac secret
      (Project4.do_lenext_attack (Project4.server_mac secret m) m s secret.length).forged_msg
      = (Project4.do_lenext_attack (Project4.server_mac secret m) m s
          secret.length).forged_tag ∧
    (1 ≤ secret.length → secret.length ≤ 64 →
      ∃ r, Project4.lenext_search secret (Project4.server_mac secret m) m s = some r ∧
        Project4.server_verify secret (r.forged_msg.take r.forged_len) r.forged_tag = 1) := by
  have hcore := Project4.lenext_core secret m s (by omega)
  have htake := Project4.forged_take (Project4.server_mac secret m) m s secret.length
    (by omega)
  have hv : Project4.server_verify secret
      ((Project4.do_lenext_attack (Project4.server_mac secret m) m s
          secret.length).forged_msg.take
        (Project4.do_lenext_attack (Project4.server_mac secret m) m s secret.length).forged_len)
      (Project4.do_lenext_attack (Project4.server_mac secret m) m s secret.length).forged_tag
      = 1 := by
    rw [htake]
    exact (Project4.server_verify_eq_one _ _ _).mpr hcore
  refine ⟨hv, hcore, ?_⟩
  intro h1 h64
  have hsome : (Project4.lenext_search secret (Project4.server_mac secret m) m s).isSome := by
    unfold Project4.lenext_search
    rw [List.findSome?_isSome_iff]
    refine ⟨secret.length, List.mem_range'_1.mpr ⟨h1, by omega⟩, ?_⟩
    simp only [hv]
    rfl
  obtain ⟨r, hr⟩ := Option.isSome_iff_exists.mp hsome
  refine ⟨r, hr, ?_⟩
  unfold Project4.lenext_search at hr
  obtain ⟨g, -, hg⟩ := List.exists_of_findSome?_eq_some hr
  by_cases hne : Project4.server_verify secret
      ((Project4.do_lenext_attack (Project4.server_mac secret m) m s g).forged_msg.take
        (Project4.do_lenext_attack (Project4.server_mac secret m) m s g).forged_len)
      (Project4.do_lenext_attack (Project4.server_mac secret m) m s g).forged_tag ≠ 0
  · rw [if_pos hne] at hg
    have hg' := Option.some.inj hg
    subst hg'
    rcases Project4.server_verify_cases secret
      ((Project4.do_lenext_attack (Project4.server_mac secret m) m s g).forged_msg.take
        (Project4.do_lenext_attack (Project4.server_mac secret m) m s g).forged_len)
      (Project4.do_lenext_attack (Project4.server_mac secret m) m s g).forged_tag with h | h
    · exact h
    · exact absurd h hne
  · rw [if_neg hne] at hg
    exact absurd hg (by simp)

/-- Witness for `lenext_attack_succeeds`: a five-byte secret, a three-byte message
and a two-byte suffix. -/
theorem lenext_attack_succeeds_witness :
    8 * ([1, 2, 3, 4, 5].length + [9, 9, 9].length + [7, 7].length + 144) < 2 ^ 64 ∧
    Project4.server_mac [1, 2, 3, 4, 5]
      (Project4.do_lenext_attack (Project4.server_mac [1, 2, 3, 4, 5] [9, 9, 9]) [9, 9, 9]
        [7, 7] [1, 2, 3, 4, 5].length).forged_msg
      = (Project4.do_lenext_attack (Project4.server_mac [1, 2, 3, 4, 5] [9, 9, 9]) [9, 9, 9]
          [7, 7] [1, 2, 3, 4, 5].length).forged_tag ∧
    ∃ r, Project4.lenext_search [1, 2, 3, 4, 5] (Project4.server_mac [1, 2, 3, 4, 5] [9, 9, 9])
        [9, 9, 9] [7, 7] = some r ∧
      Project4.server_verify [1, 2, 3, 4, 5] (r.forged_msg.take r.forged_len) r.forged_tag = 1 :=
  ⟨by decide, (lenext_attack_succeeds [1, 2, 3, 4, 5] [9, 9, 9] [7, 7] (by decide)).2.1,
    (lenext_attack_succeeds [1, 2, 3, 4, 5] [9, 9, 9] [7, 7] (by decide)).2.2
      (by decide) (by decide)⟩

/-- C10 (the code departs from the claim): on the state `IV` and the one padded
block of "abc", `sm3_compress` of Project3/sm3_opt.c returns
0DA9727C 131A1C44 A24EAB5E 01E161ED 5212FF67 0B0D7977 CFD5AB5B 51F83C31, which is
not what `sm3_compress` of Project4/sm3.c returns; so the two `sm3_hash` disagree
on "abc". -/
theorem sm3_opt_compress_diverges :
    Project3.sm3_compress Project4.IV
        ([0x61, 0x62, 0x63, 0x80] ++ List.replicate 59 0 ++ [0x18]) =
      [0x0DA9727C, 0x131A1C44, 0xA24EAB5E, 0x01E161ED, 0x5212FF67, 0x0B0D7977, 0xCFD5AB5B,
       0x51F83C31] ∧
    Project3.sm3_compress Project4.IV
        ([0x61, 0x62, 0x63, 0x80] ++ List.replicate 59 0 ++ [0x18]) ≠
      Project4.sm3_compress Project4.IV
        ([0x61, 0x62, 0x63, 0x80] ++ List.replicate 59 0 ++ [0x18]) ∧
    Project3.sm3_hash [0x61, 0x62, 0x63] ≠ Project4.sm3_hash [0x61, 0x62, 0x63] := by
  refine ⟨?_, ?_, ?_⟩ <;> decide

/-- C15: for every list of leaves sorted in byte-lexicographic order (a proper
prefix is smaller), whatever tree is passed along, `merkle_non_membership_proof`
returns `found = 1` if and only if the target is one of the leaves, and then
`found_index` is the index of a leaf equal to the target. -/
theorem nm_found_iff_mem (leaves : List (List Nat)) (levels : Option (List Project3.level_t))
    (nlevels : Nat) (target : List Nat) (hs : leaves.Sorted (· ≤ ·)) :
    ((Project3.merkle_non_membership_proof leaves levels nlevels target).found = 1
      ↔ target ∈ leaves) ∧
    ((Project3.merkle_non_membership_proof leaves levels nlevels target).found = 1 →
      (Project3.merkle_non_membership_proof leaves levels nlevels target).found_index
        < leaves.length ∧
      leaves.getD
        (Project3.merkle_non_membership_proof leaves levels nlevels target).found_index []
        = target) := by
  obtain ⟨h1, -⟩ := Project3.nm_search_top leaves target hs
  have hiff := Project3.nm_search_none_iff leaves target hs
  cases hr : (Project3.nm_search leaves target leaves.length 0 leaves.length).1 with
  | none =>
    obtain ⟨hf, -⟩ := Project3.nm_proof_none_indices leaves levels nlevels target hr
    have hnot : target ∉ leaves := hiff.mp hr
    rw [hf]
    exact ⟨⟨fun h => absurd h (by decide), fun h => absurd h hnot⟩,
      fun h => absurd h (by decide)⟩
  | some mid =>
    obtain ⟨hf, hidx⟩ := Project3.nm_proof_of_some leaves levels nlevels target mid hr
    obtain ⟨hm, e⟩ := h1 mid hr
    rw [hf, hidx]
    exact ⟨⟨fun _ => e ▸ Project3.getD_mem_of_lt leaves mid hm, fun _ => rfl⟩,
      fun _ => ⟨hm, e⟩⟩

/-- Witness for `nm_found_iff_mem`: the four leaves "leaf-00000000" ..
"leaf-00000003" and the target "leaf-00000001". -/
theorem nm_found_iff_mem_witness :
    Project3.demo_leaves.Sorted (· ≤ ·) ∧
    ((Project3.merkle_non_membership_proof Project3.demo_leaves none 0
        (Project3.demo_leaves.getD 1 [])).found = 1
      ↔ Project3.demo_leaves.getD 1 [] ∈ Project3.demo_leaves) :=
  ⟨by decide,
    (nm_found_iff_mem Project3.demo_leaves none 0 (Project3.demo_leaves.getD 1 [])
      (by decide)).1⟩

/-- C16 (the code departs from the claim): on the empty leaf list, with the
`NULL` tree `merkle_build` returns for it, the insertion position of the target
"a" is 0 = n, so there is no right neighbour; `merkle_non_membership_proof`
nevertheless reports `right_index = 0`, not `SIZE_MAX`, with no proof attached. -/
theorem nm_empty_reports_right :
    (Project3.merkle_non_membership_proof [] none 0 [0x61]).found = 0 ∧
    (Project3.merkle_non_membership_proof [] none 0 [0x61]).left_index = Project3.SIZE_MAX ∧
    (Project3.merkle_non_membership_proof [] none 0 [0x61]).right_index = 0 ∧
    (Project3.merkle_non_membership_proof [] none 0 [0x61]).right_index ≠ Project3.SIZE_MAX ∧
    (Project3.merkle_non_membership_proof [] none 0 [0x61]).right_proof_hashes = none ∧
    ([] : List (List Nat)).countP (fun x => decide (x < [0x61])) = 0 := by
  decide

/-- C17: for every non-empty sorted leaf list and every target not in it, whatever
tree is passed along, the neighbours `merkle_non_membership_proof` returns
bracket the target: a left index other than `SIZE_MAX` is below `n` and its leaf
is strictly smaller than the target, a right index other than `SIZE_MAX` is below
`n` and its leaf is strictly greater, and when both are returned
`right_index = left_index + 1`.  For the leaves "leaf-00000000" ..
"leaf-00000003" and the target "leaf-00000002a" the result is `left_index = 2`,
`right_index = 3`. -/
theorem nm_neighbours_bracket (leaves : List (List Nat))
    (levels : Option (List Project3.level_t)) (nlevels : Nat) (target : List Nat)
    (hne : leaves ≠ []) (hs : leaves.Sorted (· ≤ ·)) (hnot : target ∉ leaves) :
    ((Project3.merkle_non_membership_proof leaves levels nlevels target).left_index
        ≠ Project3.SIZE_MAX →
      (Project3.merkle_non_membership_proof leaves levels nlevels target).left_index
        < leaves.length ∧
      leaves.getD
        (Project3.merkle_non_membership_proof leaves levels nlevels target).left_index []
        < target) ∧
    ((Project3.merkle_non_membership_proof leaves levels nlevels target).right_index
        ≠ Project3.SIZE_MAX →
      (Project3.merkle_non_membership_proof leaves levels nlevels target).right_index
        < leaves.length ∧
      target < leaves.getD
        (Project3.merkle_non_membership_proof leaves levels nlevels target).right_index []) ∧
    ((Project3.merkle_non_membership_proof leaves levels nlevels target).left_index
        ≠ Project3.SIZE_MAX →
      (Project3.merkle_non_membership_proof leaves levels nlevels target).right_index
        ≠ Project3.SIZE_MAX →
      (Project3.merkle_non_membership_proof leaves levels nlevels target).right_index
        = (Project3.merkle_non_membership_proof leaves levels nlevels target).left_index + 1) ∧
    (Project3.merkle_non_membership_proof Project3.demo_leaves levels nlevels
        (Project3.demo_leaves.getD 2 [] ++ [0x61])).left_index = 2 ∧
    (Project3.merkle_non_membership_proof Project3.demo_leaves levels nlevels
        (Project3.demo_leaves.getD 2 [] ++ [0x61])).right_index = 3 := by
  have hr := (Project3.nm_search_none_iff leaves target hs).mpr hnot
  obtain ⟨hp, hlo, hhi⟩ := (Project3.nm_search_top leaves target hs).2 hr
  obtain ⟨-, hl, hrt⟩ := Project3.nm_proof_none_indices leaves levels nlevels target hr
  have hn : 0 < leaves.length := List.length_pos.mpr hne
  have hd : (Project3.nm_search Project3.demo_leaves
      (Project3.demo_leaves.getD 2 [] ++ [0x61]) Project3.demo_leaves.length 0
      Project3.demo_leaves.length) = (none, 3) := by decide
  obtain ⟨-, hdl, hdr⟩ := Project3.nm_proof_none_indices Project3.demo_leaves levels nlevels
    (Project3.demo_leaves.getD 2 [] ++ [0x61]) (by rw [hd])
  rw [hd] at hdl hdr
  refine ⟨?_, ?_, ?_, hdl, hdr⟩
  · rw [hl]
    intro h
    by_cases h0 : (Project3.nm_search leaves target leaves.length 0 leaves.length).2 = 0
    · rw [if_pos h0] at h; exact absurd rfl h
    · rw [if_neg h0]
      exact ⟨by omega, hlo _ (by omega)⟩
  · rw [hrt]
    intro h
    by_cases h0 : (Project3.nm_search leaves target leaves.length 0 leaves.length).2 = 0
    · rw [if_pos h0]
      exact ⟨hn, hhi 0 (by omega) hn⟩
    · rw [if_neg h0] at h ⊢
      by_cases h1 : (Project3.nm_search leaves target leaves.length 0 leaves.length).2
          = leaves.length
      · rw [if_pos h1] at h; exact absurd rfl h
      · rw [if_neg h1]
        exact ⟨by omega, hhi _ (by omega) (by omega)⟩
  · rw [hl, hrt]
    generalize (Project3.nm_search leaves target leaves.length 0 leaves.length).2 = p
    intro h h'
    by_cases h0 : p = 0
    · rw [if_pos h0] at h; exact absurd rfl h
    · rw [if_neg h0] at h'
      rw [if_neg h0, if_neg h0]
      by_cases h1 : p = leaves.length
      · rw [if_pos h1] at h'; exact absurd rfl h'
      · rw [if_neg h1]
        omega

/-- Witness for `nm_neighbours_bracket`: the four leaves "leaf-00000000" ..
"leaf-00000003" and the target "leaf-00000002a". -/
theorem nm_neighbours_bracket_witness :
    (Project3.demo_leaves ≠ [] ∧ Project3.demo_leaves.Sorted (· ≤ ·) ∧
      (Project3.demo_leaves.getD 2 [] ++ [0x61]) ∉ Project3.demo_leaves) ∧
    (Project3.merkle_non_membership_proof Project3.demo_leaves none 0
        (Project3.demo_leaves.getD 2 [] ++ [0x61])).left_index = 2 ∧
    (Project3.merkle_non_membership_proof Project3.demo_leaves none 0
        (Project3.demo_leaves.getD 2 [] ++ [0x61])).right_index = 3 :=
  ⟨⟨by decide, by decide, by decide⟩,
    (nm_neighbours_bracket Project3.demo_leaves none 0
      (Project3.demo_leaves.getD 2 [] ++ [0x61]) (by decide) (by decide) (by decide)).2.2.2⟩

/-- C11: for a non-empty leaf list `merkle_build` returns levels of which level 0
has as many nodes as there are leaves, every further level has the ceiling of half
the node count of the level below it (the least `m` with `prev ≤ 2 * m`, computed
as `(prev + 1) / 2`), the last level, the one `merkle_root` reads, has exactly one
node, and every level stores one hash per node. -/
theorem merkle_build_level_sizes (H : List Nat → List Nat) (leaves : List (List Nat))
    (hne : leaves ≠ []) :
    ∃ lv, Project3.merkle_build H leaves = some lv ∧ 0 < lv.length ∧
      (lv.getD 0 ⟨[], 0⟩).nodes = leaves.length ∧
      (∀ k, k + 1 < lv.length →
        (lv.getD (k + 1) ⟨[], 0⟩).nodes = ((lv.getD k ⟨[], 0⟩).nodes + 1) / 2 ∧
        (lv.getD k ⟨[], 0⟩).nodes ≤ 2 * (lv.getD (k + 1) ⟨[], 0⟩).nodes ∧
        2 * (lv.getD (k + 1) ⟨[], 0⟩).nodes ≤ (lv.getD k ⟨[], 0⟩).nodes + 1) ∧
      (lv.getD (lv.length - 1) ⟨[], 0⟩).nodes = 1 ∧
      (∀ k, k < lv.length →
        (lv.getD k ⟨[], 0⟩).data.length = (lv.getD k ⟨[], 0⟩).nodes) := by
  obtain ⟨lv, hb, hpos, h0, hchain, hwf, htop⟩ := Project3.merkle_build_spec H leaves hne
  refine ⟨lv, hb, hpos, by rw [h0], ?_, htop, fun k hk => (hwf k hk).1⟩
  intro k hk
  have e : (lv.getD (k + 1) ⟨[], 0⟩).nodes = ((lv.getD k ⟨[], 0⟩).nodes + 1) / 2 := by
    rw [hchain k hk, Project3.next_level_nodes]
  refine ⟨e, ?_, ?_⟩ <;> omega

/-- Witness for `merkle_build_level_sizes`: three one-byte leaves and the identity
in place of the hash function. -/
theorem merkle_build_level_sizes_witness :
    ([[1], [2], [3]] : List (List Nat)) ≠ [] ∧
    ∃ lv, Project3.merkle_build id [[1], [2], [3]] = some lv ∧ 0 < lv.length ∧
      (lv.getD 0 ⟨[], 0⟩).nodes = [[1], [2], [3]].length ∧
      (∀ k, k + 1 < lv.length →
        (lv.getD (k + 1) ⟨[], 0⟩).nodes = ((lv.getD k ⟨[], 0⟩).nodes + 1) / 2 ∧
        (lv.getD k ⟨[], 0⟩).nodes ≤ 2 * (lv.getD (k + 1) ⟨[], 0⟩).nodes ∧
        2 * (lv.getD (k + 1) ⟨[], 0⟩).nodes ≤ (lv.getD k ⟨[], 0⟩).nodes + 1) ∧
      (lv.getD (lv.length - 1) ⟨[], 0⟩).nodes = 1 ∧
      (∀ k, k < lv.length →
        (lv.getD k ⟨[], 0⟩).data.length = (lv.getD k ⟨[], 0⟩).nodes) :=
  ⟨by decide, merkle_build_level_sizes id [[1], [2], [3]] (by decide)⟩

/-- C12: in the tree `merkle_build` returns, entry `i` of level 0 is
`H(0x00 ‖ leaf_i)` for every leaf index `i`, and for every level `L + 1` of the
tree and every index `i` in it the node `2 * i` lies in level `L` and entry `i` is
`H(0x01 ‖ prev[2i] ‖ prev[2i+1])` when `2 * i + 1` is inside level `L`, and
`H(0x01 ‖ prev[2i] ‖ prev[2i])` when `2 * i` is the last node of level `L`. -/
theorem merkle_build_entries (H : List Nat → List Nat) (leaves : List (List Nat))
    (hne : leaves ≠ []) :
    ∃ lv, Project3.merkle_build H leaves = some lv ∧
      (∀ i, i < leaves.length →
        (lv.getD 0 ⟨[], 0⟩).data.getD i [] = H ([0x00] ++ leaves.getD i [])) ∧
      (∀ L i, L + 1 < lv.length → i < (lv.getD (L + 1) ⟨[], 0⟩).nodes →
        2 * i < (lv.getD L ⟨[], 0⟩).nodes ∧
        (2 * i + 1 < (lv.getD L ⟨[], 0⟩).nodes →
          (lv.getD (L + 1) ⟨[], 0⟩).data.getD i []
            = H ([0x01] ++ (lv.getD L ⟨[], 0⟩).data.getD (2 * i) []
                ++ (lv.getD L ⟨[], 0⟩).data.getD (2 * i + 1) [])) ∧
        (2 * i + 1 = (lv.getD L ⟨[], 0⟩).nodes →
          (lv.getD (L + 1) ⟨[], 0⟩).data.getD i []
            = H ([0x01] ++ (lv.getD L ⟨[], 0⟩).data.getD (2 * i) []
                ++ (lv.getD L ⟨[], 0⟩).data.getD (2 * i) []))) := by
  obtain ⟨lv, hb, hpos, h0, hchain, hwf, htop⟩ := Project3.merkle_build_spec H leaves hne
  refine ⟨lv, hb, ?_, ?_⟩
  · intro i hi
    rw [h0]
    exact Project3.map_getD_of_lt (Project3.hash_leaf H) leaves i hi
  · intro L i hL hi
    rw [hchain L hL] at hi ⊢
    rw [Project3.next_level_nodes] at hi
    rw [Project3.next_level_getD H _ i hi, Nat.mul_comm i 2]
    refine ⟨by omega, ?_, ?_⟩
    · intro h
      rw [if_pos h]
      rfl
    · intro h
      rw [if_neg (by omega)]
      rfl

/-- Witness for `merkle_build_entries`: three one-byte leaves and the identity in
place of the hash function. -/
theorem merkle_build_entries_witness :
    ([[1], [2], [3]] : List (List Nat)) ≠ [] ∧
    ∃ lv, Project3.merkle_build id [[1], [2], [3]] = some lv ∧
      (∀ i, i < [[1], [2], [3]].length →
        (lv.getD 0 ⟨[], 0⟩).data.getD i [] = id ([0x00] ++ [[1], [2], [3]].getD i [])) ∧
      (∀ L i, L + 1 < lv.length → i < (lv.getD (L + 1) ⟨[], 0⟩).nodes →
        2 * i < (lv.getD L ⟨[], 0⟩).nodes ∧
        (2 * i + 1 < (lv.getD L ⟨[], 0⟩).nodes →
          (lv.getD (L + 1) ⟨[], 0⟩).data.getD i []
            = id ([0x01] ++ (lv.getD L ⟨[], 0⟩).data.getD (2 * i) []
                ++ (lv.getD L ⟨[], 0⟩).data.getD (2 * i + 1) [])) ∧
        (2 * i + 1 = (lv.getD L ⟨[], 0⟩).nodes →
          (lv.getD (L + 1) ⟨[], 0⟩).data.getD i []
            = id ([0x01] ++ (lv.getD L ⟨[], 0⟩).data.getD (2 * i) []
                ++ (lv.getD L ⟨[], 0⟩).data.getD (2 * i) []))) :=
  ⟨by decide, merkle_build_entries id [[1], [2], [3]] (by decide)⟩

/-- C13: on the tree `merkle_build` returns and a leaf index `i` below the leaf
count, `merkle_inclusion_proof` returns code 0 and a proof with `nlevels - 1`
entries; at step `k`, with `idx = i / 2 ^ k` (a node of level `k`), the entry is
`level_k[idx + 1]` with direction 0 when `idx` is even and `idx + 1` is inside the
level, `level_k[idx]` with direction 0 when `idx` is even and is the last node of
the level, and `level_k[idx - 1]` with direction 1 when `idx` is odd. -/
theorem inclusion_proof_steps (H : List Nat → List Nat) (leaves : List (List Nat)) (i : Nat)
    (hi : i < leaves.length) :
    ∃ lv proof dirs, Project3.merkle_build H leaves = some lv ∧
      Project3.merkle_inclusion_proof (some lv) lv.length i
        = (0, some (proof, dirs, lv.length - 1)) ∧
      proof.length = lv.length - 1 ∧ dirs.length = lv.length - 1 ∧
      ∀ k, k < lv.length - 1 →
        i / 2 ^ k < (lv.getD k ⟨[], 0⟩).nodes ∧
        ((i / 2 ^ k) % 2 = 0 → i / 2 ^ k + 1 < (lv.getD k ⟨[], 0⟩).nodes →
          proof.getD k [] = (lv.getD k ⟨[], 0⟩).data.getD (i / 2 ^ k + 1) [] ∧
          dirs.getD k 0 = 0) ∧
        ((i / 2 ^ k) % 2 = 0 → i / 2 ^ k + 1 = (lv.getD k ⟨[], 0⟩).nodes →
          proof.getD k [] = (lv.getD k ⟨[], 0⟩).data.getD (i / 2 ^ k) [] ∧
          dirs.getD k 0 = 0) ∧
        ((i / 2 ^ k) % 2 = 1 →
          proof.getD k [] = (lv.getD k ⟨[], 0⟩).data.getD (i / 2 ^ k - 1) [] ∧
          dirs.getD k 0 = 1) := by
  have hne : leaves ≠ [] := List.ne_nil_of_length_pos (by omega)
  obtain ⟨lv, hb, hpos, h0, hchain, hwf, htop⟩ := Project3.merkle_build_spec H leaves hne
  have hi0 : i < (lv.getD 0 ⟨[], 0⟩).nodes := by rw [h0]; exact hi
  obtain ⟨hidx, hP, hD, hpl, hent⟩ := Project3.proof_fold_spec lv i (lv.length - 1)
  refine ⟨lv, _, _, hb, ?_, hP, hD, ?_⟩
  · have hz : ¬ lv.length = 0 := by omega
    have hge : ¬ i ≥ (lv.getD 0 ⟨[], 0⟩).nodes := by omega
    simp only [Project3.merkle_inclusion_proof, hz, hge, if_false]
    rw [hpl]
  · intro k hk
    obtain ⟨hs, hd⟩ := hent k hk
    have hin := (Project3.proof_verify_inv H lv _ i 0 hchain rfl hi0 k (by omega)).1
    rw [(Project3.proof_fold_spec lv i k).1] at hin
    rw [hs, hd]
    refine ⟨hin, ?_, ?_, ?_⟩
    · intro he hlt
      have hnge : ¬ i / 2 ^ k + 1 ≥ (lv.getD k ⟨[], 0⟩).nodes := by omega
      refine ⟨?_, ?_⟩
      · unfold Project3.sibling_of
        rw [if_pos he, if_neg hnge]
      · unfold Project3.dir_of
        rw [if_pos he]
    · intro he heq
      have hge : i / 2 ^ k + 1 ≥ (lv.getD k ⟨[], 0⟩).nodes := by omega
      refine ⟨?_, ?_⟩
      · unfold Project3.sibling_of
        rw [if_pos he, if_pos hge]
      · unfold Project3.dir_of
        rw [if_pos he]
    · intro ho
      have hne0 : ¬ (i / 2 ^ k) % 2 = 0 := by omega
      refine ⟨?_, ?_⟩
      · unfold Project3.sibling_of
        rw [if_neg hne0]
      · unfold Project3.dir_of
        rw [if_neg hne0]

/-- Witness for `inclusion_proof_steps`: three one-byte leaves, index 2, and the
identity in place of the hash function. -/
theorem inclusion_proof_steps_witness :
    2 < [[1], [2], [3]].length ∧
    ∃ lv proof dirs, Project3.merkle_build id [[1], [2], [3]] = some lv ∧
      Project3.merkle_inclusion_proof (some lv) lv.length 2
        = (0, some (proof, dirs, lv.length - 1)) ∧
      proof.length = lv.length - 1 ∧ dirs.length = lv.length - 1 ∧
      ∀ k, k < lv.length - 1 →
        2 / 2 ^ k < (lv.getD k ⟨[], 0⟩).nodes ∧
        ((2 / 2 ^ k) % 2 = 0 → 2 / 2 ^ k + 1 < (lv.getD k ⟨[], 0⟩).nodes →
          proof.getD k [] = (lv.getD k ⟨[], 0⟩).data.getD (2 / 2 ^ k + 1) [] ∧
          dirs.getD k 0 = 0) ∧
        ((2 / 2 ^ k) % 2 = 0 → 2 / 2 ^ k + 1 = (lv.getD k ⟨[], 0⟩).nodes →
          proof.getD k [] = (lv.getD k ⟨[], 0⟩).data.getD (2 / 2 ^ k) [] ∧
          dirs.getD k 0 = 0) ∧
        ((2 / 2 ^ k) % 2 = 1 →
          proof.getD k [] = (lv.getD k ⟨[], 0⟩).data.getD (2 / 2 ^ k - 1) [] ∧
          dirs.getD k 0 = 1) :=
  ⟨by decide, inclusion_proof_steps id [[1], [2], [3]] 2 (by decide)⟩

/-- C14: on the tree built from a non-empty leaf list, `merkle_inclusion_proof`
returns the code -2 and writes no proof exactly when `leaf_index` is at least the
leaf count, and returns the code 0 together with a proof exactly when it is
below. -/
theorem inclusion_proof_range_check (H : List Nat → List Nat) (leaves : List (List Nat))
    (leaf_index : Nat) (hne : leaves ≠ []) :
    ∃ lv, Project3.merkle_build H leaves = some lv ∧
      (Project3.merkle_inclusion_proof (some lv) lv.length leaf_index = (-2, none)
        ↔ leaves.length ≤ leaf_index) ∧
      ((Project3.merkle_inclusion_proof (some lv) lv.length leaf_index).1 = 0
        ↔ leaf_index < leaves.length) ∧
      (leaf_index < leaves.length →
        ∃ p, Project3.merkle_inclusion_proof (some lv) lv.length leaf_index = (0, some p)) := by
  obtain ⟨lv, hb, hpos, h0, hchain, hwf, htop⟩ := Project3.merkle_build_spec H leaves hne
  have hz : ¬ lv.length = 0 := by omega
  have hn0 : (lv.getD 0 ⟨[], 0⟩).nodes = leaves.length := by rw [h0]
  refine ⟨lv, hb, ?_⟩
  by_cases hlt : leaf_index < leaves.length
  · have hge : ¬ leaf_index ≥ (lv.getD 0 ⟨[], 0⟩).nodes := by omega
    obtain ⟨p, hp⟩ : ∃ p, Project3.merkle_inclusion_proof (some lv) lv.length leaf_index
        = (0, some p) := by
      simp only [Project3.merkle_inclusion_proof, hz, hge, if_false]
      exact ⟨_, rfl⟩
    rw [hp]
    refine ⟨⟨fun h => ?_, fun h => absurd h (by omega)⟩, ⟨fun _ => hlt, fun _ => rfl⟩,
      fun _ => ⟨p, rfl⟩⟩
    exact absurd (congrArg Prod.fst h) (show ¬ ((0 : Int) = -2) by decide)
  · have hge : leaf_index ≥ (lv.getD 0 ⟨[], 0⟩).nodes := by omega
    have hp : Project3.merkle_inclusion_proof (some lv) lv.length leaf_index = (-2, none) := by
      simp only [Project3.merkle_inclusion_proof, hz, hge, if_false, if_true]
    rw [hp]
    exact ⟨⟨fun _ => by omega, fun _ => rfl⟩,
      ⟨fun h => absurd h (show ¬ ((-2 : Int) = 0) by decide), fun h => absurd h hlt⟩,
      fun h => absurd h hlt⟩

/-- Witness for `inclusion_proof_range_check`: three one-byte leaves, the
out-of-range index 3, and the identity in place of the hash function. -/
theorem inclusion_proof_range_check_witness :
    ([[1], [2], [3]] : List (List Nat)) ≠ [] ∧
    ∃ lv, Project3.merkle_build id [[1], [2], [3]] = some lv ∧
      (Project3.merkle_inclusion_proof (some lv) lv.length 3 = (-2, none)
        ↔ [[1], [2], [3]].length ≤ 3) ∧
      ((Project3.merkle_inclusion_proof (some lv) lv.length 3).1 = 0
        ↔ 3 < [[1], [2], [3]].length) ∧
      (3 < [[1], [2], [3]].length →
        ∃ p, Project3.merkle_inclusion_proof (some lv) lv.length 3 = (0, some p)) :=
  ⟨by decide, inclusion_proof_range_check id [[1], [2], [3]] 3 (by decide)⟩

/-- C19: for a message length `n` with `8 * n < 2 ^ 64`, `md_pad n` returns the
byte 0x80, then `z` zero bytes, then `8 * n` as a 64-bit big-endian integer, where
`z` is the only value below 64 with `(n + 1 + z) % 64 = 56`; the returned length
is `z + 9`, the length of the buffer, lies between 9 and 72, and `n` plus it is a
multiple of 64. -/
theorem md_pad_layout (n : Nat) (hn : 8 * n < 2 ^ 64) :
    ∃ z, z < 64 ∧ (n + 1 + z) % 64 = 56 ∧
      (∀ y, y < 64 → (n + 1 + y) % 64 = 56 → y = z) ∧
      Project4.md_pad n = ([0x80] ++ List.replicate z 0 ++ Project4.be64 (8 * n), z + 9) ∧
      (Project4.md_pad n).1.length = (Project4.md_pad n).2 ∧
      9 ≤ (Project4.md_pad n).2 ∧ (Project4.md_pad n).2 ≤ 72 ∧
      (n + (Project4.md_pad n).2) % 64 = 0 := by
  have h1 : (n + 1) % 2 ^ 64 = n + 1 := Nat.mod_eq_of_lt (by omega)
  have h2 : (n * 8) % 2 ^ 64 = 8 * n := by
    rw [Nat.mod_eq_of_lt (by omega), Nat.mul_comm]
  obtain ⟨z, hz, hzlt, hzmod⟩ : ∃ z,
      (if (n + 1) % 64 ≤ 56 then 56 - (n + 1) % 64 else 56 + (64 - (n + 1) % 64)) = z ∧
      z < 64 ∧ (n + 1 + z) % 64 = 56 :=
    ⟨_, rfl, by split <;> omega, by split <;> omega⟩
  have hm : Project4.md_pad n
      = ([0x80] ++ List.replicate z 0 ++ Project4.be64 (8 * n), z + 9) := by
    rw [← Project4.lenbuf_eq_be64]
    simp only [Project4.md_pad, h1, h2, hz, Project4.lenbuf]
    rw [show 1 + z + 8 = z + 9 by omega]
  refine ⟨z, hzlt, hzmod, fun y hy hym => by omega, hm, ?_, ?_, ?_, ?_⟩
  · rw [hm]
    simp [Project4.be64]
  · rw [hm]
    show 9 ≤ z + 9
    omega
  · rw [hm]
    show z + 9 ≤ 72
    omega
  · rw [hm]
    show (n + (z + 9)) % 64 = 0
    omega

/-- Witness for `md_pad_layout`: the three-byte message length. -/
theorem md_pad_layout_witness :
    8 * 3 < 2 ^ 64 ∧
    ∃ z, z < 64 ∧ (3 + 1 + z) % 64 = 56 ∧
      (∀ y, y < 64 → (3 + 1 + y) % 64 = 56 → y = z) ∧
      Project4.md_pad 3 = ([0x80] ++ List.replicate z 0 ++ Project4.be64 (8 * 3), z + 9) ∧
      (Project4.md_pad 3).1.length = (Project4.md_pad 3).2 ∧
      9 ≤ (Project4.md_pad 3).2 ∧ (Project4.md_pad 3).2 ≤ 72 ∧
      (3 + (Project4.md_pad 3).2) % 64 = 0 :=
  ⟨by norm_num, md_pad_layout 3 (by norm_num)⟩

/-- C20: `sm3_init` leaves any context with `buffer_len = 0 < 64`, `bitlen = 0`
and the state `IV`, into which no block has been compressed.  If a context with
its 64-byte buffer has `buffer_len < 64` and `512 * n = bitlen - 8 * buffer_len`,
and `bitlen + 8 * |data|` does not overflow the 64-bit counter, then
`sm3_update` compresses the first `(buffer_len + |data|) / 64` blocks of the
pending bytes followed by `data` into the state and leaves a context with
`buffer_len < 64` and `512 * (n + (buffer_len + |data|) / 64)
= bitlen - 8 * buffer_len` (as integers, so `8 * buffer_len ≤ bitlen`). -/
theorem sm3_ctx_invariant (c0 c : Project4.sm3_ctx) (data : List Nat) (n : Nat)
    (hbuf : c.buffer.length = 64) (hlt : c.buffer_len < 64)
    (hinv : (512 * n : Int) = c.bitlen - 8 * c.buffer_len)
    (hno : c.bitlen + 8 * data.length < 2 ^ 64) :
    ((Project4.sm3_init c0).buffer_len < 64 ∧
      (Project4.sm3_init c0).state = Project4.IV ∧
      (Project4.sm3_init c0).buffer = c0.buffer ∧
      (512 * 0 : Int) = (Project4.sm3_init c0).bitlen - 8 * (Project4.sm3_init c0).buffer_len) ∧
    ((Project4.sm3_update c data).buffer.length = 64 ∧
      (Project4.sm3_update c data).buffer_len < 64 ∧
      (Project4.sm3_update c data).state
        = (Project4.blocks ((c.buffer_len + data.length) / 64)
            (c.buffer.take c.buffer_len ++ data)).foldl Project4.sm3_compress c.state ∧
      (512 * (n + (c.buffer_len + data.length) / 64) : Int)
        = (Project4.sm3_update c data).bitlen - 8 * (Project4.sm3_update c data).buffer_len) := by
  refine ⟨⟨by show 0 < 64; omega, rfl, rfl, rfl⟩, ?_⟩
  have ok : Project4.ctx_ok c := ⟨hbuf, hlt⟩
  obtain ⟨ok1, ab, hbl⟩ := Project4.sm3_update_spec c data ok
  have hpl := Project4.pending_length c ok
  have hpl1 := Project4.pending_length _ ok1
  have hs := congrArg Prod.fst ab
  have hp := congrArg Prod.snd ab
  simp only [Project4.absorb] at hs hp
  rw [hp] at hpl1
  simp only [List.length_drop, List.length_append, hpl] at hpl1
  rw [List.length_append, hpl] at hs
  refine ⟨ok1.1, ok1.2, hs, ?_⟩
  have hd : (data.length * 8) % 2 ^ 64 = 8 * data.length := by
    rw [Nat.mod_eq_of_lt (by omega), Nat.mul_comm]
  rw [hd, Nat.mod_eq_of_lt hno] at hbl
  rw [hbl, ← hpl1]
  push_cast
  omega

/-- Witness for `sm3_ctx_invariant`: the initialised context, no block compressed
so far, and an input of 70 zero bytes. -/
theorem sm3_ctx_invariant_witness :
    ((Project4.sm3_init Project4.fresh_ctx).buffer.length = 64 ∧
      (Project4.sm3_init Project4.fresh_ctx).buffer_len < 64 ∧
      (512 * (0 : Nat) : Int) = (Project4.sm3_init Project4.fresh_ctx).bitlen
        - 8 * (Project4.sm3_init Project4.fresh_ctx).buffer_len ∧
      (Project4.sm3_init Project4.fresh_ctx).bitlen + 8 * (List.replicate 70 0).length
        < 2 ^ 64) ∧
    ((Project4.sm3_init Project4.fresh_ctx).buffer_len < 64 ∧
      (Project4.sm3_init Project4.fresh_ctx).state = Project4.IV ∧
      (Project4.sm3_init Project4.fresh_ctx).buffer = Project4.fresh_ctx.buffer ∧
      (512 * 0 : Int) = (Project4.sm3_init Project4.fresh_ctx).bitlen
        - 8 * (Project4.sm3_init Project4.fresh_ctx).buffer_len) ∧
    ((Project4.sm3_update (Project4.sm3_init Project4.fresh_ctx)
        (List.replicate 70 0)).buffer.length = 64 ∧
      (Project4.sm3_update (Project4.sm3_init Project4.fresh_ctx)
        (List.replicate 70 0)).buffer_len < 64 ∧
      (Project4.sm3_update (Project4.sm3_init Project4.fresh_ctx) (List.replicate 70 0)).state
        = (Project4.blocks (((Project4.sm3_init Project4.fresh_ctx).buffer_len
              + (List.replicate 70 0).length) / 64)
            ((Project4.sm3_init Project4.fresh_ctx).buffer.take
              (Project4.sm3_init Project4.fresh_ctx).buffer_len
              ++ List.replicate 70 0)).foldl Project4.sm3_compress
            (Project4.sm3_init Project4.fresh_ctx).state ∧
      (512 * ((0 : Nat) + ((Project4.sm3_init Project4.fresh_ctx).buffer_len
          + (List.replicate 70 0).length) / 64) : Int)
        = (Project4.sm3_update (Project4.sm3_init Project4.fresh_ctx)
            (List.replicate 70 0)).bitlen
          - 8 * (Project4.sm3_update (Project4.sm3_init Project4.fresh_ctx)
            (List.replicate 70 0)).buffer_len) :=
  ⟨⟨by decide, by decide, by decide, by decide⟩,
    sm3_ctx_invariant Project4.fresh_ctx (Project4.sm3_init Project4.fresh_ctx)
      (List.replicate 70 0) 0 (by decide) (by decide) (by decide) (by decide)⟩

/-- C21 (the code departs from the claim): after `build_t_tables`, entry 0 of `T3`
is `L(SBOX[0]) = 0xD55B5B8E` as claimed, but `T0[0]`, `T1[0]` and `T2[0]` are the
shifts `0x8E000000`, `0x5B8E0000`, `0x5B5B8E00` of that word, whose high bits are
lost, not its rotations `0x8ED55B5B`, `0x5B8ED55B`, `0x5B5B8ED5` by 24, 16 and 8. -/
theorem build_t_tables_not_rotations :
    Project1.sm4_L (Project1.SM4_SBOX.getD 0 0) = 0xD55B5B8E ∧
    (Project1.build_t_tables Project1.ttables.zero).T3.getD 0 0 = 0xD55B5B8E ∧
    (Project1.build_t_tables Project1.ttables.zero).T0.getD 0 0 = 0x8E000000 ∧
    Project1.ROL32 (Project1.sm4_L (Project1.SM4_SBOX.getD 0 0)) 24 = 0x8ED55B5B ∧
    (Project1.build_t_tables Project1.ttables.zero).T1.getD 0 0 = 0x5B8E0000 ∧
    Project1.ROL32 (Project1.sm4_L (Project1.SM4_SBOX.getD 0 0)) 16 = 0x5B8ED55B ∧
    (Project1.build_t_tables Project1.ttables.zero).T2.getD 0 0 = 0x5B5B8E00 ∧
    Project1.ROL32 (Project1.sm4_L (Project1.SM4_SBOX.getD 0 0)) 8 = 0x5B5B8ED5 := by
  refine ⟨?_, ?_, ?_, ?_, ?_, ?_, ?_, ?_⟩ <;> decide

/-- C23 (the code departs from the claim): after `build_t_tables`, the T-table
lookup on the word `x = 0` gives `0x5B8ED58E`, while `sm4_L(sm4_tau(0))` is
`0x5B5B5B5B`. -/
theorem ttable_lookup_not_round_transform :
    Project1.ttable_lookup (Project1.build_t_tables Project1.ttables.zero) 0 = 0x5B8ED58E ∧
    Project1.sm4_L (Project1.sm4_tau 0) = 0x5B5B5B5B := by
  constructor <;> decide

/-- C24 (the code departs from the claim): the table `TJ` of `sm3_opt.c` holds the
rotated round constant, the one `sm3_compress` of `sm3.c` computes as
`ROTL32(T[j], j)`, exactly for the rounds `j < 18`; at `j = 18` it holds
`0x7629ea1f` where the rotation of `0x7A879D8A` by 18 is `0x7629ea1e`. -/
theorem TJ_not_rotated_constants :
    Project3.TJ.getD 18 0 = 0x7629ea1f ∧
    Project4.T.getD 18 0 = 0x7A879D8A ∧
    Project4.ROTL32 (Project4.T.getD 18 0) (18 % 32) = 0x7629ea1e ∧
    ∀ j, j < 64 →
      (Project3.TJ.getD j 0 = Project4.ROTL32 (Project4.T.getD j 0) (j % 32) ↔ j < 18) := by
  refine ⟨?_, ?_, ?_, ?_⟩ <;> decide

/-- C25 (the code departs from the claim): on the one padded block of "abc" and the
state `IV`, after the rounds 0 .. 11 of `sm3_compress` of `sm3_opt.c`, the macro
`ROUND` at `j = 12` uses `Wj = 0`, which is `W[12]` of the 68-word expansion of
`sm3.c`, and `Wp = 0x61626380`, which is `W[12] ^ W[0]`; the expansion has
`W[12] ^ W[16] = 0x9092e200`. -/
theorem sm3_opt_window_diverges :
    (Project3.window_words
      ((List.range' 0 3 4).foldl (Project3.ROUND4 Project3.FF0 Project3.GG0)
        ((List.range 16).map
            (Bits.load_be32 ([0x61, 0x62, 0x63, 0x80] ++ List.replicate 59 0 ++ [0x18])),
          ⟨Project4.IV.getD 0 0, Project4.IV.getD 1 0, Project4.IV.getD 2 0,
            Project4.IV.getD 3 0, Project4.IV.getD 4 0, Project4.IV.getD 5 0,
            Project4.IV.getD 6 0, Project4.IV.getD 7 0⟩)).1 12).2
      = (0, 0x61626380) ∧
    ((List.range' 16 52).foldl Project4.expand_step
      ((List.range 16).map
          (Bits.load_be32 ([0x61, 0x62, 0x63, 0x80] ++ List.replicate 59 0 ++ [0x18]))
        ++ List.replicate 52 0)).getD 12 0 = 0 ∧
    ((List.range' 16 52).foldl Project4.expand_step
      ((List.range 16).map
          (Bits.load_be32 ([0x61, 0x62, 0x63, 0x80] ++ List.replicate 59 0 ++ [0x18]))
        ++ List.replicate 52 0)).getD 0 0 = 0x61626380 ∧
    ((List.range' 16 52).foldl Project4.expand_step
      ((List.range 16).map
          (Bits.load_be32 ([0x61, 0x62, 0x63, 0x80] ++ List.replicate 59 0 ++ [0x18]))
        ++ List.replicate 52 0)).getD 16 0 = 0x9092e200 := by
  refine ⟨?_, ?_, ?_, ?_⟩ <;> decide

/-- C27 (counterexample to the claim as stated): the context `do_lenext_attack`
writes for the guess `2 ^ 61 - 128` and an empty message has `buffer_len = 0` and
`bitlen = 2 ^ 64 - 512 = 512 * (2 ^ 55 - 1)`; 64 more bytes push the counter to
`2 ^ 64`, beyond `2 ^ 64 - 1`.  On that context and 64 bytes of input,
`sm3_update` of `sm3.c` and of `sm3_opt.c` alike reports nothing: it compresses
the block into the state and leaves the wrapped counter `bitlen = 0`. -/
theorem sm3_update_wraps_bitlen :
    (Project4.md_pad ((2 ^ 61 - 128 + 0) % 2 ^ 64)).2 = 64 ∧
    Project4.resumed_ctx (List.replicate 32 0) (2 ^ 61 - 128 + 0 + 64)
      = { state := List.replicate 8 0, bitlen := 2 ^ 64 - 512,
          buffer := List.replicate 64 0, buffer_len := 0 } ∧
    (512 * (2 ^ 55 - 1) : Int) = ((2 ^ 64 - 512 : Nat) : Int) - 8 * ((0 : Nat) : Int) ∧
    2 ^ 64 - 1 < 2 ^ 64 - 512 + 8 * (List.replicate 64 0x61).length ∧
    Project4.sm3_update
        { state := List.replicate 8 0, bitlen := 2 ^ 64 - 512,
          buffer := List.replicate 64 0, buffer_len := 0 } (List.replicate 64 0x61)
      = { state := Project4.sm3_compress (List.replicate 8 0) (List.replicate 64 0x61),
          bitlen := 0, buffer := List.replicate 64 0, buffer_len := 0 } ∧
    Project3.sm3_update
        { state := List.replicate 8 0, bitlen := 2 ^ 64 - 512,
          buffer := List.replicate 64 0, buffer_len := 0 } (List.replicate 64 0x61)
      = { state := Project3.sm3_compress (List.replicate 8 0) (List.replicate 64 0x61),
          bitlen := 0, buffer := List.replicate 64 0, buffer_len := 0 } := by
  refine ⟨?_, ?_, ?_, ?_, ?_, ?_⟩ <;> decide

/-- C27 (amended): `sm3_update` has no error path and counts modulo `2 ^ 64`.  For
every context with its 64-byte buffer and `buffer_len < 64` and every input,
`sm3_update` of `sm3.c` leaves `bitlen = (bitlen + 8 * len) mod 2 ^ 64`, which is
`bitlen + 8 * len - 2 ^ 64` when the sum of the 64-bit operands passes
`2 ^ 64 - 1`, and it absorbs the input all the same: the first
`(buffer_len + len) / 64` blocks of the pending bytes followed by the input are
compressed into the state and `(buffer_len + len) mod 64` bytes stay pending.
`sm3_update` of `sm3_opt.c` sets `bitlen` in the same way. -/
theorem sm3_update_never_rejects (c : Project4.sm3_ctx) (data : List Nat)
    (hbuf : c.buffer.length = 64) (hlt : c.buffer_len < 64) :
    (Project4.sm3_update c data).bitlen = (c.bitlen + 8 * data.length) % 2 ^ 64 ∧
    (2 ^ 64 - 1 < c.bitlen + 8 * data.length → c.bitlen < 2 ^ 64 →
      8 * data.length < 2 ^ 64 →
      (Project4.sm3_update c data).bitlen = c.bitlen + 8 * data.length - 2 ^ 64) ∧
    (Project4.sm3_update c data).state
      = (Project4.blocks ((c.buffer_len + data.length) / 64)
          (c.buffer.take c.buffer_len ++ data)).foldl Project4.sm3_compress c.state ∧
    (Project4.sm3_update c data).buffer.length = 64 ∧
    (Project4.sm3_update c data).buffer_len = (c.buffer_len + data.length) % 64 ∧
    (Project4.sm3_update c data).buffer.take (Project4.sm3_update c data).buffer_len
      = (c.buffer.take c.buffer_len ++ data).drop (64 * ((c.buffer_len + data.length) / 64)) ∧
    (Project3.sm3_update c data).bitlen = (c.bitlen + 8 * data.length) % 2 ^ 64 := by
  have ok : Project4.ctx_ok c := ⟨hbuf, hlt⟩
  obtain ⟨ok1, ab, hbl⟩ := Project4.sm3_update_spec c data ok
  have hpl := Project4.pending_length c ok
  have hpl1 := Project4.pending_length _ ok1
  have hs := congrArg Prod.fst ab
  have hp := congrArg Prod.snd ab
  simp only [Project4.absorb] at hs hp
  rw [hp] at hpl1
  simp only [List.length_drop, List.length_append, hpl] at hpl1
  rw [List.length_append, hpl] at hs hp
  have hb : (Project4.sm3_update c data).bitlen = (c.bitlen + 8 * data.length) % 2 ^ 64 := by
    rw [hbl]
    omega
  have hb3 : (Project3.sm3_update c data).bitlen
      = (c.bitlen + (data.length * 8) % 2 ^ 64) % 2 ^ 64 := by
    unfold Project3.sm3_update
    dsimp only
    split_ifs <;> rfl
  refine ⟨hb, ?_, hs, ok1.1, by omega, hp, by rw [hb3]; omega⟩
  intro h1 h2 h3
  rw [hb]
  omega

/-- Witness for `sm3_update_never_rejects`: the context with `bitlen = 2 ^ 64 - 512`
and an empty buffer, and 64 bytes of input, which pass the end of the counter. -/
theorem sm3_update_never_rejects_witness :
    ((List.replicate 64 0 : List Nat).length = 64 ∧ (0 : Nat) < 64) ∧
    (Project4.sm3_update
        { state := List.replicate 8 0, bitlen := 2 ^ 64 - 512,
          buffer := List.replicate 64 0, buffer_len := 0 } (List.replicate 64 0x61)).bitlen
      = (2 ^ 64 - 512 + 8 * (List.replicate 64 0x61).length) % 2 ^ 64 ∧
    (Project3.sm3_update
        { state := List.replicate 8 0, bitlen := 2 ^ 64 - 512,
          buffer := List.replicate 64 0, buffer_len := 0 } (List.replicate 64 0x61)).bitlen
      = (2 ^ 64 - 512 + 8 * (List.replicate 64 0x61).length) % 2 ^ 64 :=
  ⟨⟨by decide, by decide⟩,
    (sm3_update_never_rejects
      { state := List.replicate 8 0, bitlen := 2 ^ 64 - 512,
        buffer := List.replicate 64 0, buffer_len := 0 } (List.replicate 64 0x61)
      (by decide) (by decide)).1,
    (sm3_update_never_rejects
      { state := List.replicate 8 0, bitlen := 2 ^ 64 - 512,
        buffer := List.replicate 64 0, buffer_len := 0 } (List.replicate 64 0x61)
      (by decide) (by decide)).2.2.2.2.2.2⟩

/-- C22 (counterexample to the claim as stated): `sm3_hash` of Project4/sm3.c on
the 60 bytes of "abcd" repeated 15 times is
7B0685C8 8114BEE1 54296C26 2D619A3D 43C4FBF3 25D5DCB6 F2BBDBF9 6D4275DB, not
DEBE9FF9 2275B8A1 38604889 C18E5A4D 6FDB70E5 387E5765 293DCBA3 9C0C5732. -/
theorem sm3_hash_abcd15 :
    Project4.sm3_hash (List.replicate 15 [0x61, 0x62, 0x63, 0x64]).flatten =
      [0x7B, 0x06, 0x85, 0xC8, 0x81, 0x14, 0xBE, 0xE1, 0x54, 0x29, 0x6C, 0x26,
       0x2D, 0x61, 0x9A, 0x3D, 0x43, 0xC4, 0xFB, 0xF3, 0x25, 0xD5, 0xDC, 0xB6,
       0xF2, 0xBB, 0xDB, 0xF9, 0x6D, 0x42, 0x75, 0xDB] ∧
    Project4.sm3_hash (List.replicate 15 [0x61, 0x62, 0x63, 0x64]).flatten ≠
      [0xDE, 0xBE, 0x9F, 0xF9, 0x22, 0x75, 0xB8, 0xA1, 0x38, 0x60, 0x48, 0x89,
       0xC1, 0x8E, 0x5A, 0x4D, 0x6F, 0xDB, 0x70, 0xE5, 0x38, 0x7E, 0x57, 0x65,
       0x29, 0x3D, 0xCB, 0xA3, 0x9C, 0x0C, 0x57, 0x32] := by
  constructor <;> decide

/-- C22 (amended): `sm3_hash` of Project4/sm3.c on the 64 bytes of "abcd" repeated
16 times, the second sample of the SM3 standard, is
DEBE9FF9 2275B8A1 38604889 C18E5A4D 6FDB70E5 387E5765 293DCBA3 9C0C5732. -/
theorem sm3_hash_abcd16 :
    Project4.sm3_hash (List.replicate 16 [0x61, 0x62, 0x63, 0x64]).flatten =
      [0xDE, 0xBE, 0x9F, 0xF9, 0x22, 0x75, 0xB8, 0xA1, 0x38, 0x60, 0x48, 0x89,
       0xC1, 0x8E, 0x5A, 0x4D, 0x6F, 0xDB, 0x70, 0xE5, 0x38, 0x7E, 0x57, 0x65,
       0x29, 0x3D, 0xCB, 0xA3, 0x9C, 0x0C, 0x57, 0x32] := by
  decide

/-- C26 (counterexample to the claim as stated): with the guess `L = 2 ^ 61`, an
empty `m` and an empty suffix, the glue has 64 bytes and the resumed context of
`do_lenext_attack` has `bitlen = 512`, the counter having wrapped, not
`8 * (L + |m| + glue_len) = 2 ^ 64 + 512`; the forged tag is the one of the
guess 0. -/
theorem lenext_resumed_bitlen_wraps :
    (Project4.do_lenext_attack (List.replicate 32 0) [] [] (2 ^ 61)).glue_len = 64 ∧
    (Project4.do_lenext_attack (List.replicate 32 0) [] [] (2 ^ 61)).forged_tag
      = (Project4.sm3_final (Project4.sm3_update
          (Project4.resumed_ctx (List.replicate 32 0) (2 ^ 61 + 0 + 64)) [])).2 ∧
    (Project4.resumed_ctx (List.replicate 32 0) (2 ^ 61 + 0 + 64)).bitlen = 512 ∧
    8 * (2 ^ 61 + 0 + 64) = 2 ^ 64 + 512 ∧
    (Project4.do_lenext_attack (List.replicate 32 0) [] [] (2 ^ 61)).forged_tag
      = (Project4.do_lenext_attack (List.replicate 32 0) [] [] 0).forged_tag := by
  refine ⟨?_, ?_, ?_, ?_, ?_⟩ <;> decide

/-- C26 (amended): for every tag, `m`, suffix `s` and guess `L` such that
`8 * (L + |m| + 72) < 2 ^ 64` and `|m| + |s| + 72 < 2 ^ 64`, with
`(glue, glue_len) = md_pad(L + |m|)`, the result of `do_lenext_attack` has
`forged_msg = m ‖ glue ‖ s`, `forged_len = |m| + glue_len + |s|`,
`glue_len = |glue|` and `secret_len_guess = L`, and its tag is what `sm3_update`
with `s` and `sm3_final` give on the resumed context, whose `state` is the tag read
as eight big-endian words, whose `buffer_len` is 0 and whose `bitlen` is
`8 * (L + |m| + glue_len)`, a multiple of 512. -/
theorem lenext_forgery_shape (tag m s : List Nat) (L : Nat)
    (hL : 8 * (L + m.length + 72) < 2 ^ 64) (hs : m.length + s.length + 72 < 2 ^ 64) :
    ∃ glue glue_len, Project4.md_pad (L + m.length) = (glue, glue_len) ∧
      glue.length = glue_len ∧
      (Project4.do_lenext_attack tag m s L).forged_msg = m ++ glue ++ s ∧
      (Project4.do_lenext_attack tag m s L).forged_len = m.length + glue_len + s.length ∧
      (Project4.do_lenext_attack tag m s L).glue_len = glue_len ∧
      (Project4.do_lenext_attack tag m s L).secret_len_guess = L ∧
      (Project4.do_lenext_attack tag m s L).forged_tag
        = (Project4.sm3_final (Project4.sm3_update
            (Project4.resumed_ctx tag (L + m.length + glue_len)) s)).2 ∧
      (Project4.resumed_ctx tag (L + m.length + glue_len)).state
        = (List.range 8).map (Bits.load_be32 tag) ∧
      (Project4.resumed_ctx tag (L + m.length + glue_len)).buffer_len = 0 ∧
      (Project4.resumed_ctx tag (L + m.length + glue_len)).bitlen
        = 8 * (L + m.length + glue_len) ∧
      (Project4.resumed_ctx tag (L + m.length + glue_len)).bitlen % 512 = 0 := by
  have hmod : (L + m.length) % 2 ^ 64 = L + m.length := Nat.mod_eq_of_lt (by omega)
  obtain ⟨-, hgl, hle⟩ := Project4.md_pad_eq_final_pad (L + m.length)
    ((L + m.length) * 8) rfl
  have hal := Project4.md_pad_aligned (L + m.length) (by omega)
  have hmsg : (Project4.do_lenext_attack tag m s L).forged_msg
      = m ++ (Project4.md_pad ((L + m.length) % 2 ^ 64)).1.take
          (Project4.md_pad ((L + m.length) % 2 ^ 64)).2 ++ s := rfl
  have hlen : (Project4.do_lenext_attack tag m s L).forged_len
      = (m.length + (Project4.md_pad ((L + m.length) % 2 ^ 64)).2 + s.length) % 2 ^ 64 := rfl
  have hg : (Project4.do_lenext_attack tag m s L).glue_len
      = (Project4.md_pad ((L + m.length) % 2 ^ 64)).2 := rfl
  have ht : (Project4.do_lenext_attack tag m s L).forged_tag
      = (Project4.sm3_final (Project4.sm3_update (Project4.resumed_ctx tag
          (L + m.length + (Project4.md_pad ((L + m.length) % 2 ^ 64)).2)) s)).2 := rfl
  have hb : ∀ t, (Project4.resumed_ctx tag t).bitlen = (t % 2 ^ 64 * 8) % 2 ^ 64 :=
    fun _ => rfl
  rw [hmod] at hmsg hlen hg ht
  refine ⟨(Project4.md_pad (L + m.length)).1, (Project4.md_pad (L + m.length)).2, rfl,
    hgl.symm, ?_, ?_, hg, rfl, ht, rfl, rfl, ?_, ?_⟩
  · rw [hmsg, hgl, List.take_length]
  · rw [hlen]
    exact Nat.mod_eq_of_lt (by omega)
  · rw [hb]
    omega
  · rw [hb]
    omega

/-- Witness for `lenext_forgery_shape`: a 32-byte tag, the message 09 09 09, the
suffix 07 07 and the guess 5. -/
theorem lenext_forgery_shape_witness :
    (8 * (5 + [9, 9, 9].length + 72) < 2 ^ 64 ∧ [9, 9, 9].length + [7, 7].length + 72 < 2 ^ 64) ∧
    ∃ glue glue_len, Project4.md_pad (5 + [9, 9, 9].length) = (glue, glue_len) ∧
      glue.length = glue_len ∧
      (Project4.do_lenext_attack (List.replicate 32 1) [9, 9, 9] [7, 7] 5).forged_msg
        = [9, 9, 9] ++ glue ++ [7, 7] ∧
      (Project4.do_lenext_attack (List.replicate 32 1) [9, 9, 9] [7, 7] 5).forged_len
        = [9, 9, 9].length + glue_len + [7, 7].length ∧
      (Project4.do_lenext_attack (List.replicate 32 1) [9, 9, 9] [7, 7] 5).glue_len = glue_len ∧
      (Project4.do_lenext_attack (List.replicate 32 1) [9, 9, 9] [7, 7] 5).secret_len_guess = 5 ∧
      (Project4.do_lenext_attack (List.replicate 32 1) [9, 9, 9] [7, 7] 5).forged_tag
        = (Project4.sm3_final (Project4.sm3_update
            (Project4.resumed_ctx (List.replicate 32 1) (5 + [9, 9, 9].length + glue_len))
            [7, 7])).2 ∧
      (Project4.resumed_ctx (List.replicate 32 1) (5 + [9, 9, 9].length + glue_len)).state
        = (List.range 8).map (Bits.load_be32 (List.replicate 32 1)) ∧
      (Project4.resumed_ctx (List.replicate 32 1) (5 + [9, 9, 9].length + glue_len)).buffer_len
        = 0 ∧
      (Project4.resumed_ctx (List.replicate 32 1) (5 + [9, 9, 9].length + glue_len)).bitlen
        = 8 * (5 + [9, 9, 9].length + glue_len) ∧
      (Project4.resumed_ctx (List.replicate 32 1) (5 + [9, 9, 9].length + glue_len)).bitlen
        % 512 = 0 :=
  ⟨⟨by decide, by decide⟩,
    lenext_forgery_shape (List.replicate 32 1) [9, 9, 9] [7, 7] 5 (by decide) (by decide)⟩

/-- C28: `merkle_build` returns `NULL` exactly when there are no leaves, and
`merkle_inclusion_proof` returns -1 and writes no proof, for every index, when
`levels` is `NULL` and when `nlevels` is 0. -/
theorem merkle_empty_tree (H : List Nat → List Nat) (leaves : List (List Nat))
    (lv : List Project3.level_t) (nlevels leaf_index : Nat) :
    (Project3.merkle_build H leaves = none ↔ leaves.length = 0) ∧
    Project3.merkle_inclusion_proof none nlevels leaf_index = (-1, none) ∧
    Project3.merkle_inclusion_proof (some lv) 0 leaf_index = (-1, none) := by
  refine ⟨?_, rfl, rfl⟩
  unfold Project3.merkle_build
  by_cases h : leaves.length = 0
  · simp [h]
  · simp [h]

/-- C29: for a non-empty list of `n` leaves the loop of `merkle_build` ends by its
own test after `ceil(log2 n)` passes (every level but the last has more than one
node, the last has one), so `ceil(log2 n) + 1` levels are written, where
`ceil(log2 n)` is the least `c` with `n ≤ 2 ^ c`; the array has
`max_levels = bitlength(n) + 2` entries, where `2 ^ (bitlength(n) - 1) ≤ n <
2 ^ bitlength(n)`, and the number of levels written is below `max_levels`, so
every index `level_idx + 1` the loop writes is inside the array. -/
theorem merkle_build_level_count (H : List Nat → List Nat) (leaves : List (List Nat))
    (hne : leaves ≠ []) :
    ∃ lv, Project3.merkle_build H leaves = some lv ∧
      lv.length = Nat.clog 2 leaves.length + 1 ∧
      leaves.length ≤ 2 ^ (lv.length - 1) ∧
      (∀ k, k + 1 < lv.length → 2 ^ k < leaves.length) ∧
      (∀ k, k + 1 < lv.length → (lv.getD k ⟨[], 0⟩).nodes > 1) ∧
      (lv.getD (lv.length - 1) ⟨[], 0⟩).nodes = 1 ∧
      Project3.max_levels leaves.length = Nat.size leaves.length + 2 ∧
      leaves.length < 2 ^ (Project3.max_levels leaves.length - 2) ∧
      2 ^ (Project3.max_levels leaves.length - 3) ≤ leaves.length ∧
      lv.length < Project3.max_levels leaves.length := by
  have hn : 0 < leaves.length := List.length_pos.mpr hne
  obtain ⟨lv, hb, -, -, -, -, htop⟩ := Project3.merkle_build_spec H leaves hne
  have hb' : Project3.merkle_build H leaves = some (Project3.build_levels H leaves.length
      { data := leaves.map (Project3.hash_leaf H), nodes := leaves.length }) := by
    have hz : ¬ leaves.length = 0 := by omega
    simp only [Project3.merkle_build, hz, if_false]
  have e : lv = Project3.build_levels H leaves.length
      { data := leaves.map (Project3.hash_leaf H), nodes := leaves.length } := by
    rw [hb'] at hb
    exact (Option.some.inj hb).symm
  have hlen : lv.length = Nat.clog 2 leaves.length + 1 := by
    rw [e]
    exact Project3.build_levels_length H leaves.length _ (Project3.clog_le_self _)
  have hgt : ∀ k, k + 1 < lv.length → (lv.getD k ⟨[], 0⟩).nodes > 1 := by
    intro k hk
    rw [e] at hk ⊢
    exact Project3.build_levels_gt_one H ⟨[], 0⟩ _ _ k hk
  have hml := Project3.max_levels_eq leaves.length
  have hsz : 0 < Nat.size leaves.length := Nat.size_pos.mpr hn
  have hcs : Nat.clog 2 leaves.length ≤ Nat.size leaves.length :=
    (Nat.le_pow_iff_clog_le (by decide)).mp (Nat.le_of_lt (Nat.lt_size_self _))
  refine ⟨lv, hb, hlen, ?_, ?_, hgt, htop, hml, ?_, ?_, by omega⟩
  · rw [hlen, Nat.add_sub_cancel]
    exact Nat.le_pow_clog (by decide) _
  · intro k hk
    exact (Nat.pow_lt_iff_lt_clog (by decide)).mpr (by omega)
  · rw [hml, Nat.add_sub_cancel]
    exact Nat.lt_size_self _
  · rw [hml]
    exact Nat.lt_size.mp (by omega)

/-- Witness for `merkle_build_level_count`: three one-byte leaves and the identity
in place of the hash function. -/
theorem merkle_build_level_count_witness :
    ([[1], [2], [3]] : List (List Nat)) ≠ [] ∧
    ∃ lv, Project3.merkle_build id [[1], [2], [3]] = some lv ∧
      lv.length = Nat.clog 2 [[1], [2], [3]].length + 1 ∧
      [[1], [2], [3]].length ≤ 2 ^ (lv.length - 1) ∧
      (∀ k, k + 1 < lv.length → 2 ^ k < [[1], [2], [3]].length) ∧
      (∀ k, k + 1 < lv.length → (lv.getD k ⟨[], 0⟩).nodes > 1) ∧
      (lv.getD (lv.length - 1) ⟨[], 0⟩).nodes = 1 ∧
      Project3.max_levels [[1], [2], [3]].length = Nat.size [[1], [2], [3]].length + 2 ∧
      [[1], [2], [3]].length < 2 ^ (Project3.max_levels [[1], [2], [3]].length - 2) ∧
      2 ^ (Project3.max_levels [[1], [2], [3]].length - 3) ≤ [[1], [2], [3]].length ∧
      lv.length < Project3.max_levels [[1], [2], [3]].length :=
  ⟨by decide, merkle_build_level_count id [[1], [2], [3]] (by decide)⟩

/-- C30: for every leaf list of odd length `n ≥ 3`, `merkle_build` on the list and
`merkle_build` on the list with its last leaf appended once more return trees with
the same number of levels, the same levels above level 0 and the same
`merkle_root`, although the two leaf lists differ. -/
theorem merkle_duplicate_last_same_root (H : List Nat → List Nat) (leaves : List (List Nat))
    (hodd : leaves.length % 2 = 1) (h3 : 3 ≤ leaves.length) :
    leaves ++ [leaves.getD (leaves.length - 1) []] ≠ leaves ∧
    ∃ lv lv', Project3.merkle_build H leaves = some lv ∧
      Project3.merkle_build H (leaves ++ [leaves.getD (leaves.length - 1) []]) = some lv' ∧
      lv'.length = lv.length ∧ lv'.drop 1 = lv.drop 1 ∧
      Project3.merkle_root lv' lv'.length = Project3.merkle_root lv lv.length := by
  refine ⟨fun h => ?_, ?_⟩
  · have := congrArg List.length h
    rw [List.length_append, List.length_singleton] at this
    omega
  have hlen' : (leaves ++ [leaves.getD (leaves.length - 1) []]).length
      = leaves.length + 1 := by
    rw [List.length_append, List.length_singleton]
  obtain ⟨n, hn⟩ : ∃ n, leaves.length = n + 1 := ⟨leaves.length - 1, by omega⟩
  have hdup := Project3.next_level_dup H leaves hodd
  have hz : ¬ leaves.length = 0 := by omega
  have hz' : ¬ (leaves ++ [leaves.getD (leaves.length - 1) []]).length = 0 := by omega
  have hb : Project3.merkle_build H leaves = some (Project3.build_levels H leaves.length
      { data := leaves.map (Project3.hash_leaf H), nodes := leaves.length }) := by
    simp only [Project3.merkle_build, hz, if_false]
  have hb' : Project3.merkle_build H (leaves ++ [leaves.getD (leaves.length - 1) []])
      = some (Project3.build_levels H (leaves ++ [leaves.getD (leaves.length - 1) []]).length
          { data := (leaves ++ [leaves.getD (leaves.length - 1) []]).map (Project3.hash_leaf H),
            nodes := (leaves ++ [leaves.getD (leaves.length - 1) []]).length }) := by
    simp only [Project3.merkle_build, hz', if_false]
  refine ⟨_, _, hb, hb', ?_⟩
  generalize hN : Project3.next_level H
    { data := leaves.map (Project3.hash_leaf H), nodes := leaves.length } = N at hdup
  have hNn : N.nodes = (leaves.length + 1) / 2 := by rw [← hN]; rfl
  have hc : Nat.clog 2 N.nodes ≤ n := by
    have := Project3.clog_le_self N.nodes
    omega
  obtain ⟨L0, hL0⟩ : ∃ L : Project3.level_t, L =
      { data := leaves.map (Project3.hash_leaf H), nodes := leaves.length } := ⟨_, rfl⟩
  obtain ⟨L1, hL1⟩ : ∃ L : Project3.level_t, L =
      { data := (leaves ++ [leaves.getD (leaves.length - 1) []]).map (Project3.hash_leaf H),
        nodes := (leaves ++ [leaves.getD (leaves.length - 1) []]).length } := ⟨_, rfl⟩
  rw [← hL0] at hN ⊢
  rw [← hL1] at hdup ⊢
  have hn0 : L0.nodes > 1 := by rw [hL0]; show leaves.length > 1; omega
  have hn1 : L1.nodes > 1 := by
    rw [hL1]
    show (leaves ++ [leaves.getD (leaves.length - 1) []]).length > 1
    omega
  have e1 : Project3.build_levels H leaves.length L0 = L0 :: Project3.build_levels H n N := by
    rw [hn, Project3.build_levels_step H n L0 hn0, hN]
  have e2 : Project3.build_levels H (leaves ++ [leaves.getD (leaves.length - 1) []]).length L1
      = L1 :: Project3.build_levels H n N := by
    rw [hlen', hn, Project3.build_levels_step H (n + 1) L1 hn1, hdup,
      Project3.build_levels_fuel H (n + 1) n N (by omega) hc]
  rw [e1, e2]
  have hpos := Project3.build_levels_length_pos H n N
  refine ⟨rfl, rfl, ?_⟩
  unfold Project3.merkle_root
  simp only [List.length_cons, Nat.add_sub_cancel]
  obtain ⟨m, hm⟩ : ∃ m, (Project3.build_levels H n N).length = m + 1 :=
    ⟨_, (Nat.succ_pred_eq_of_pos hpos).symm⟩
  rw [hm, List.getD_cons_succ, List.getD_cons_succ]

/-- Witness for `merkle_duplicate_last_same_root`: three one-byte leaves and the
identity in place of the hash function. -/
theorem merkle_duplicate_last_same_root_witness :
    ([[1], [2], [3]].length % 2 = 1 ∧ 3 ≤ [[1], [2], [3]].length) ∧
    [[1], [2], [3]] ++ [[[1], [2], [3]].getD ([[1], [2], [3]].length - 1) []]
      ≠ [[1], [2], [3]] ∧
    ∃ lv lv', Project3.merkle_build id [[1], [2], [3]] = some lv ∧
      Project3.merkle_build id
        ([[1], [2], [3]] ++ [[[1], [2], [3]].getD ([[1], [2], [3]].length - 1) []]) = some lv' ∧
      lv'.length = lv.length ∧ lv'.drop 1 = lv.drop 1 ∧
      Project3.merkle_root lv' lv'.length = Project3.merkle_root lv lv.length :=
  ⟨⟨by decide, by decide⟩,
    merkle_duplicate_last_same_root id [[1], [2], [3]] (by decide) (by decide)⟩

/-- C31: for every `i` in 0 .. 31 and `j` in 0 .. 3, byte `j` of `CK[i]`, counted
from the most significant one, is `(7 * (4 * i + j)) mod 256`; the table has 32
entries. -/
theorem CK_generating_rule :
    Project1.CK.length = 32 ∧
    ∀ i, i < 32 → ∀ j, j < 4 →
      (Project1.CK.getD i 0 >>> (8 * (3 - j))) &&& 0xFF = (7 * (4 * i + j)) % 256 := by
  constructor <;> decide

/-- C32: `SM4_SBOX` has 256 entries, all of them bytes and pairwise distinct, and
every byte occurs in it; `sm4_tau` maps 32-bit words to 32-bit words, takes
different values on different words, and reaches every 32-bit word. -/
theorem sm4_sbox_permutation :
    Project1.SM4_SBOX.length = 256 ∧
    (∀ b ∈ Project1.SM4_SBOX, b < 256) ∧
    Project1.SM4_SBOX.Nodup ∧
    (∀ i j, i < 256 → j < 256 →
      Project1.SM4_SBOX.getD i 0 = Project1.SM4_SBOX.getD j 0 → i = j) ∧
    (∀ v, v < 256 → ∃ i, i < 256 ∧ Project1.SM4_SBOX.getD i 0 = v) ∧
    (∀ x, Project1.sm4_tau x < 2 ^ 32) ∧
    (∀ x y, x < 2 ^ 32 → y < 2 ^ 32 → Project1.sm4_tau x = Project1.sm4_tau y → x = y) ∧
    (∀ y, y < 2 ^ 32 → ∃ x, x < 2 ^ 32 ∧ Project1.sm4_tau x = y) := by
  refine ⟨by decide, by decide, by decide, ?_, ?_, Project1.sm4_tau_lt, ?_, ?_⟩
  · intro i j hi hj h
    rw [← Project1.sbox_inv_sbox i hi, ← Project1.sbox_inv_sbox j hj, h]
  · intro v hv
    exact ⟨_, Project1.sbox_inv_lt v, Project1.sbox_sbox_inv v hv⟩
  · intro x y hx hy h
    rw [← Project1.sm4_tau_inv_tau x hx, ← Project1.sm4_tau_inv_tau y hy, h]
  · intro y hy
    exact ⟨_, Project1.sm4_tau_inv_lt y, Project1.sm4_tau_tau_inv y hy⟩
